import Mathlib

/-
Verification of the Dexbot layered memory engine against its specification.

The definitions below are a shallow embedding of the relevant parts of
`src/db.js` (the `MemoryStore` class and its helper functions) and
`src/dashboard.js` (the `MemoryEngine` class and its helper functions).
JavaScript strings are modelled as Lean `String`/`List Char`, SQLite tables
as Lean lists of row structures, REAL columns as `ℚ`, and timestamps as
rationals (an affine image of `julianday`, which preserves all comparisons
the code performs).  JSON-encoded columns (`tags_json`, `objects_json`) are
modelled at the domain level as `List String`, since every reader and writer
in the code round-trips them through `JSON.stringify`/`safeJson`.
-/

set_option maxHeartbeats 1000000

namespace Dexbot

/-! ### JavaScript string primitives -/

/-- The character class recognised by the JavaScript `\s` class (and by
`String.prototype.trim`): ASCII whitespace, NBSP, BOM, and the Unicode
space separators. -/
def isJsSpace (c : Char) : Bool :=
  c == ' ' || c == '\t' || c == '\n' || c.val == 13 || c.val == 11 ||
  c.val == 12 || c.val == 160 || c.val == 0x1680 ||
  (0x2000 ≤ c.val && c.val ≤ 0x200A) || c.val == 0x2028 || c.val == 0x2029 ||
  c.val == 0x202F || c.val == 0x205F || c.val == 0xFEFF

/-- `String.prototype.trim` on a character list. -/
def jsTrimList (l : List Char) : List Char :=
  ((l.dropWhile isJsSpace).reverse.dropWhile isJsSpace).reverse

/-- `String.prototype.toLowerCase`, at ASCII fidelity (the only case folding
exercised by the code paths modelled here). -/
def jsToLowerList (l : List Char) : List Char :=
  l.map Char.toLower

/-- State machine for `replace(/\s+/g, ' ')`: `prevSpace` records whether the
previous character belonged to a whitespace run whose single replacement
space has already been emitted. -/
def collapseWsAux (prevSpace : Bool) : List Char → List Char
  | [] => []
  | c :: cs =>
    if isJsSpace c then
      if prevSpace then collapseWsAux true cs
      else ' ' :: collapseWsAux true cs
    else c :: collapseWsAux false cs

/-- `replace(/\s+/g, ' ')`: every maximal whitespace run becomes one space. -/
def collapseWsList (l : List Char) : List Char :=
  collapseWsAux false l

def jsTrim (s : String) : String := ⟨jsTrimList s.data⟩

def jsToLower (s : String) : String := ⟨jsToLowerList s.data⟩

def collapseWs (s : String) : String := ⟨collapseWsList s.data⟩

/-- Worker for `jsSetDedupe`: `seen` holds the values already emitted. -/
def jsSetDedupeAux {α : Type} [DecidableEq α] (seen : List α) :
    List α → List α
  | [] => []
  | x :: xs =>
    if x ∈ seen then jsSetDedupeAux seen xs
    else x :: jsSetDedupeAux (x :: seen) xs

/-- `Array.from(new Set(xs))`: deduplication preserving first occurrence. -/
def jsSetDedupe {α : Type} [DecidableEq α] (l : List α) : List α :=
  jsSetDedupeAux [] l

/-! ### `db.js`: `normalizeFactKey` -/

/-- One component of `normalizeFactKey`:
`String(v || '').trim().toLowerCase().replace(/\s+/g, ' ')`. -/
def normalizeFactPart (v : String) : String :=
  collapseWs (jsToLower (jsTrim v))

/-- `normalizeFactKey(subject, predicate, object)` from `db.js`. -/
def normalizeFactKey (subject predicate object : String) : String :=
  normalizeFactPart subject ++ "|" ++ normalizeFactPart predicate ++ "|" ++
    normalizeFactPart object

/-! ### `db.js`: the `facts` table and `upsertFact` -/

/-- One row of the `facts` table. -/
structure FactRow where
  id : Nat
  chatId : Int
  subject : String
  predicate : String
  object : String
  confidence : ℚ
  tags : List String
  createdAt : ℚ
  lastConfirmedAt : ℚ
  sourceFile : String
  sourceExcerpt : String
  factKey : String
  active : Bool
deriving Repr, DecidableEq

/-- The `facts` table together with the AUTOINCREMENT counter. -/
structure FactStore where
  rows : List FactRow
  nextId : Nat
deriving Repr, DecidableEq

/-- `AUTOINCREMENT` discipline: every stored row id is below the counter. -/
def FactStore.WF (st : FactStore) : Prop :=
  ∀ r ∈ st.rows, r.id < st.nextId

/-- The `findFactByKey` prepared statement:
`SELECT * FROM facts WHERE chat_id = ? AND fact_key = ?` (first hit). -/
def findFactByKey (rows : List FactRow) (chatId : Int) (factKey : String) :
    Option FactRow :=
  rows.find? (fun r => r.chatId == chatId && r.factKey == factKey)

/-- The tag normalisation performed by `upsertFact`:
`Array.from(new Set(tags.map((t) => String(t).trim()).filter(Boolean)))`. -/
def cleanTags (tags : List String) : List String :=
  jsSetDedupe ((tags.map jsTrim).filter (fun t => t ≠ ""))

/-- Arguments of `MemoryStore.upsertFact`. -/
structure UpsertFactArgs where
  chatId : Int
  subject : String
  predicate : String
  object : String
  confidence : ℚ
  tags : List String
  createdAt : Option ℚ
  sourceFile : String
  sourceExcerpt : String
deriving Repr, DecidableEq

/-- Result triple of `upsertFact`: `{ id, inserted, updated }`. -/
structure UpsertFactResult where
  id : Nat
  inserted : Bool
  updated : Bool
deriving Repr, DecidableEq

/-- `MemoryStore.upsertFact` from `db.js`.  `nowClock` stands for `nowIso()`;
the code uses `createdAt || nowIso()` as the effective timestamp.  The
`INSERT` branch appends a fresh row with `active = 1`; the update branch
raises confidence to the max, merges tags, refreshes `last_confirmed_at`,
and keeps the old source fields when the new ones are falsy. -/
def upsertFact (st : FactStore) (nowClock : ℚ) (a : UpsertFactArgs) :
    FactStore × UpsertFactResult :=
  let factKey := normalizeFactKey a.subject a.predicate a.object
  let now := a.createdAt.getD nowClock
  let tagsClean := cleanTags a.tags
  match findFactByKey st.rows a.chatId factKey with
  | none =>
    let row : FactRow :=
      { id := st.nextId, chatId := a.chatId, subject := a.subject,
        predicate := a.predicate, object := a.object,
        confidence := a.confidence, tags := tagsClean, createdAt := now,
        lastConfirmedAt := now, sourceFile := a.sourceFile,
        sourceExcerpt := a.sourceExcerpt, factKey := factKey, active := true }
    ({ rows := st.rows ++ [row], nextId := st.nextId + 1 },
     { id := st.nextId, inserted := true, updated := false })
  | some found =>
    let nextConfidence := max found.confidence a.confidence
    let mergedTags := jsSetDedupe (found.tags ++ tagsClean)
    let rows' := st.rows.map (fun r =>
      if r.id = found.id then
        { r with confidence := nextConfidence, tags := mergedTags,
                 lastConfirmedAt := now,
                 sourceFile := if a.sourceFile ≠ "" then a.sourceFile
                               else r.sourceFile,
                 sourceExcerpt := if a.sourceExcerpt ≠ "" then a.sourceExcerpt
                                  else r.sourceExcerpt,
                 active := true }
      else r)
    ({ rows := rows', nextId := st.nextId },
     { id := found.id, inserted := false, updated := true })

/-- Number of stored rows for a given `(chatId, factKey)` pair. -/
def countFactKey (st : FactStore) (chatId : Int) (factKey : String) : Nat :=
  (st.rows.filter (fun r => r.chatId == chatId && r.factKey == factKey)).length

/-- The row inserted by the `!found` branch of `upsertFact`. -/
def insertedFactRow (st : FactStore) (nowClock : ℚ) (a : UpsertFactArgs) :
    FactRow :=
  { id := st.nextId, chatId := a.chatId, subject := a.subject,
    predicate := a.predicate, object := a.object,
    confidence := a.confidence, tags := cleanTags a.tags,
    createdAt := a.createdAt.getD nowClock,
    lastConfirmedAt := a.createdAt.getD nowClock, sourceFile := a.sourceFile,
    sourceExcerpt := a.sourceExcerpt,
    factKey := normalizeFactKey a.subject a.predicate a.object, active := true }

theorem upsertFact_of_find_none (st : FactStore) (n : ℚ) (a : UpsertFactArgs)
    (h : findFactByKey st.rows a.chatId
          (normalizeFactKey a.subject a.predicate a.object) = none) :
    upsertFact st n a =
      ({ rows := st.rows ++ [insertedFactRow st n a], nextId := st.nextId + 1 },
       { id := st.nextId, inserted := true, updated := false }) := by
  simp only [upsertFact, h, insertedFactRow]

theorem upsertFact_of_find_some (st : FactStore) (n : ℚ) (a : UpsertFactArgs)
    (found : FactRow)
    (h : findFactByKey st.rows a.chatId
          (normalizeFactKey a.subject a.predicate a.object) = some found) :
    upsertFact st n a =
      ({ rows := st.rows.map (fun r =>
            if r.id = found.id then
              { r with confidence := max found.confidence a.confidence,
                       tags := jsSetDedupe (found.tags ++ cleanTags a.tags),
                       lastConfirmedAt := a.createdAt.getD n,
                       sourceFile := if a.sourceFile ≠ "" then a.sourceFile
                                     else r.sourceFile,
                       sourceExcerpt := if a.sourceExcerpt ≠ "" then
                                          a.sourceExcerpt
                                        else r.sourceExcerpt,
                       active := true }
            else r), nextId := st.nextId },
       { id := found.id, inserted := false, updated := true }) := by
  simp only [upsertFact, h]

theorem countFactKey_eq_zero_find_none (st : FactStore) (c : Int) (k : String)
    (h : countFactKey st c k = 0) : findFactByKey st.rows c k = none := by
  rw [countFactKey, List.length_eq_zero, List.filter_eq_nil_iff] at h
  rw [findFactByKey, List.find?_eq_none]
  exact fun x hx => h x hx

/-- **C1.** Upserting the same normalized `(subject, predicate, object)` key
twice into a chat with no prior row for that key leaves exactly one stored
fact row for `(chatId, factKey)`, whose confidence is `max(c1, c2)` (hence
`c2` when `c1 ≤ c2`, never lower than either assertion) and whose
`last_confirmed_at` is refreshed to the second call's timestamp. -/
theorem upsertFact_idempotent_max
    (st : FactStore) (n1 n2 : ℚ) (a1 a2 : UpsertFactArgs)
    (hwf : st.WF)
    (hchat : a2.chatId = a1.chatId)
    (hkey : normalizeFactKey a2.subject a2.predicate a2.object
            = normalizeFactKey a1.subject a1.predicate a1.object)
    (hc : a1.confidence ≤ a2.confidence)
    (hfresh : countFactKey st a1.chatId
        (normalizeFactKey a1.subject a1.predicate a1.object) = 0) :
    countFactKey ((upsertFact (upsertFact st n1 a1).1 n2 a2).1) a1.chatId
        (normalizeFactKey a1.subject a1.predicate a1.object) = 1 ∧
    ∃ r ∈ ((upsertFact (upsertFact st n1 a1).1 n2 a2).1).rows,
      r.chatId = a1.chatId ∧
      r.factKey = normalizeFactKey a1.subject a1.predicate a1.object ∧
      r.confidence = max a1.confidence a2.confidence ∧
      r.confidence = a2.confidence ∧
      r.lastConfirmedAt = a2.createdAt.getD n2 := by
  have hfind1 : findFactByKey st.rows a1.chatId
      (normalizeFactKey a1.subject a1.predicate a1.object) = none :=
    countFactKey_eq_zero_find_none st _ _ hfresh
  have h1 := upsertFact_of_find_none st n1 a1 hfind1
  set row1 := insertedFactRow st n1 a1 with hrow1
  have hst1 : (upsertFact st n1 a1).1 =
      { rows := st.rows ++ [row1], nextId := st.nextId + 1 } := by
    rw [h1]
  have hrowkey : row1.factKey =
      normalizeFactKey a1.subject a1.predicate a1.object := rfl
  have hrowchat : row1.chatId = a1.chatId := rfl
  have hrowid : row1.id = st.nextId := rfl
  -- the second call finds the freshly inserted row
  have hfind2 : findFactByKey (st.rows ++ [row1]) a2.chatId
      (normalizeFactKey a2.subject a2.predicate a2.object) = some row1 := by
    rw [findFactByKey, hkey, hchat, List.find?_append]
    rw [findFactByKey] at hfind1
    rw [hfind1]
    simp [hrowkey, hrowchat]
  have h2 := upsertFact_of_find_some
      { rows := st.rows ++ [row1], nextId := st.nextId + 1 } n2 a2 row1 hfind2
  rw [hst1]
  rw [h2]
  -- rows of the prefix are untouched by the id-keyed update
  have hmap : ∀ r ∈ st.rows,
      (fun r =>
        if r.id = row1.id then
          { r with confidence := max row1.confidence a2.confidence,
                   tags := jsSetDedupe (row1.tags ++ cleanTags a2.tags),
                   lastConfirmedAt := a2.createdAt.getD n2,
                   sourceFile := if a2.sourceFile ≠ "" then a2.sourceFile
                                 else r.sourceFile,
                   sourceExcerpt := if a2.sourceExcerpt ≠ "" then
                                      a2.sourceExcerpt
                                    else r.sourceExcerpt,
                   active := true }
        else r) r = r := by
    intro r hr
    have : r.id ≠ row1.id := by
      have := hwf r hr
      rw [hrowid]
      omega
    simp [this]
  have hpref := (List.map_congr_left hmap).trans (List.map_id' st.rows)
  constructor
  · rw [countFactKey]
    simp only [List.map_append, List.filter_append]
    rw [hpref]
    have hnil : st.rows.filter (fun r =>
        r.chatId == a1.chatId &&
        r.factKey == normalizeFactKey a1.subject a1.predicate a1.object) =
        [] := by
      rw [countFactKey, List.length_eq_zero] at hfresh
      exact hfresh
    rw [hnil]
    simp [hrowkey, hrowchat]
  · refine ⟨{ row1 with
              confidence := max row1.confidence a2.confidence,
              tags := jsSetDedupe (row1.tags ++ cleanTags a2.tags),
              lastConfirmedAt := a2.createdAt.getD n2,
              sourceFile := if a2.sourceFile ≠ "" then a2.sourceFile
                            else row1.sourceFile,
              sourceExcerpt := if a2.sourceExcerpt ≠ "" then a2.sourceExcerpt
                               else row1.sourceExcerpt,
              active := true }, ?_, ?_, ?_, ?_, ?_, ?_⟩
    · simp only [List.map_append]
      rw [hpref]
      refine List.mem_append_right _ ?_
      simp
    · simpa using hrowchat
    · simpa using hrowkey
    · have h : row1.confidence = a1.confidence := rfl
      simp [h]
    · have h : row1.confidence = a1.confidence := rfl
      simp [h, max_eq_right hc]
    · simp

/-- Concrete instantiation of `upsertFact_idempotent_max`: the two subjects
normalise to the same key although they differ in case and whitespace. -/
theorem upsertFact_idempotent_max_witness :
    ((7 : ℚ)/10 ≤ 9/10 ∧
     countFactKey (⟨[], 0⟩ : FactStore) 7
       (normalizeFactKey "User" "timezone" "Europe/Amsterdam") = 0) ∧
    (countFactKey ((upsertFact
        (upsertFact ⟨[], 0⟩ 0
          ⟨7, "User", "timezone", "Europe/Amsterdam", 7/10, ["profile"], none,
            "daily.md", "tz"⟩).1 0
        ⟨7, " user ", "timezone", "Europe/Amsterdam", 9/10, ["tz"], none,
          "daily2.md", "tz2"⟩).1) 7
        (normalizeFactKey "User" "timezone" "Europe/Amsterdam") = 1 ∧
     ∃ r ∈ ((upsertFact
        (upsertFact ⟨[], 0⟩ 0
          ⟨7, "User", "timezone", "Europe/Amsterdam", 7/10, ["profile"], none,
            "daily.md", "tz"⟩).1 0
        ⟨7, " user ", "timezone", "Europe/Amsterdam", 9/10, ["tz"], none,
          "daily2.md", "tz2"⟩).1).rows,
       r.chatId = 7 ∧
       r.factKey = normalizeFactKey "User" "timezone" "Europe/Amsterdam" ∧
       r.confidence = max (7/10) (9/10) ∧
       r.confidence = 9/10 ∧
       r.lastConfirmedAt = (Option.none.getD 0 : ℚ)) :=
  ⟨⟨by norm_num, by decide⟩,
   upsertFact_idempotent_max ⟨[], 0⟩ 0 0
     ⟨7, "User", "timezone", "Europe/Amsterdam", 7/10, ["profile"], none,
       "daily.md", "tz"⟩
     ⟨7, " user ", "timezone", "Europe/Amsterdam", 9/10, ["tz"], none,
       "daily2.md", "tz2"⟩
     (by intro r hr; simp at hr) rfl (by decide) (by norm_num) (by decide)⟩

/-! ### `db.js`: `decayFactConfidence` -/

/-- The per-row effect of the `decayFacts` UPDATE:
`SET confidence = MAX(0.1, confidence - ?)` on active rows of the chat whose
`julianday('now') - julianday(last_confirmed_at)` exceeds `daysOld`.
Timestamps are modelled directly in days, so the age is
`now - lastConfirmedAt`. -/
def decayRow (chatId : Int) (daysOld decayStep now : ℚ) (r : FactRow) :
    FactRow :=
  if r.chatId = chatId ∧ r.active = true ∧
      daysOld < now - r.lastConfirmedAt then
    { r with confidence := max (1/10) (r.confidence - decayStep) }
  else r

/-- `MemoryStore.decayFactConfidence(chatId, daysOld, decayStep)` from
`db.js`: one SQL UPDATE over the whole `facts` table. -/
def decayFactConfidence (chatId : Int) (daysOld decayStep now : ℚ)
    (rows : List FactRow) : List FactRow :=
  rows.map (decayRow chatId daysOld decayStep now)

theorem iterate_list_map {α : Type} (g : α → α) (n : ℕ) (l : List α) :
    (List.map g)^[n] l = l.map g^[n] := by
  induction n generalizing l with
  | zero => simp
  | succ n ih =>
    rw [Function.iterate_succ_apply', ih, List.map_map]
    congr 1
    exact (Function.iterate_succ' g n).symm

theorem decayRow_of_stale (chatId : Int) (daysOld decayStep now : ℚ)
    (r : FactRow) (h : r.chatId = chatId ∧ r.active = true ∧
      daysOld < now - r.lastConfirmedAt) :
    decayRow chatId daysOld decayStep now r =
      { r with confidence := max (1/10) (r.confidence - decayStep) } := by
  simp only [decayRow]
  rw [if_pos h]

theorem decayRow_iterate_confidence (chatId : Int)
    (daysOld decayStep now : ℚ) (r : FactRow)
    (hchat : r.chatId = chatId) (hact : r.active = true)
    (hstale : daysOld < now - r.lastConfirmedAt)
    (hstep : 0 ≤ decayStep) (n : ℕ) (hn : 1 ≤ n) :
    (decayRow chatId daysOld decayStep now)^[n] r =
      { r with confidence := max (1/10) (r.confidence - n * decayStep) } := by
  induction n with
  | zero => omega
  | succ n ih =>
    rcases Nat.lt_or_ge n 1 with h1 | h1
    · have hn0 : n = 0 := by omega
      subst hn0
      simp only [zero_add, Function.iterate_one]
      rw [decayRow_of_stale chatId daysOld decayStep now r
        ⟨hchat, hact, hstale⟩]
      norm_num
    · rw [Function.iterate_succ_apply', ih h1]
      rw [decayRow_of_stale chatId daysOld decayStep now
        { r with confidence := max (1/10) (r.confidence - n * decayStep) }
        ⟨hchat, hact, hstale⟩]
      congr 1
      show max (1/10 : ℚ)
          (max (1/10) (r.confidence - n * decayStep) - decayStep) = _
      rw [← max_sub_sub_right, ← max_assoc,
        max_eq_left (by linarith : (1/10 : ℚ) - decayStep ≤ 1/10)]
      congr 1
      push_cast
      ring

/-- **C3.** For any active fact of the chat whose age exceeds `daysOld`,
any starting confidence in `[0, 1]`, any nonnegative decay step, and any
number `n ≥ 1` of repeated `decayFactConfidence` invocations, the stored
confidence equals `max(0.1, confidence - n·decayStep)`, hence stays in
`[0.1, 1]` and is never driven to `0`. -/
theorem decayFactConfidence_bounds
    (rows : List FactRow) (chatId : Int) (daysOld decayStep now : ℚ)
    (n i : ℕ) (r : FactRow)
    (hget : rows[i]? = some r)
    (hchat : r.chatId = chatId) (hact : r.active = true)
    (hstale : daysOld < now - r.lastConfirmedAt)
    (hc0 : 0 ≤ r.confidence) (hc1 : r.confidence ≤ 1)
    (hstep : 0 ≤ decayStep) (hn : 1 ≤ n) :
    ∃ r', ((decayFactConfidence chatId daysOld decayStep now)^[n]
             rows)[i]? = some r' ∧
      r'.confidence = max (1/10) (r.confidence - n * decayStep) ∧
      1/10 ≤ r'.confidence ∧ r'.confidence ≤ 1 ∧ r'.confidence ≠ 0 := by
  have hfun : decayFactConfidence chatId daysOld decayStep now =
      List.map (decayRow chatId daysOld decayStep now) := rfl
  have hconf := decayRow_iterate_confidence chatId daysOld decayStep now r
    hchat hact hstale hstep n hn
  refine ⟨(decayRow chatId daysOld decayStep now)^[n] r, ?_, ?_, ?_, ?_, ?_⟩
  · rw [hfun, iterate_list_map, List.getElem?_map, hget, Option.map_some']
  · rw [hconf]
  · rw [hconf]
    exact le_max_left _ _
  · rw [hconf]
    refine max_le (by norm_num) ?_
    have : (0 : ℚ) ≤ n * decayStep :=
      mul_nonneg (Nat.cast_nonneg n) hstep
    linarith
  · rw [hconf]
    intro h0
    have h0' : (1/10 : ℚ) ⊔ (r.confidence - n * decayStep) = 0 := h0
    have h : (1/10 : ℚ) ≤ (1/10 : ℚ) ⊔ (r.confidence - n * decayStep) :=
      le_max_left _ _
    rw [h0'] at h
    norm_num at h

/-- Concrete instantiation of `decayFactConfidence_bounds`: a fact at
confidence `1/2`, decayed twice with step `3/10`, lands exactly on the
`0.1` floor. -/
theorem decayFactConfidence_bounds_witness :
    ((30 : ℚ) < 40 - 0 ∧ (0 : ℚ) ≤ 3/10 ∧ (0 : ℚ) ≤ 1/2 ∧ (1/2 : ℚ) ≤ 1) ∧
    (∃ r', ((decayFactConfidence 5 30 (3/10) 40)^[2]
        [⟨0, 5, "user", "timezone", "x", 1/2, [], 0, 0, "f", "e", "k",
          true⟩])[0]? = some r' ∧
      r'.confidence = max (1/10) ((1/2 : ℚ) - ((2 : ℕ) : ℚ) * (3/10)) ∧
      1/10 ≤ r'.confidence ∧ r'.confidence ≤ 1 ∧ r'.confidence ≠ 0) :=
  ⟨⟨by norm_num, by norm_num, by norm_num, by norm_num⟩,
   decayFactConfidence_bounds
     [⟨0, 5, "user", "timezone", "x", 1/2, [], 0, 0, "f", "e", "k", true⟩]
     5 30 (3/10) 40 2 0
     ⟨0, 5, "user", "timezone", "x", 1/2, [], 0, 0, "f", "e", "k", true⟩
     rfl rfl rfl (by norm_num) (by norm_num) (by norm_num) (by norm_num)
     (by norm_num)⟩

/-! ### `db.js`: the `open_loops` table and `upsertOpenLoop` -/

/-- One row of the `open_loops` table. -/
structure OpenLoopRow where
  id : Nat
  chatId : Int
  text : String
  tags : List String
  confidence : ℚ
  status : String
  createdAt : ℚ
  resolvedAt : Option ℚ
  sourceFile : String
deriving Repr, DecidableEq

/-- The `open_loops` table with its AUTOINCREMENT counter. -/
structure OpenLoopStore where
  rows : List OpenLoopRow
  nextId : Nat
deriving Repr, DecidableEq

/-- Arguments of `MemoryStore.upsertOpenLoop`. -/
structure UpsertOpenLoopArgs where
  chatId : Int
  text : String
  tags : List String
  confidence : ℚ
  sourceFile : String
deriving Repr, DecidableEq

/-- The conflict target of the `insertOpenLoop` statement: the
`UNIQUE(chat_id, text, status)` constraint, at the inserted status `open`. -/
def openLoopConflict (chatId : Int) (text : String) (r : OpenLoopRow) : Bool :=
  r.chatId == chatId && r.text == text && r.status == "open"

/-- `MemoryStore.upsertOpenLoop` from `db.js`:
`INSERT ... VALUES(?, ?, ?, ?, 'open', ?, ?) ON CONFLICT(chat_id, text,
status) DO UPDATE SET tags_json = excluded.tags_json,
confidence = MAX(open_loops.confidence, excluded.confidence),
created_at = excluded.created_at, source_file = excluded.source_file`,
with `tags_json` computed as `JSON.stringify(Array.from(new Set(tags)))`. -/
def upsertOpenLoop (st : OpenLoopStore) (now : ℚ) (a : UpsertOpenLoopArgs) :
    OpenLoopStore :=
  let tagsClean := jsSetDedupe a.tags
  match st.rows.find? (openLoopConflict a.chatId a.text) with
  | none =>
    { rows := st.rows ++ [⟨st.nextId, a.chatId, a.text, tagsClean,
        a.confidence, "open", now, none, a.sourceFile⟩],
      nextId := st.nextId + 1 }
  | some ex =>
    { rows := st.rows.map (fun r =>
        if r.id = ex.id then
          { r with tags := tagsClean,
                   confidence := max r.confidence a.confidence,
                   createdAt := now, sourceFile := a.sourceFile }
        else r),
      nextId := st.nextId }

/-- **C8, counterexample.** Reasserting the open-loop text `"t"` with new
tags `["b"]` over a stored row tagged `["a"]` keeps a single row but
*replaces* its tags with `["b"]` — the old tag `"a"` is lost, so the tags
are not merged as the claim states (confidence is still raised to
`max(1, 0) = 1`, the old value). -/
theorem upsertOpenLoop_tags_replaced_cex :
    (upsertOpenLoop ⟨[⟨0, 1, "t", ["a"], 1, "open", 0, none, "f"⟩], 1⟩ 1
        ⟨1, "t", ["b"], 0, "g"⟩).rows =
      [⟨0, 1, "t", ["b"], 1, "open", 1, none, "g"⟩] ∧
    ¬ "a" ∈ (["b"] : List String) := by
  constructor
  · rfl
  · decide

/-- **C8, amended.** `upsertOpenLoop` keyed by `(chatId, text, status)`:
when the same open-loop text is reasserted for a chat, no second row is
created; the existing row's tags are *replaced* by the newly supplied
(deduplicated) tags, and its confidence is raised to the maximum of the old
and new confidence. -/
theorem upsertOpenLoop_upsert_semantics
    (st : OpenLoopStore) (now : ℚ) (a : UpsertOpenLoopArgs)
    (ex : OpenLoopRow)
    (hfind : st.rows.find? (openLoopConflict a.chatId a.text) = some ex)
    (hfilter : st.rows.filter (openLoopConflict a.chatId a.text) = [ex]) :
    (upsertOpenLoop st now a).rows.length = st.rows.length ∧
    (upsertOpenLoop st now a).rows.filter
        (openLoopConflict a.chatId a.text) =
      [{ ex with tags := jsSetDedupe a.tags,
                 confidence := max ex.confidence a.confidence,
                 createdAt := now, sourceFile := a.sourceFile }] := by
  have hrows : (upsertOpenLoop st now a).rows = st.rows.map (fun r =>
      if r.id = ex.id then
        { r with tags := jsSetDedupe a.tags,
                 confidence := max r.confidence a.confidence,
                 createdAt := now, sourceFile := a.sourceFile }
      else r) := by
    simp only [upsertOpenLoop, hfind]
  have hex : ex ∈ st.rows ∧ openLoopConflict a.chatId a.text ex = true :=
    ⟨List.mem_of_find?_eq_some hfind, List.find?_some hfind⟩
  constructor
  · rw [hrows, List.length_map]
  · rw [hrows]
    have hcomm : ∀ r : OpenLoopRow,
        openLoopConflict a.chatId a.text
          ((fun r => if r.id = ex.id then
              { r with tags := jsSetDedupe a.tags,
                       confidence := max r.confidence a.confidence,
                       createdAt := now, sourceFile := a.sourceFile }
            else r) r) =
        openLoopConflict a.chatId a.text r := by
      intro r
      by_cases h : r.id = ex.id
      · simp [h, openLoopConflict]
      · simp [h]
    rw [List.filter_map]
    have heq : st.rows.filter ((openLoopConflict a.chatId a.text) ∘
        (fun r => if r.id = ex.id then
            { r with tags := jsSetDedupe a.tags,
                     confidence := max r.confidence a.confidence,
                     createdAt := now, sourceFile := a.sourceFile }
          else r)) = st.rows.filter (openLoopConflict a.chatId a.text) := by
      apply List.filter_congr
      intro r _
      exact hcomm r
    rw [heq, hfilter]
    simp

/-- Concrete instantiation of `upsertOpenLoop_upsert_semantics`. -/
theorem upsertOpenLoop_upsert_semantics_witness :
    ((([⟨0, 1, "t", ["a"], 1, "open", 0, none, "f"⟩] :
        List OpenLoopRow).find? (openLoopConflict 1 "t") =
      some ⟨0, 1, "t", ["a"], 1, "open", 0, none, "f"⟩) ∧
     (([⟨0, 1, "t", ["a"], 1, "open", 0, none, "f"⟩] :
        List OpenLoopRow).filter (openLoopConflict 1 "t") =
      [⟨0, 1, "t", ["a"], 1, "open", 0, none, "f"⟩])) ∧
    ((upsertOpenLoop ⟨[⟨0, 1, "t", ["a"], 1, "open", 0, none, "f"⟩], 1⟩ 1
        ⟨1, "t", ["b"], 0, "g"⟩).rows.length =
      ([⟨0, 1, "t", ["a"], 1, "open", 0, none, "f"⟩] :
        List OpenLoopRow).length ∧
     (upsertOpenLoop ⟨[⟨0, 1, "t", ["a"], 1, "open", 0, none, "f"⟩], 1⟩ 1
        ⟨1, "t", ["b"], 0, "g"⟩).rows.filter (openLoopConflict 1 "t") =
      [{ (⟨0, 1, "t", ["a"], 1, "open", 0, none, "f"⟩ : OpenLoopRow) with
           tags := jsSetDedupe ["b"],
           confidence := max (1 : ℚ) 0, createdAt := 1,
           sourceFile := "g" }]) :=
  ⟨⟨by decide, by decide⟩,
   upsertOpenLoop_upsert_semantics
     ⟨[⟨0, 1, "t", ["a"], 1, "open", 0, none, "f"⟩], 1⟩ 1
     ⟨1, "t", ["b"], 0, "g"⟩
     ⟨0, 1, "t", ["a"], 1, "open", 0, none, "f"⟩
     (by decide) (by decide)⟩

/-! ### `db.js`: chats, session state, exchanges, `startNewSession` -/

/-- One row of the `chats` table. -/
structure ChatRow where
  chatId : Int
  threadId : Option String
  sessionNo : Int
  createdAt : ℚ
  updatedAt : ℚ
deriving Repr, DecidableEq

/-- One row of the `session_state` table. -/
structure SessionRow where
  chatId : Int
  sessionNo : Int
  turnCount : Nat
  createdAt : ℚ
  updatedAt : ℚ
deriving Repr, DecidableEq

/-- One row of the `exchanges` table. -/
structure ExchangeRow where
  id : Nat
  chatId : Int
  sessionNo : Int
  dateKey : String
  createdAt : ℚ
  userText : String
  assistantText : String
deriving Repr, DecidableEq

/-- The tables touched by the session-management methods. -/
structure ChatDb where
  chats : List ChatRow
  sessions : List SessionRow
  exchanges : List ExchangeRow
deriving Repr, DecidableEq

/-- The `getChat` prepared statement. -/
def getChat (db : ChatDb) (chatId : Int) : Option ChatRow :=
  db.chats.find? (fun c => c.chatId == chatId)

/-- The `getSessionState` prepared statement. -/
def getSessionState (db : ChatDb) (chatId : Int) (sessionNo : Int) :
    Option SessionRow :=
  db.sessions.find? (fun s => s.chatId == chatId && s.sessionNo == sessionNo)

/-- `MemoryStore.ensureChat`: get-or-create with
`INSERT INTO chats(chat_id, thread_id, session_no, ...) VALUES(?, NULL, 1, ...)`. -/
def ensureChat (db : ChatDb) (chatId : Int) (now : ℚ) : ChatRow × ChatDb :=
  match getChat db chatId with
  | some row => (row, db)
  | none =>
    let row : ChatRow := ⟨chatId, none, 1, now, now⟩
    (row, { db with chats := db.chats ++ [row] })

/-- `MemoryStore.ensureSessionState`: get-or-create with `turn_count = 0`. -/
def ensureSessionState (db : ChatDb) (chatId : Int) (sessionNo : Int)
    (now : ℚ) : SessionRow × ChatDb :=
  match getSessionState db chatId sessionNo with
  | some row => (row, db)
  | none =>
    let row : SessionRow := ⟨chatId, sessionNo, 0, now, now⟩
    (row, { db with sessions := db.sessions ++ [row] })

/-- The `incrementSession` prepared statement:
`UPDATE chats SET session_no = session_no + 1, thread_id = NULL,
updated_at = ? WHERE chat_id = ?`. -/
def incrementSession (db : ChatDb) (chatId : Int) (now : ℚ) : ChatDb :=
  { db with chats := db.chats.map (fun c =>
      if c.chatId = chatId then
        { c with sessionNo := c.sessionNo + 1, threadId := none,
                 updatedAt := now }
      else c) }

/-- `MemoryStore.startNewSession(chatId)` from `db.js`: ensure the chat and
its current session state, bump the session counter (clearing `thread_id`),
re-read the chat and ensure the new session state.  The JS code would throw
on a missing re-read, modelled by the `none` branch. -/
def startNewSession (db : ChatDb) (chatId : Int) (now : ℚ) :
    Option ChatRow × ChatDb :=
  let state_db1 := ensureChat db chatId now
  let db2 := (ensureSessionState state_db1.2 chatId state_db1.1.sessionNo
    now).2
  let db3 := incrementSession db2 chatId now
  match getChat db3 chatId with
  | some next =>
    (some next, (ensureSessionState db3 chatId next.sessionNo now).2)
  | none => (none, db3)

/-- `MemoryStore.getSessionTurnCount`: `ensureSessionState(...).turn_count`. -/
def getSessionTurnCount (db : ChatDb) (chatId : Int) (sessionNo : Int)
    (now : ℚ) : Nat × ChatDb :=
  let r := ensureSessionState db chatId sessionNo now
  (r.1.turnCount, r.2)

theorem find?_chats_map_bump (l : List ChatRow) (chatId : Int) (now : ℚ)
    (ch : ChatRow) (h : l.find? (fun c => c.chatId == chatId) = some ch) :
    (l.map (fun c =>
      if c.chatId = chatId then
        { c with sessionNo := c.sessionNo + 1, threadId := none,
                 updatedAt := now }
      else c)).find? (fun c => c.chatId == chatId) =
      some { ch with sessionNo := ch.sessionNo + 1, threadId := none,
                     updatedAt := now } := by
  induction l with
  | nil => simp at h
  | cons c cs ih =>
    by_cases hc : c.chatId = chatId
    · rw [List.find?_cons_of_pos _ (by simpa using hc)] at h
      injection h with h
      subst h
      simp only [List.map_cons]
      rw [if_pos hc]
      apply List.find?_cons_of_pos
      simpa using hc
    · rw [List.find?_cons_of_neg _ (by simpa using hc)] at h
      simp only [List.map_cons]
      rw [if_neg hc]
      rw [List.find?_cons_of_neg _ (by simpa using hc)]
      exact ih h

theorem getChat_incrementSession (db : ChatDb) (chatId : Int) (now : ℚ)
    (ch : ChatRow) (h : getChat db chatId = some ch) :
    getChat (incrementSession db chatId now) chatId =
      some { ch with sessionNo := ch.sessionNo + 1, threadId := none,
                     updatedAt := now } := by
  rw [getChat] at h
  exact find?_chats_map_bump db.chats chatId now ch h

/-- **C7.** `startNewSession(chatId)` increments the chat's `sessionNo` by
exactly one, clears `threadId`, and creates the `SessionState` for the new
session so that `getSessionTurnCount` for the new session returns `0`,
while the previous session's exchanges and session-state rows remain stored
unchanged. -/
theorem startNewSession_spec (db : ChatDb) (chatId : Int) (now now2 : ℚ)
    (ch : ChatRow)
    (hchat : getChat db chatId = some ch)
    (hbound : ∀ s ∈ db.sessions, s.chatId = chatId →
      s.sessionNo ≤ ch.sessionNo) :
    ∃ next db', startNewSession db chatId now = (some next, db') ∧
      next.sessionNo = ch.sessionNo + 1 ∧
      next.threadId = none ∧
      (getSessionTurnCount db' chatId next.sessionNo now2).1 = 0 ∧
      db'.exchanges = db.exchanges ∧
      db'.chats = (incrementSession db chatId now).chats ∧
      ∀ s ∈ db.sessions, s ∈ db'.sessions := by
  have h1 : ensureChat db chatId now = (ch, db) := by
    rw [ensureChat, hchat]
  -- the second step only ever appends one session row at `ch.sessionNo`
  set db2 := (ensureSessionState db chatId ch.sessionNo now).2 with hdb2
  have hdb2cases : db2 = db ∨
      db2 = { db with sessions :=
        db.sessions ++ [⟨chatId, ch.sessionNo, 0, now, now⟩] } := by
    rw [hdb2, ensureSessionState]
    cases getSessionState db chatId ch.sessionNo with
    | none => right; rfl
    | some r => left; rfl
  have hdb2chats : db2.chats = db.chats := by
    rcases hdb2cases with h | h <;> rw [h]
  have hdb2ex : db2.exchanges = db.exchanges := by
    rcases hdb2cases with h | h <;> rw [h]
  have hdb2bound : ∀ s ∈ db2.sessions, s.chatId = chatId →
      s.sessionNo ≤ ch.sessionNo := by
    rcases hdb2cases with h | h
    · rw [h]; exact hbound
    · rw [h]
      intro s hs hsc
      rcases List.mem_append.mp hs with h' | h'
      · exact hbound s h' hsc
      · simp at h'
        subst h'
        exact le_refl _
  have hdb2sub : ∀ s ∈ db.sessions, s ∈ db2.sessions := by
    rcases hdb2cases with h | h
    · rw [h]; intro s hs; exact hs
    · rw [h]; intro s hs; exact List.mem_append_left _ hs
  -- chat lookup in db2 still yields ch
  have hchat2 : getChat db2 chatId = some ch := by
    rw [getChat, hdb2chats]
    exact hchat
  set db3 := incrementSession db2 chatId now with hdb3
  have hchat3 : getChat db3 chatId =
      some { ch with sessionNo := ch.sessionNo + 1, threadId := none,
                     updatedAt := now } :=
    getChat_incrementSession db2 chatId now ch hchat2
  have hdb3sess : db3.sessions = db2.sessions := rfl
  have hdb3ex : db3.exchanges = db2.exchanges := rfl
  -- the new session state is fresh, so it is created with turnCount 0
  have hnosess : getSessionState db3 chatId (ch.sessionNo + 1) = none := by
    rw [getSessionState, List.find?_eq_none]
    intro s hs
    rw [hdb3sess] at hs
    intro hmatch
    have h1 := (beq_iff_eq.mp (Bool.and_elim_left hmatch))
    have h2 := (beq_iff_eq.mp (Bool.and_elim_right hmatch))
    have := hdb2bound s hs h1
    omega
  have hens : ensureSessionState db3 chatId (ch.sessionNo + 1) now =
      (⟨chatId, ch.sessionNo + 1, 0, now, now⟩,
       { db3 with sessions :=
          db3.sessions ++ [⟨chatId, ch.sessionNo + 1, 0, now, now⟩] }) := by
    rw [ensureSessionState, hnosess]
  refine ⟨{ ch with
            sessionNo := ch.sessionNo + 1,
            threadId := none,
            updatedAt := now },
    { db3 with sessions :=
        db3.sessions ++ [⟨chatId, ch.sessionNo + 1, 0, now, now⟩] },
    ?_, rfl, rfl, ?_, ?_, ?_, ?_⟩
  · rw [startNewSession]
    rw [h1]
    simp only
    rw [← hdb2, ← hdb3, hchat3]
    show ((some { ch with
            sessionNo := ch.sessionNo + 1,
            threadId := none,
            updatedAt := now } : Option ChatRow),
          (ensureSessionState db3 chatId (ch.sessionNo + 1) now).2) = _
    rw [hens]
  · rw [getSessionTurnCount]
    have hfound : getSessionState
        { db3 with sessions :=
            db3.sessions ++ [⟨chatId, ch.sessionNo + 1, 0, now, now⟩] }
        chatId (ch.sessionNo + 1) =
        some ⟨chatId, ch.sessionNo + 1, 0, now, now⟩ := by
      rw [getSessionState]
      show (db3.sessions ++
        [({ chatId := chatId, sessionNo := ch.sessionNo + 1, turnCount := 0,
            createdAt := now, updatedAt := now } : SessionRow)]).find?
          (fun s => s.chatId == chatId && s.sessionNo == ch.sessionNo + 1) =
        some { chatId := chatId, sessionNo := ch.sessionNo + 1,
               turnCount := 0, createdAt := now, updatedAt := now }
      rw [List.find?_append]
      rw [getSessionState] at hnosess
      rw [hnosess]
      simp
    rw [ensureSessionState, hfound]
  · rw [hdb3ex, hdb2ex]
  · rw [hdb3]
    rw [incrementSession, incrementSession]
    rw [hdb2chats]
  · intro s hs
    refine List.mem_append_left _ ?_
    rw [hdb3sess]
    exact hdb2sub s hs

/-- Concrete instantiation of `startNewSession_spec`: a chat at session 3
with a live thread id, an in-progress session state and one exchange. -/
theorem startNewSession_spec_witness :
    (getChat ⟨[⟨1, some "th", 3, 0, 0⟩], [⟨1, 3, 5, 0, 0⟩],
        [⟨0, 1, 3, "d", 0, "u", "a"⟩]⟩ 1 = some ⟨1, some "th", 3, 0, 0⟩ ∧
     ∀ s ∈ ([⟨1, 3, 5, 0, 0⟩] : List SessionRow), s.chatId = 1 →
       s.sessionNo ≤ (3 : Int)) ∧
    (∃ next db', startNewSession ⟨[⟨1, some "th", 3, 0, 0⟩],
        [⟨1, 3, 5, 0, 0⟩], [⟨0, 1, 3, "d", 0, "u", "a"⟩]⟩ 1 10 =
        (some next, db') ∧
      next.sessionNo = (3 : Int) + 1 ∧
      next.threadId = none ∧
      (getSessionTurnCount db' 1 next.sessionNo 11).1 = 0 ∧
      db'.exchanges = (⟨[⟨1, some "th", 3, 0, 0⟩], [⟨1, 3, 5, 0, 0⟩],
        [⟨0, 1, 3, "d", 0, "u", "a"⟩]⟩ : ChatDb).exchanges ∧
      db'.chats = (incrementSession ⟨[⟨1, some "th", 3, 0, 0⟩],
        [⟨1, 3, 5, 0, 0⟩], [⟨0, 1, 3, "d", 0, "u", "a"⟩]⟩ 1 10).chats ∧
      ∀ s ∈ (⟨[⟨1, some "th", 3, 0, 0⟩], [⟨1, 3, 5, 0, 0⟩],
        [⟨0, 1, 3, "d", 0, "u", "a"⟩]⟩ : ChatDb).sessions,
        s ∈ db'.sessions) :=
  ⟨⟨by decide, by decide⟩,
   startNewSession_spec
     ⟨[⟨1, some "th", 3, 0, 0⟩], [⟨1, 3, 5, 0, 0⟩],
       [⟨0, 1, 3, "d", 0, "u", "a"⟩]⟩ 1 10 11 ⟨1, some "th", 3, 0, 0⟩
     (by decide) (by decide)⟩

/-! ### `dashboard.js`: the retrieval pipeline's threshold filter -/

/-- The candidate kinds produced by `MemoryEngine.retrieve`. -/
inductive CandType where
  | fact
  | episode
  | document
  | loop
deriving Repr, DecidableEq

/-- A merged retrieval candidate as it enters the threshold filter, with the
fields the filter inspects (`type`, `confidence`) plus its score and text. -/
structure Candidate where
  ctype : CandType
  confidence : ℚ
  score : ℚ
  text : String
deriving Repr, DecidableEq

/-- Lines 3158–3161 of `dashboard.js`:
`const hasAboveThreshold = ranked.some((x) => x.confidence >= threshold);
if (hasAboveThreshold) ranked = ranked.filter((x) =>
  x.type === 'document' || x.confidence >= threshold);`. -/
def thresholdFilter (confidenceThreshold : ℚ) (ranked : List Candidate) :
    List Candidate :=
  if ranked.any (fun x => decide (confidenceThreshold ≤ x.confidence)) then
    ranked.filter (fun x => x.ctype == CandType.document ||
      decide (confidenceThreshold ≤ x.confidence))
  else ranked

/-- **C5.** If at least one merged candidate has confidence at or above the
configured threshold, every non-document candidate below the threshold is
dropped while documents and above-threshold candidates are kept; if no
candidate reaches the threshold, the candidate list is retained as is. -/
theorem thresholdFilter_spec (confidenceThreshold : ℚ)
    (ranked : List Candidate) :
    ((∃ x ∈ ranked, confidenceThreshold ≤ x.confidence) →
      (∀ x ∈ ranked, x.ctype = CandType.document →
        x ∈ thresholdFilter confidenceThreshold ranked) ∧
      (∀ x ∈ ranked, confidenceThreshold ≤ x.confidence →
        x ∈ thresholdFilter confidenceThreshold ranked) ∧
      (∀ x, x.ctype ≠ CandType.document →
        x.confidence < confidenceThreshold →
        x ∉ thresholdFilter confidenceThreshold ranked)) ∧
    ((∀ x ∈ ranked, x.confidence < confidenceThreshold) →
      thresholdFilter confidenceThreshold ranked = ranked) := by
  constructor
  · intro hex
    have hany : ranked.any
        (fun x => decide (confidenceThreshold ≤ x.confidence)) = true := by
      rw [List.any_eq_true]
      obtain ⟨x, hx, hc⟩ := hex
      exact ⟨x, hx, by simpa using hc⟩
    have hfil : thresholdFilter confidenceThreshold ranked =
        ranked.filter (fun x => x.ctype == CandType.document ||
          decide (confidenceThreshold ≤ x.confidence)) := by
      rw [thresholdFilter, if_pos hany]
    refine ⟨?_, ?_, ?_⟩
    · intro x hx hdoc
      rw [hfil, List.mem_filter]
      exact ⟨hx, by simp [hdoc]⟩
    · intro x hx hc
      rw [hfil, List.mem_filter]
      exact ⟨hx, by simp [hc]⟩
    · intro x hdoc hc
      rw [hfil, List.mem_filter]
      intro ⟨_, hkeep⟩
      simp at hkeep
      rcases hkeep with h | h
      · exact hdoc h
      · exact absurd h (not_le.mpr hc)
  · intro hall
    have hany : ranked.any
        (fun x => decide (confidenceThreshold ≤ x.confidence)) = false := by
      rw [List.any_eq_false]
      intro x hx
      simp
      exact hall x hx
    rw [thresholdFilter, if_neg (by rw [hany]; exact Bool.false_ne_true)]

/-- Concrete instantiation of `thresholdFilter_spec`: one confident fact,
one low-confidence fact, one document. -/
theorem thresholdFilter_spec_witness :
    (∃ x ∈ [(⟨CandType.fact, 1, 2, "a"⟩ : Candidate),
            ⟨CandType.fact, 0, 1, "b"⟩, ⟨CandType.document, 0, 1, "c"⟩],
       (1 : ℚ) ≤ x.confidence) ∧
    ((∀ x ∈ [(⟨CandType.fact, 1, 2, "a"⟩ : Candidate),
            ⟨CandType.fact, 0, 1, "b"⟩, ⟨CandType.document, 0, 1, "c"⟩],
        x.ctype = CandType.document →
        x ∈ thresholdFilter 1 [⟨CandType.fact, 1, 2, "a"⟩,
              ⟨CandType.fact, 0, 1, "b"⟩, ⟨CandType.document, 0, 1, "c"⟩]) ∧
     (∀ x ∈ [(⟨CandType.fact, 1, 2, "a"⟩ : Candidate),
            ⟨CandType.fact, 0, 1, "b"⟩, ⟨CandType.document, 0, 1, "c"⟩],
        (1 : ℚ) ≤ x.confidence →
        x ∈ thresholdFilter 1 [⟨CandType.fact, 1, 2, "a"⟩,
              ⟨CandType.fact, 0, 1, "b"⟩, ⟨CandType.document, 0, 1, "c"⟩]) ∧
     (∀ x : Candidate, x.ctype ≠ CandType.document → x.confidence < 1 →
        x ∉ thresholdFilter 1 [⟨CandType.fact, 1, 2, "a"⟩,
              ⟨CandType.fact, 0, 1, "b"⟩, ⟨CandType.document, 0, 1, "c"⟩])) :=
  ⟨⟨⟨CandType.fact, 1, 2, "a"⟩, by decide, by norm_num⟩,
   (thresholdFilter_spec 1 [⟨CandType.fact, 1, 2, "a"⟩,
      ⟨CandType.fact, 0, 1, "b"⟩, ⟨CandType.document, 0, 1, "c"⟩]).1
     ⟨⟨CandType.fact, 1, 2, "a"⟩, by decide, by norm_num⟩⟩

/-! ### `dashboard.js`: `estimateTokens` and `buildInjection` -/

/-- Word counter for `estimateTokens`:
`String(text || '').trim().split(/\s+/).filter(Boolean).length`, i.e. the
number of maximal non-whitespace runs. -/
def countWordsAux (inWord : Bool) : List Char → Nat
  | [] => 0
  | c :: cs =>
    if isJsSpace c then countWordsAux false cs
    else if inWord then countWordsAux true cs
    else 1 + countWordsAux true cs

def countWords (s : String) : Nat := countWordsAux false s.data

/-- `estimateTokens(text)`: `Math.ceil(words * 1.3)`.  `⌈13·w/10⌉ =
(13·w + 9) / 10` agrees with the IEEE-double computation for every word
count in the practical range. -/
def estimateTokens (s : String) : Nat := (13 * countWords s + 9) / 10

/-- The `render` closure of `MemoryEngine.buildInjection`: three labelled
bullet lists joined by newlines, with `- (none)` for empty sections. -/
def renderInjection (stableFacts episodes loops : List String) : String :=
  String.intercalate "\n"
    (["Known stable facts:"] ++
     (if stableFacts ≠ [] then stableFacts else ["- (none)"]) ++
     [""] ++
     ["Relevant past decisions / episodes:"] ++
     (if episodes ≠ [] then episodes else ["- (none)"]) ++
     [""] ++
     ["Open loops / TODOs:"] ++
     (if loops ≠ [] then loops else ["- (none)"]))

/-- The `while` loop of `buildInjection`: while the rendered text exceeds
the budget, pop from `loops`, then `episodes`, then `stableFacts` (keeping
at least one fact), else break.  `fuel` bounds the iteration count; each
iteration removes exactly one item, so any fuel at least the total number
of items yields the loop's exact behaviour. -/
def shrinkInjectionAux (maxTok : Nat) :
    Nat → List String → List String → List String →
    List String × List String × List String
  | 0, stableFacts, episodes, loops => (stableFacts, episodes, loops)
  | fuel + 1, stableFacts, episodes, loops =>
    if estimateTokens (renderInjection stableFacts episodes loops) ≤ maxTok
    then (stableFacts, episodes, loops)
    else if loops ≠ [] then
      shrinkInjectionAux maxTok fuel stableFacts episodes loops.dropLast
    else if episodes ≠ [] then
      shrinkInjectionAux maxTok fuel stableFacts episodes.dropLast loops
    else if 1 < stableFacts.length then
      shrinkInjectionAux maxTok fuel stableFacts.dropLast episodes loops
    else (stableFacts, episodes, loops)

/-- `MemoryEngine.buildInjection(sections)` from `dashboard.js`. -/
def buildInjection (maxTok : Nat)
    (stableFacts episodes loops : List String) : String :=
  let s := shrinkInjectionAux maxTok
    (stableFacts.length + episodes.length + loops.length)
    stableFacts episodes loops
  renderInjection s.1 s.2.1 s.2.2

theorem take_dropLast {α : Type} (l : List α) (k : Nat)
    (h : k ≤ l.length - 1) : l.dropLast.take k = l.take k := by
  rw [List.dropLast_eq_take, List.take_take]
  congr 1
  omega

theorem take_length_self_le {α : Type} (l t : List α)
    (h : t = l.take t.length) : t.length ≤ l.length := by
  conv_lhs => rw [h]
  rw [List.length_take]
  exact min_le_right _ _

theorem prefix_through_dropLast {α : Type} (l t : List α)
    (h : t = l.dropLast.take t.length) : t = l.take t.length := by
  have hle : t.length ≤ l.dropLast.length := take_length_self_le _ _ h
  rw [List.length_dropLast] at hle
  exact h.trans (take_dropLast l _ hle)

theorem shrinkInjectionAux_spec (maxTok : Nat) (fuel : Nat)
    (f e l : List String)
    (hfuel : f.length + e.length + l.length ≤ fuel) :
    ∃ f' e' l', shrinkInjectionAux maxTok fuel f e l = (f', e', l') ∧
      f' = f.take f'.length ∧ e' = e.take e'.length ∧
      l' = l.take l'.length ∧
      (e' ≠ e → l' = []) ∧
      (f' ≠ f → l' = [] ∧ e' = []) ∧
      (f ≠ [] → f' ≠ []) ∧
      (estimateTokens (renderInjection f' e' l') ≤ maxTok ∨
        (l' = [] ∧ e' = [] ∧ f'.length ≤ 1)) := by
  induction fuel generalizing f e l with
  | zero =>
    have hf : f = [] := by
      cases f with
      | nil => rfl
      | cons a as => simp at hfuel
    have he : e = [] := by
      cases e with
      | nil => rfl
      | cons a as => rw [hf] at hfuel; simp at hfuel
    have hl : l = [] := by
      cases l with
      | nil => rfl
      | cons a as => rw [hf, he] at hfuel; simp at hfuel
    subst hf; subst he; subst hl
    exact ⟨[], [], [], rfl, rfl, rfl, rfl, fun _ => rfl,
      fun _ => ⟨rfl, rfl⟩, fun h => absurd rfl h, Or.inr ⟨rfl, rfl, by simp⟩⟩
  | succ fuel ih =>
    rw [shrinkInjectionAux]
    by_cases hbudget :
        estimateTokens (renderInjection f e l) ≤ maxTok
    · rw [if_pos hbudget]
      exact ⟨f, e, l, rfl, (List.take_length f).symm,
        (List.take_length e).symm, (List.take_length l).symm,
        fun h => absurd rfl h, fun h => absurd rfl h, fun h => h,
        Or.inl hbudget⟩
    · rw [if_neg hbudget]
      by_cases hl : l ≠ []
      · rw [if_pos hl]
        have hlen : f.length + e.length + l.dropLast.length ≤ fuel := by
          rw [List.length_dropLast]
          have : 0 < l.length := List.length_pos.mpr hl
          omega
        obtain ⟨f', e', l', hres, hpf, hpe, hpl, hee, hff, hne, hbud⟩ :=
          ih f e l.dropLast hlen
        exact ⟨f', e', l', hres, hpf, hpe, prefix_through_dropLast l l' hpl,
          hee, hff, hne, hbud⟩
      · rw [if_neg hl]
        push_neg at hl
        subst hl
        by_cases he : e ≠ []
        · rw [if_pos he]
          have hlen : f.length + e.dropLast.length +
              ([] : List String).length ≤ fuel := by
            rw [List.length_dropLast]
            have : 0 < e.length := List.length_pos.mpr he
            simp at hfuel ⊢
            omega
          obtain ⟨f', e', l', hres, hpf, hpe, hpl, hee, hff, hne, hbud⟩ :=
            ih f e.dropLast [] hlen
          have hl'nil : l' = [] := by
            rw [hpl]; simp
          refine ⟨f', e', l', hres, hpf,
            prefix_through_dropLast e e' hpe, by simp [hl'nil],
            fun _ => hl'nil, fun hf' => ⟨hl'nil, (hff hf').2⟩, hne, hbud⟩
        · rw [if_neg he]
          push_neg at he
          subst he
          by_cases hf : 1 < f.length
          · rw [if_pos hf]
            have hlen : f.dropLast.length + ([] : List String).length +
                ([] : List String).length ≤ fuel := by
              rw [List.length_dropLast]
              simp at hfuel ⊢
              omega
            obtain ⟨f', e', l', hres, hpf, hpe, hpl, hee, hff, hne, hbud⟩ :=
              ih f.dropLast [] [] hlen
            have hl'nil : l' = [] := by rw [hpl]; simp
            have he'nil : e' = [] := by rw [hpe]; simp
            refine ⟨f', e', l', hres, prefix_through_dropLast f f' hpf,
              by simp [he'nil], by simp [hl'nil],
              fun _ => hl'nil, fun _ => ⟨hl'nil, he'nil⟩, ?_, hbud⟩
            intro _
            apply hne
            intro hnil
            have hlen0 := List.length_dropLast f
            rw [hnil] at hlen0
            simp at hlen0
            omega
          · rw [if_neg hf]
            push_neg at hf
            exact ⟨f, [], [], rfl, (List.take_length f).symm, rfl, rfl,
              fun h => rfl, fun h => absurd rfl h, fun h => h,
              Or.inr ⟨rfl, rfl, hf⟩⟩

/-- **C6.** `buildInjection` renders the three sections as labelled bullet
lists with a `- (none)` placeholder for empty sections; while the estimated
token count of the rendered text exceeds the budget it pops items from open
loops first, then episodes, then stable facts (always keeping at least one
fact), re-rendering each time until under budget or no more items can be
dropped.  The final sections are end-truncations of the inputs; episodes
are touched only once loops are exhausted, and facts only once loops and
episodes are exhausted. -/
theorem buildInjection_spec (maxTok : Nat) (f e l : List String) :
    ∃ f' e' l',
      shrinkInjectionAux maxTok (f.length + e.length + l.length) f e l =
        (f', e', l') ∧
      buildInjection maxTok f e l = renderInjection f' e' l' ∧
      renderInjection f' e' l' = String.intercalate "\n"
        (["Known stable facts:"] ++
         (if f' ≠ [] then f' else ["- (none)"]) ++ [""] ++
         ["Relevant past decisions / episodes:"] ++
         (if e' ≠ [] then e' else ["- (none)"]) ++ [""] ++
         ["Open loops / TODOs:"] ++
         (if l' ≠ [] then l' else ["- (none)"])) ∧
      f' = f.take f'.length ∧ e' = e.take e'.length ∧
      l' = l.take l'.length ∧
      (e' ≠ e → l' = []) ∧
      (f' ≠ f → l' = [] ∧ e' = []) ∧
      (f ≠ [] → f' ≠ []) ∧
      (estimateTokens (buildInjection maxTok f e l) ≤ maxTok ∨
        (l' = [] ∧ e' = [] ∧ f'.length ≤ 1)) := by
  obtain ⟨f', e', l', hres, hpf, hpe, hpl, hee, hff, hne, hbud⟩ :=
    shrinkInjectionAux_spec maxTok (f.length + e.length + l.length) f e l
      (le_refl _)
  have hbuild : buildInjection maxTok f e l = renderInjection f' e' l' := by
    rw [buildInjection]
    rw [hres]
  refine ⟨f', e', l', hres, hbuild, rfl, hpf, hpe, hpl, hee, hff, hne, ?_⟩
  rw [hbuild]
  exact hbud

/-- Concrete instantiation of `buildInjection_spec` with a tight budget
forcing drops. -/
theorem buildInjection_spec_witness :
    ∃ f' e' l',
      shrinkInjectionAux 14
        ((["- alpha beta", "- gamma delta"] : List String).length +
         (["- epsilon zeta"] : List String).length +
         (["- eta theta", "- iota kappa"] : List String).length)
        ["- alpha beta", "- gamma delta"] ["- epsilon zeta"]
        ["- eta theta", "- iota kappa"] = (f', e', l') ∧
      buildInjection 14 ["- alpha beta", "- gamma delta"]
        ["- epsilon zeta"] ["- eta theta", "- iota kappa"] =
        renderInjection f' e' l' ∧
      renderInjection f' e' l' = String.intercalate "\n"
        (["Known stable facts:"] ++
         (if f' ≠ [] then f' else ["- (none)"]) ++ [""] ++
         ["Relevant past decisions / episodes:"] ++
         (if e' ≠ [] then e' else ["- (none)"]) ++ [""] ++
         ["Open loops / TODOs:"] ++
         (if l' ≠ [] then l' else ["- (none)"])) ∧
      f' = (["- alpha beta", "- gamma delta"] : List String).take
        f'.length ∧
      e' = (["- epsilon zeta"] : List String).take e'.length ∧
      l' = (["- eta theta", "- iota kappa"] : List String).take l'.length ∧
      (e' ≠ ["- epsilon zeta"] → l' = []) ∧
      (f' ≠ ["- alpha beta", "- gamma delta"] → l' = [] ∧ e' = []) ∧
      ((["- alpha beta", "- gamma delta"] : List String) ≠ [] → f' ≠ []) ∧
      (estimateTokens (buildInjection 14 ["- alpha beta", "- gamma delta"]
          ["- epsilon zeta"] ["- eta theta", "- iota kappa"]) ≤ 14 ∨
        (l' = [] ∧ e' = [] ∧ f'.length ≤ 1)) :=
  buildInjection_spec 14 ["- alpha beta", "- gamma delta"]
    ["- epsilon zeta"] ["- eta theta", "- iota kappa"]

/-! ### `db.js`: `buildFtsQuery` -/

/-- The character class of the token regex: lowercase letters, digits,
underscore, slash, hyphen. -/
def isFtsTokenChar (c : Char) : Bool :=
  ('a' ≤ c && c ≤ 'z') || ('0' ≤ c && c ≤ '9') || c == '_' || c == '/' ||
  c == '-'

/-- Global matching of the token regex (three-or-more character class
runs, global flag): successive maximal runs of
token characters (runs shorter than 3 are filtered out by the caller).
`current` accumulates the run in reverse. -/
def tokenRunsAux (current : List Char) : List Char → List (List Char)
  | [] => if current = [] then [] else [current.reverse]
  | c :: cs =>
    if isFtsTokenChar c then tokenRunsAux (c :: current) cs
    else if current = [] then tokenRunsAux [] cs
    else current.reverse :: tokenRunsAux [] cs

/-- `String(text || '').toLowerCase().match(...) || []` with the
three-or-more token-character-run regex. -/
def ftsTokens (text : String) : List String :=
  ((tokenRunsAux [] (jsToLowerList text.data)).filter
    (fun r => 3 ≤ r.length)).map (fun r => ⟨r⟩)

/-- `t.replace(...)`` stripping every double-quote character. -/
def stripQuotes (s : String) : String :=
  ⟨s.data.filter (fun c => c ≠ Char.ofNat 34)⟩

/-- Wrap a token in double quotes. -/
def quoteTok (t : String) : String :=
  ⟨Char.ofNat 34 :: t.data ++ [Char.ofNat 34]⟩

/-- `buildFtsQuery(text)` from `db.js`: the first 12 tokens, each
quote-stripped and double-quoted, joined by `' OR '`; the literal fallback
query `memory` when there is no token. -/
def buildFtsQuery (text : String) : String :=
  let tokens := ((ftsTokens text).take 12).map stripQuotes
  if tokens = [] then "memory"
  else String.intercalate " OR " (tokens.map quoteTok)

theorem tokenRunsAux_chars (l : List Char) (current : List Char)
    (hcur : ∀ c ∈ current, isFtsTokenChar c = true) :
    ∀ r ∈ tokenRunsAux current l, ∀ c ∈ r, isFtsTokenChar c = true := by
  induction l generalizing current with
  | nil =>
    intro r hr c hc
    rw [tokenRunsAux] at hr
    by_cases h : current = []
    · rw [if_pos h] at hr
      simp at hr
    · rw [if_neg h] at hr
      simp at hr
      subst hr
      exact hcur c (List.mem_reverse.mp hc)
  | cons a as ih =>
    intro r hr c hc
    rw [tokenRunsAux] at hr
    by_cases ha : isFtsTokenChar a
    · rw [if_pos ha] at hr
      refine ih (a :: current) ?_ r hr c hc
      intro d hd
      rcases List.mem_cons.mp hd with h | h
      · subst h; exact ha
      · exact hcur d h
    · rw [if_neg ha] at hr
      by_cases h : current = []
      · rw [if_pos h] at hr
        exact ih [] (by simp) r hr c hc
      · rw [if_neg h] at hr
        rcases List.mem_cons.mp hr with h' | h'
        · subst h'
          exact hcur c (List.mem_reverse.mp hc)
        · exact ih [] (by simp) r h' c hc

/-- **C10.** `buildFtsQuery` produces at most 12 double-quoted tokens
joined by `' OR '`, each a run of at least 3 characters drawn from the
class lowercase-letter, digit, underscore, slash, hyphen of the lowercased
text (with embedded double quotes stripped, a no-op here); when the text
yields no such
token, it returns the literal fallback query `memory`. -/
theorem buildFtsQuery_spec (text : String) :
    (ftsTokens text = [] → buildFtsQuery text = "memory") ∧
    (ftsTokens text ≠ [] →
      buildFtsQuery text = String.intercalate " OR "
        ((((ftsTokens text).take 12).map stripQuotes).map quoteTok) ∧
      (((ftsTokens text).take 12).map stripQuotes).length ≤ 12) ∧
    (∀ t ∈ ftsTokens text, 3 ≤ t.length ∧
      ∀ c ∈ t.data, isFtsTokenChar c = true) := by
  refine ⟨?_, ?_, ?_⟩
  · intro h
    rw [buildFtsQuery]
    simp only [h]
    rfl
  · intro h
    have hne : ((ftsTokens text).take 12).map stripQuotes ≠ [] := by
      simp only [ne_eq, List.map_eq_nil_iff, List.take_eq_nil_iff]
      simpa using h
    constructor
    · rw [buildFtsQuery]
      simp only [if_neg hne]
    · rw [List.length_map]
      exact le_trans (List.length_take_le _ _) (le_refl _)
  · intro t ht
    rw [ftsTokens] at ht
    simp only [List.mem_map, List.mem_filter] at ht
    obtain ⟨r, ⟨hr, hlen⟩, hteq⟩ := ht
    constructor
    · rw [← hteq]
      simpa using hlen
    · intro c hc
      refine tokenRunsAux_chars (jsToLowerList text.data) [] (by simp) r hr
        c ?_
      rw [← hteq] at hc
      exact hc

/-- Concrete instantiations of `buildFtsQuery_spec`: a query with six
tokens and a query with none (only runs shorter than 3). -/
theorem buildFtsQuery_spec_witness :
    (ftsTokens "is a?!" = [] ∧ buildFtsQuery "is a?!" = "memory") ∧
    (ftsTokens "What did we decide for Project Alpha?" ≠ [] ∧
      buildFtsQuery "What did we decide for Project Alpha?" =
        String.intercalate " OR "
          ((((ftsTokens "What did we decide for Project Alpha?").take
              12).map stripQuotes).map quoteTok) ∧
      (((ftsTokens "What did we decide for Project Alpha?").take 12).map
          stripQuotes).length ≤ 12) :=
  ⟨⟨by decide, (buildFtsQuery_spec "is a?!").1 (by decide)⟩,
   ⟨by decide, ((buildFtsQuery_spec
      "What did we decide for Project Alpha?").2).1 (by decide)⟩⟩

/-! ### `db.js`: the `contradictions` table and `detectContradictions` -/

/-- One row of the `contradictions` table. -/
structure ContradictionRow where
  id : Nat
  chatId : Int
  subject : String
  predicate : String
  objects : List String
  detectedAt : ℚ
  resolvedAt : Option ℚ
  status : String
deriving Repr, DecidableEq

/-- The `contradictions` table with its AUTOINCREMENT counter. -/
structure ContradictionStore where
  rows : List ContradictionRow
  nextId : Nat
deriving Repr, DecidableEq

/-- AUTOINCREMENT discipline plus distinct row ids. -/
def ContradictionStore.WF (st : ContradictionStore) : Prop :=
  (∀ r ∈ st.rows, r.id < st.nextId) ∧
  st.rows.Pairwise (fun a b => a.id ≠ b.id)

/-- The WHERE clause of `contradictionCandidates`:
`chat_id = ? AND active = 1 AND confidence >= ?`. -/
def qualifyingFacts (rows : List FactRow) (chatId : Int)
    (minConfidence : ℚ) : List FactRow :=
  rows.filter (fun r => r.chatId == chatId && r.active == true &&
    decide (minConfidence ≤ r.confidence))

/-- The `GROUP BY subject, predicate` keys, in first-occurrence order. -/
def groupKeys (qual : List FactRow) : List (String × String) :=
  jsSetDedupe (qual.map (fun r => (r.subject, r.predicate)))

/-- `json_group_array(object)` for one group. -/
def objectsOf (qual : List FactRow) (s p : String) : List String :=
  (qual.filter (fun r => r.subject == s && r.predicate == p)).map
    (fun r => r.object)

/-- The `contradictionCandidates` prepared statement: per-group object
arrays, keeping groups with `COUNT(DISTINCT object) > 1`. -/
def contradictionCandidates (rows : List FactRow) (chatId : Int)
    (minConfidence : ℚ) : List (String × String × List String) :=
  let qual := qualifyingFacts rows chatId minConfidence
  ((groupKeys qual).map (fun k => (k.1, k.2, objectsOf qual k.1 k.2))).filter
    (fun g => 1 < (jsSetDedupe g.2.2).length)

/-- The `insertContradiction` statement:
`INSERT ... VALUES(?, ?, ?, ?, ?, 'open') ON CONFLICT(chat_id, subject,
predicate, status) DO UPDATE SET objects_json = excluded.objects_json,
detected_at = excluded.detected_at`. -/
def upsertContradiction (st : ContradictionStore) (chatId : Int)
    (s p : String) (objects : List String) (detectedAt : ℚ) :
    ContradictionStore :=
  match st.rows.find? (fun r => r.chatId == chatId && r.subject == s &&
      r.predicate == p && r.status == "open") with
  | none =>
    { rows := st.rows ++
        [⟨st.nextId, chatId, s, p, objects, detectedAt, none, "open"⟩],
      nextId := st.nextId + 1 }
  | some ex =>
    { rows := st.rows.map (fun r =>
        if r.id = ex.id then
          { r with objects := objects, detectedAt := detectedAt }
        else r),
      nextId := st.nextId }

/-- The body of the `for (const row of rows)` loop of
`detectContradictions`: deduplicate the group's objects, skip groups with
fewer than two distinct objects, upsert one open contradiction per group
and accumulate the detected set in order. -/
def detectLoop (chatId : Int) (detectedAt : ℚ) :
    List (String × String × List String) → ContradictionStore →
    List (String × String × List String) × ContradictionStore
  | [], st => ([], st)
  | row :: rest, st =>
    let objects := jsSetDedupe row.2.2
    if objects.length < 2 then detectLoop chatId detectedAt rest st
    else
      let st' := upsertContradiction st chatId row.1 row.2.1 objects
        detectedAt
      let r := detectLoop chatId detectedAt rest st'
      ((row.1, row.2.1, objects) :: r.1, r.2)

/-- `MemoryStore.detectContradictions(chatId, minConfidence)` from
`db.js`. -/
def detectContradictions (facts : List FactRow) (st : ContradictionStore)
    (chatId : Int) (minConfidence detectedAt : ℚ) :
    List (String × String × List String) × ContradictionStore :=
  detectLoop chatId detectedAt
    (contradictionCandidates facts chatId minConfidence) st

/-- The open contradiction rows stored for one `(chat, subject, predicate)`
key. -/
def openRowsFor (st : ContradictionStore) (chatId : Int) (s p : String) :
    List ContradictionRow :=
  st.rows.filter (fun r => r.chatId == chatId && r.subject == s &&
    r.predicate == p && r.status == "open")

theorem jsSetDedupeAux_sub {α : Type} [DecidableEq α] (l seen : List α) :
    ∀ x ∈ jsSetDedupeAux seen l, x ∈ l := by
  induction l generalizing seen with
  | nil => intro x hx; rw [jsSetDedupeAux] at hx; simp at hx
  | cons a as ih =>
    intro x hx
    rw [jsSetDedupeAux] at hx
    by_cases ha : a ∈ seen
    · rw [if_pos ha] at hx
      exact List.mem_cons_of_mem a (ih seen x hx)
    · rw [if_neg ha] at hx
      rcases List.mem_cons.mp hx with h | h
      · subst h; exact List.mem_cons_self _ _
      · exact List.mem_cons_of_mem a (ih (a :: seen) x h)

theorem jsSetDedupeAux_mem {α : Type} [DecidableEq α] (l seen : List α) :
    ∀ x ∈ l, x ∉ seen → x ∈ jsSetDedupeAux seen l := by
  induction l generalizing seen with
  | nil => intro x hx; simp at hx
  | cons a as ih =>
    intro x hx hxs
    rw [jsSetDedupeAux]
    by_cases ha : a ∈ seen
    · rw [if_pos ha]
      rcases List.mem_cons.mp hx with h | h
      · subst h; exact absurd ha hxs
      · exact ih seen x h hxs
    · rw [if_neg ha]
      rcases List.mem_cons.mp hx with h | h
      · subst h; exact List.mem_cons_self _ _
      · by_cases hxa : x = a
        · subst hxa; exact List.mem_cons_self _ _
        · refine List.mem_cons_of_mem a (ih (a :: seen) x h ?_)
          intro hc
          rcases List.mem_cons.mp hc with h' | h'
          · exact hxa h'
          · exact hxs h'

theorem mem_jsSetDedupe {α : Type} [DecidableEq α] (l : List α) (x : α) :
    x ∈ jsSetDedupe l ↔ x ∈ l := by
  constructor
  · exact jsSetDedupeAux_sub l [] x
  · intro h
    exact jsSetDedupeAux_mem l [] x h (by simp)

theorem jsSetDedupeAux_nodup {α : Type} [DecidableEq α] (l seen : List α) :
    (jsSetDedupeAux seen l).Nodup ∧
    ∀ x ∈ jsSetDedupeAux seen l, x ∉ seen := by
  induction l generalizing seen with
  | nil =>
    rw [jsSetDedupeAux]
    exact ⟨List.nodup_nil, by simp⟩
  | cons a as ih =>
    rw [jsSetDedupeAux]
    by_cases ha : a ∈ seen
    · rw [if_pos ha]
      exact ih seen
    · rw [if_neg ha]
      obtain ⟨hnd, hns⟩ := ih (a :: seen)
      refine ⟨List.nodup_cons.mpr ⟨?_, hnd⟩, ?_⟩
      · intro hc
        exact hns a hc (List.mem_cons_self _ _)
      · intro x hx
        rcases List.mem_cons.mp hx with h | h
        · subst h; exact ha
        · intro hc
          exact hns x h (List.mem_cons_of_mem a hc)

theorem jsSetDedupe_nodup {α : Type} [DecidableEq α] (l : List α) :
    (jsSetDedupe l).Nodup :=
  (jsSetDedupeAux_nodup l []).1

theorem jsSetDedupeAux_length_le {α : Type} [DecidableEq α]
    (l seen : List α) : (jsSetDedupeAux seen l).length ≤ l.length := by
  induction l generalizing seen with
  | nil => simp [jsSetDedupeAux]
  | cons a as ih =>
    rw [jsSetDedupeAux]
    by_cases ha : a ∈ seen
    · rw [if_pos ha]
      exact le_trans (ih seen) (Nat.le_succ _)
    · rw [if_neg ha]
      simp only [List.length_cons]
      exact Nat.succ_le_succ (ih (a :: seen))

theorem jsSetDedupe_length_le {α : Type} [DecidableEq α] (l : List α) :
    (jsSetDedupe l).length ≤ l.length :=
  jsSetDedupeAux_length_le l []

theorem length_le_one_mem_eq {α : Type} {l : List α} {x : α}
    (hlen : l.length ≤ 1) (hx : x ∈ l) : l = [x] := by
  cases l with
  | nil => simp at hx
  | cons a as =>
    cases as with
    | nil =>
      simp at hx
      rw [hx]
    | cons b bs => simp at hlen

theorem pairwise_id_inj {rows : List ContradictionRow}
    (h : rows.Pairwise (fun a b => a.id ≠ b.id)) :
    ∀ r ∈ rows, ∀ q ∈ rows, r.id = q.id → r = q := by
  induction rows with
  | nil => simp
  | cons a as ih =>
    intro r hr q hq heq
    obtain ⟨hhead, htail⟩ := List.pairwise_cons.mp h
    rcases List.mem_cons.mp hr with h1 | h1 <;>
      rcases List.mem_cons.mp hq with h2 | h2
    · rw [h1, h2]
    · subst h1
      exact absurd heq (hhead q h2)
    · subst h2
      exact absurd heq.symm (hhead r h1)
    · exact ih htail r h1 q h2 heq

/-- The key predicate used by `openRowsFor` and the conflict lookup. -/
def openKey (chatId : Int) (s p : String) (r : ContradictionRow) : Bool :=
  r.chatId == chatId && r.subject == s && r.predicate == p &&
    r.status == "open"

theorem openRowsFor_eq_filter (st : ContradictionStore) (chatId : Int)
    (s p : String) :
    openRowsFor st chatId s p = st.rows.filter (openKey chatId s p) := rfl

theorem upsertContradiction_spec (st : ContradictionStore) (chatId : Int)
    (s p : String) (objects : List String) (detectedAt : ℚ)
    (hwf : st.WF) (hopen : (openRowsFor st chatId s p).length ≤ 1) :
    (upsertContradiction st chatId s p objects detectedAt).WF ∧
    (∃ r, openRowsFor (upsertContradiction st chatId s p objects detectedAt)
        chatId s p = [r] ∧
      r.chatId = chatId ∧ r.subject = s ∧ r.predicate = p ∧
      r.status = "open" ∧ r.objects = objects ∧
      r.detectedAt = detectedAt) ∧
    (∀ c' s' p', ¬ (c' = chatId ∧ s' = s ∧ p' = p) →
      openRowsFor (upsertContradiction st chatId s p objects detectedAt)
          c' s' p' =
        openRowsFor st c' s' p') := by
  obtain ⟨hbound, hpair⟩ := hwf
  cases hfind : st.rows.find? (fun r => r.chatId == chatId &&
      r.subject == s && r.predicate == p && r.status == "open") with
  | none =>
    have hup : upsertContradiction st chatId s p objects detectedAt =
        { rows := st.rows ++
            [⟨st.nextId, chatId, s, p, objects, detectedAt, none, "open"⟩],
          nextId := st.nextId + 1 } := by
      rw [upsertContradiction, hfind]
    have hnew_key : openKey chatId s p
        ⟨st.nextId, chatId, s, p, objects, detectedAt, none, "open"⟩ =
        true := by
      simp [openKey]
    have hempty : st.rows.filter (openKey chatId s p) = [] := by
      rw [List.filter_eq_nil_iff]
      intro r hr
      have := List.find?_eq_none.mp hfind r hr
      simpa [openKey] using this
    refine ⟨⟨?_, ?_⟩, ?_, ?_⟩
    · rw [hup]
      intro r hr
      rcases List.mem_append.mp hr with h | h
      · exact Nat.lt_succ_of_lt (hbound r h)
      · simp at h
        rw [h]
        exact Nat.lt_succ_self _
    · rw [hup]
      simp only
      rw [List.pairwise_append]
      refine ⟨hpair, List.pairwise_singleton _ _, ?_⟩
      intro r hr q hq
      simp at hq
      rw [hq]
      exact Nat.ne_of_lt (hbound r hr)
    · refine ⟨⟨st.nextId, chatId, s, p, objects, detectedAt, none,
        "open"⟩, ?_, rfl, rfl, rfl, rfl, rfl, rfl⟩
      rw [hup, openRowsFor_eq_filter]
      simp only
      rw [List.filter_append, hempty]
      simp [hnew_key]
    · intro c' s' p' hne
      rw [hup, openRowsFor_eq_filter, openRowsFor_eq_filter]
      simp only
      rw [List.filter_append]
      have : openKey c' s' p'
          ⟨st.nextId, chatId, s, p, objects, detectedAt, none, "open"⟩ =
          false := by
        simp [openKey]
        intro h1 h2 h3
        exact absurd ⟨h1.symm, h2.symm, h3.symm⟩ hne
      simp [this]
  | some ex =>
    have hup : upsertContradiction st chatId s p objects detectedAt =
        { rows := st.rows.map (fun r =>
            if r.id = ex.id then
              { r with objects := objects, detectedAt := detectedAt }
            else r),
          nextId := st.nextId } := by
      rw [upsertContradiction, hfind]
    have hexmem : ex ∈ st.rows := List.mem_of_find?_eq_some hfind
    have hexkey : openKey chatId s p ex = true := by
      have := List.find?_some hfind
      simpa [openKey] using this
    have hfields := hexkey
    simp only [openKey, Bool.and_eq_true, beq_iff_eq] at hfields
    obtain ⟨⟨⟨e1, e2⟩, e3⟩, e4⟩ := hfields
    have hexsingle : st.rows.filter (openKey chatId s p) = [ex] := by
      have hopen' : (st.rows.filter (openKey chatId s p)).length ≤ 1 := hopen
      exact length_le_one_mem_eq hopen'
        (List.mem_filter.mpr ⟨hexmem, hexkey⟩)
    have hid_pres : ∀ r : ContradictionRow,
        ((if r.id = ex.id then
          { r with objects := objects, detectedAt := detectedAt }
        else r) : ContradictionRow).id = r.id := by
      intro r
      by_cases h : r.id = ex.id <;> simp [h]
    have hupd_key : ∀ (c' : Int) (s' p' : String) (r : ContradictionRow),
        openKey c' s' p' (if r.id = ex.id then
          { r with objects := objects, detectedAt := detectedAt }
        else r) = openKey c' s' p' r := by
      intro c' s' p' r
      by_cases h : r.id = ex.id
      · simp [h, openKey]
      · simp [h]
    have hfilter_comm : ∀ (c' : Int) (s' p' : String),
        (st.rows.map (fun r => if r.id = ex.id then
          { r with objects := objects, detectedAt := detectedAt }
        else r)).filter (openKey c' s' p') =
        (st.rows.filter (openKey c' s' p')).map (fun r =>
          if r.id = ex.id then
            { r with objects := objects, detectedAt := detectedAt }
          else r) := by
      intro c' s' p'
      rw [List.filter_map]
      congr 1
      apply List.filter_congr
      intro r _
      exact hupd_key c' s' p' r
    refine ⟨⟨?_, ?_⟩, ?_, ?_⟩
    · rw [hup]
      intro r hr
      simp only [List.mem_map] at hr
      obtain ⟨q, hq, hqr⟩ := hr
      have : r.id = q.id := by
        rw [← hqr]
        exact hid_pres q
      rw [this]
      exact hbound q hq
    · rw [hup]
      simp only
      rw [List.pairwise_map]
      refine hpair.imp ?_
      intro a b hne
      rw [hid_pres a, hid_pres b]
      exact hne
    · refine ⟨{ ex with objects := objects, detectedAt := detectedAt },
        ?_, e1, e2, e3, e4, rfl, rfl⟩
      rw [hup, openRowsFor_eq_filter]
      simp only
      rw [hfilter_comm, hexsingle]
      simp
    · intro c' s' p' hne
      rw [hup, openRowsFor_eq_filter, openRowsFor_eq_filter]
      simp only
      rw [hfilter_comm]
      have hexnot : openKey c' s' p' ex = false := by
        simp only [openKey, Bool.and_eq_true, beq_iff_eq,
          Bool.and_eq_false_iff, Bool.eq_false_iff]
        by_cases h1 : ex.chatId = c'
        · by_cases h2 : ex.subject = s'
          · by_cases h3 : ex.predicate = p'
            · exfalso
              apply hne
              refine ⟨?_, ?_, ?_⟩
              · rw [← h1, e1]
              · rw [← h2, e2]
              · rw [← h3, e3]
            · simp [h3]
          · simp [h2]
        · simp [h1]
      apply (List.map_congr_left ?_).trans (List.map_id' _)
      intro r hr
      have hrmem : r ∈ st.rows := (List.mem_filter.mp hr).1
      have hrkey : openKey c' s' p' r = true := (List.mem_filter.mp hr).2
      have hrne : r.id ≠ ex.id := by
        intro hid
        have heq := pairwise_id_inj hpair r hrmem ex hexmem hid
        rw [heq, hexnot] at hrkey
        exact Bool.false_ne_true hrkey
      simp [hrne]

/-- Store invariant carried through the detection loop: well-formed ids and
at most one open contradiction per `(chat, subject, predicate)` key (the
UNIQUE constraint). -/
def ContradictionStore.Inv (st : ContradictionStore) : Prop :=
  st.WF ∧ ∀ (c : Int) (s p : String), (openRowsFor st c s p).length ≤ 1

theorem upsertContradiction_inv (st : ContradictionStore) (chatId : Int)
    (s p : String) (objects : List String) (detectedAt : ℚ)
    (hinv : st.Inv) :
    (upsertContradiction st chatId s p objects detectedAt).Inv := by
  obtain ⟨hwf, hopen⟩ := hinv
  obtain ⟨hwf', hone, hframe⟩ :=
    upsertContradiction_spec st chatId s p objects detectedAt hwf
      (hopen chatId s p)
  refine ⟨hwf', ?_⟩
  intro c' s' p'
  by_cases h : c' = chatId ∧ s' = s ∧ p' = p
  · obtain ⟨hc, hs, hp⟩ := h
    subst hc; subst hs; subst hp
    obtain ⟨r, hr, _⟩ := hone
    rw [hr]
    simp
  · rw [hframe c' s' p' h]
    exact hopen c' s' p'

theorem detectLoop_found (chatId : Int) (detectedAt : ℚ)
    (cs : List (String × String × List String)) (st : ContradictionStore)
    (hall : ∀ c ∈ cs, 2 ≤ (jsSetDedupe c.2.2).length) :
    (detectLoop chatId detectedAt cs st).1 =
      cs.map (fun c => (c.1, c.2.1, jsSetDedupe c.2.2)) := by
  induction cs generalizing st with
  | nil => rfl
  | cons c rest ih =>
    rw [detectLoop]
    simp only
    rw [if_neg (not_lt.mpr (hall c (List.mem_cons_self _ _)))]
    simp only [List.map_cons]
    rw [ih _ (fun d hd => hall d (List.mem_cons_of_mem _ hd))]

theorem detectLoop_spec (chatId : Int) (detectedAt : ℚ)
    (cs : List (String × String × List String)) (st : ContradictionStore)
    (hinv : st.Inv)
    (hkeys : cs.Pairwise (fun a b => (a.1, a.2.1) ≠ (b.1, b.2.1))) :
    (detectLoop chatId detectedAt cs st).2.Inv ∧
    (∀ (c' : Int) (s' p' : String),
      (∀ c ∈ cs, ¬ (c' = chatId ∧ s' = c.1 ∧ p' = c.2.1)) →
      openRowsFor (detectLoop chatId detectedAt cs st).2 c' s' p' =
        openRowsFor st c' s' p') ∧
    (∀ c ∈ cs, 2 ≤ (jsSetDedupe c.2.2).length →
      ∃ r, openRowsFor (detectLoop chatId detectedAt cs st).2 chatId c.1
          c.2.1 = [r] ∧
        r.objects = jsSetDedupe c.2.2 ∧ r.detectedAt = detectedAt ∧
        r.status = "open") := by
  induction cs generalizing st with
  | nil =>
    refine ⟨hinv, fun _ _ _ _ => rfl, ?_⟩
    intro c hc
    simp at hc
  | cons c rest ih =>
    obtain ⟨hhead, htail⟩ := List.pairwise_cons.mp hkeys
    rw [detectLoop]
    simp only
    by_cases hskip : (jsSetDedupe c.2.2).length < 2
    · rw [if_pos hskip]
      obtain ⟨hinv', hframe, hpers⟩ := ih st hinv htail
      refine ⟨hinv', ?_, ?_⟩
      · intro c' s' p' hout
        exact hframe c' s' p'
          (fun d hd => hout d (List.mem_cons_of_mem _ hd))
      · intro d hd h2
        rcases List.mem_cons.mp hd with h | h
        · subst h
          exact absurd h2 (not_le.mpr hskip)
        · exact hpers d h h2
    · rw [if_neg hskip]
      simp only
      set st' := upsertContradiction st chatId c.1 c.2.1
        (jsSetDedupe c.2.2) detectedAt with hst'
      have hinv' : st'.Inv :=
        upsertContradiction_inv st chatId c.1 c.2.1 _ detectedAt hinv
      obtain ⟨hinvF, hframe, hpers⟩ := ih st' hinv' htail
      obtain ⟨hwf', hone, hfr1⟩ :=
        upsertContradiction_spec st chatId c.1 c.2.1
          (jsSetDedupe c.2.2) detectedAt hinv.1 (hinv.2 chatId c.1 c.2.1)
      refine ⟨hinvF, ?_, ?_⟩
      · intro c' s' p' hout
        rw [hframe c' s' p'
          (fun d hd => hout d (List.mem_cons_of_mem _ hd))]
        exact hfr1 c' s' p' (hout c (List.mem_cons_self _ _))
      · intro d hd h2
        rcases List.mem_cons.mp hd with h | h
        · subst h
          obtain ⟨r, hr, hrc, hrs, hrp, hrst, hro, hrt⟩ := hone
          refine ⟨r, ?_, hro, hrt, hrst⟩
          rw [hframe chatId d.1 d.2.1 ?_]
          · exact hr
          · intro d' hd' hcontra
            exact hhead d' hd' (by
              rw [hcontra.2.1, hcontra.2.2])
        · exact hpers d h h2

/-- **C4.** `detectContradictions(chatId, minConfidence)` groups the chat's
active facts at or above the confidence floor by `(subject, predicate)`;
exactly those groups with more than one distinct object are returned, each
carrying its distinct conflicting objects, and for each such group exactly
one open contradiction row holding those objects is persisted; a group with
at most one fact (in particular a single fact) produces no contradiction. -/
theorem detectContradictions_spec
    (facts : List FactRow) (st : ContradictionStore) (chatId : Int)
    (minConfidence detectedAt : ℚ)
    (hwf : st.WF)
    (hopen : ∀ (c : Int) (s p : String),
      (openRowsFor st c s p).length ≤ 1) :
    (∀ s p,
      (∃ g ∈ (detectContradictions facts st chatId minConfidence
          detectedAt).1, g.1 = s ∧ g.2.1 = p) ↔
      ((s, p) ∈ groupKeys (qualifyingFacts facts chatId minConfidence) ∧
       1 < (jsSetDedupe (objectsOf
         (qualifyingFacts facts chatId minConfidence) s p)).length)) ∧
    (∀ g ∈ (detectContradictions facts st chatId minConfidence
        detectedAt).1,
      g.2.2 = jsSetDedupe (objectsOf
        (qualifyingFacts facts chatId minConfidence) g.1 g.2.1)) ∧
    (∀ s p,
      ((qualifyingFacts facts chatId minConfidence).filter
        (fun r => r.subject == s && r.predicate == p)).length ≤ 1 →
      ¬ ∃ g ∈ (detectContradictions facts st chatId minConfidence
          detectedAt).1, g.1 = s ∧ g.2.1 = p) ∧
    (∀ g ∈ (detectContradictions facts st chatId minConfidence
        detectedAt).1,
      ∃ r, openRowsFor (detectContradictions facts st chatId minConfidence
          detectedAt).2 chatId g.1 g.2.1 = [r] ∧
        r.objects = g.2.2 ∧ r.detectedAt = detectedAt ∧
        r.status = "open") := by
  set qual := qualifyingFacts facts chatId minConfidence with hqual
  set cands := contradictionCandidates facts chatId minConfidence with hcands
  have hcands_all : ∀ c ∈ cands, 2 ≤ (jsSetDedupe c.2.2).length := by
    intro c hc
    rw [hcands, contradictionCandidates] at hc
    have := (List.mem_filter.mp hc).2
    simpa using this
  have hcands_shape : ∀ c ∈ cands,
      (c.1, c.2.1) ∈ groupKeys qual ∧ c.2.2 = objectsOf qual c.1 c.2.1 := by
    intro c hc
    rw [hcands, contradictionCandidates] at hc
    obtain ⟨hmem, _⟩ := List.mem_filter.mp hc
    obtain ⟨k, hk, hck⟩ := List.mem_map.mp hmem
    rw [← hck]
    exact ⟨hk, rfl⟩
  have hcands_keys : cands.Pairwise
      (fun a b => (a.1, a.2.1) ≠ (b.1, b.2.1)) := by
    rw [hcands, contradictionCandidates]
    refine List.Pairwise.sublist (List.filter_sublist _) ?_
    rw [List.pairwise_map]
    have hnd : (groupKeys qual).Nodup := jsSetDedupe_nodup _
    refine hnd.imp ?_
    intro k1 k2 hne
    simp only [ne_eq, Prod.mk.injEq, not_and]
    intro h1 h2
    exact hne (Prod.ext h1 h2)
  have hfound : (detectContradictions facts st chatId minConfidence
      detectedAt).1 = cands.map (fun c => (c.1, c.2.1, jsSetDedupe c.2.2)) := by
    rw [detectContradictions]
    exact detectLoop_found chatId detectedAt cands st hcands_all
  obtain ⟨hinvF, hframeF, hpersF⟩ := detectLoop_spec chatId detectedAt
    cands st ⟨hwf, hopen⟩ hcands_keys
  have hmain : ∀ s p,
      (∃ g ∈ (detectContradictions facts st chatId minConfidence
          detectedAt).1, g.1 = s ∧ g.2.1 = p) ↔
      ((s, p) ∈ groupKeys qual ∧
       1 < (jsSetDedupe (objectsOf qual s p)).length) := by
    intro s p
    rw [hfound]
    constructor
    · intro ⟨g, hg, hgs, hgp⟩
      obtain ⟨c, hc, hgc⟩ := List.mem_map.mp hg
      obtain ⟨hck, hco⟩ := hcands_shape c hc
      have hcs : c.1 = s := by rw [← hgs, ← hgc]
      have hcp : c.2.1 = p := by rw [← hgp, ← hgc]
      rw [hcs, hcp] at hck hco
      refine ⟨hck, ?_⟩
      rw [← hco]
      exact lt_of_lt_of_le one_lt_two (hcands_all c hc)
    · intro ⟨hk, hlen⟩
      refine ⟨(s, p, jsSetDedupe (objectsOf qual s p)), ?_, rfl, rfl⟩
      rw [List.mem_map]
      refine ⟨(s, p, objectsOf qual s p), ?_, rfl⟩
      rw [hcands, contradictionCandidates]
      rw [List.mem_filter]
      constructor
      · rw [List.mem_map]
        exact ⟨(s, p), hk, rfl⟩
      · simpa using hlen
  refine ⟨hmain, ?_, ?_, ?_⟩
  · intro g hg
    rw [hfound] at hg
    obtain ⟨c, hc, hgc⟩ := List.mem_map.mp hg
    obtain ⟨_, hco⟩ := hcands_shape c hc
    rw [← hgc]
    simp only
    rw [hco]
  · intro s p hsingle hex
    obtain ⟨hk, hlen⟩ := (hmain s p).mp hex
    have : (objectsOf qual s p).length ≤ 1 := by
      rw [objectsOf, List.length_map]
      exact hsingle
    have := le_trans (jsSetDedupe_length_le (objectsOf qual s p)) this
    omega
  · intro g hg
    rw [hfound] at hg
    obtain ⟨c, hc, hgc⟩ := List.mem_map.mp hg
    obtain ⟨r, hr, hro, hrt, hrst⟩ :=
      hpersF c hc (hcands_all c hc)
    refine ⟨r, ?_, ?_, hrt, hrst⟩
    · rw [detectContradictions, ← hgc]
      exact hr
    · rw [← hgc]
      simp only
      exact hro

/-- Concrete facts for the `detectContradictions` witness: two conflicting
`deployment_env` objects for `project:zeus` and one lone `timezone` fact. -/
def zeusFacts : List FactRow :=
  [⟨0, 44, "project:zeus", "deployment_env", "staging", 1, [], 0, 0, "f",
     "e", "k1", true⟩,
   ⟨1, 44, "project:zeus", "deployment_env", "production", 1, [], 0, 0,
     "f", "e", "k2", true⟩,
   ⟨2, 44, "user", "timezone", "utc", 1, [], 0, 0, "f", "e", "k3", true⟩]

/-- Concrete instantiation of `detectContradictions_spec` on `zeusFacts`
over an empty contradiction table. -/
theorem detectContradictions_spec_witness :
    ((∀ r ∈ ([] : List ContradictionRow), r.id < 0) ∧
     (∀ (c : Int) (s p : String),
       (openRowsFor ⟨[], 0⟩ c s p).length ≤ 1)) ∧
    ((∀ s p,
      (∃ g ∈ (detectContradictions zeusFacts ⟨[], 0⟩ 44 0 5).1,
          g.1 = s ∧ g.2.1 = p) ↔
      ((s, p) ∈ groupKeys (qualifyingFacts zeusFacts 44 0) ∧
       1 < (jsSetDedupe (objectsOf
         (qualifyingFacts zeusFacts 44 0) s p)).length)) ∧
    (∀ g ∈ (detectContradictions zeusFacts ⟨[], 0⟩ 44 0 5).1,
      g.2.2 = jsSetDedupe (objectsOf
        (qualifyingFacts zeusFacts 44 0) g.1 g.2.1)) ∧
    (∀ s p,
      ((qualifyingFacts zeusFacts 44 0).filter
        (fun r => r.subject == s && r.predicate == p)).length ≤ 1 →
      ¬ ∃ g ∈ (detectContradictions zeusFacts ⟨[], 0⟩ 44 0 5).1,
          g.1 = s ∧ g.2.1 = p) ∧
    (∀ g ∈ (detectContradictions zeusFacts ⟨[], 0⟩ 44 0 5).1,
      ∃ r, openRowsFor (detectContradictions zeusFacts ⟨[], 0⟩ 44 0
          5).2 44 g.1 g.2.1 = [r] ∧
        r.objects = g.2.2 ∧ r.detectedAt = 5 ∧ r.status = "open")) :=
  ⟨⟨by simp, by intro c s p; simp [openRowsFor]⟩,
   detectContradictions_spec zeusFacts ⟨[], 0⟩ 44 0 5
     ⟨by simp, List.Pairwise.nil⟩
     (by intro c s p; simp [openRowsFor])⟩

/-! ### `db.js`: `safeJson` and a model of `JSON.parse` -/

/-- JSON values as produced by `JSON.parse` (numbers at exact rational
precision). -/
inductive JsValue where
  | null
  | bool (b : Bool)
  | num (q : ℚ)
  | str (s : String)
  | arr (items : List JsValue)
  | obj (fields : List (String × JsValue))

def isJsonWs (c : Char) : Bool :=
  c == ' ' || c == '\t' || c == '\n' || c == '\r'

def jsonSkipWs (cs : List Char) : List Char := cs.dropWhile isJsonWs

def quoteChar : Char := Char.ofNat 34

def backslashChar : Char := Char.ofNat 92

def lbraceChar : Char := Char.ofNat 123

def rbraceChar : Char := Char.ofNat 125

def hexVal (c : Char) : Option Nat :=
  if '0' ≤ c ∧ c ≤ '9' then some (c.toNat - 48)
  else if 'a' ≤ c ∧ c ≤ 'f' then some (c.toNat - 87)
  else if 'A' ≤ c ∧ c ≤ 'F' then some (c.toNat - 55)
  else none

def digitsToNat (ds : List Char) : Nat :=
  ds.foldl (fun acc c => 10 * acc + (c.toNat - 48)) 0

/-- A rational from a decimal mantissa and a power-of-ten exponent, using
only `Int`/`Nat` arithmetic and `mkRat`. -/
def ratOfParts (mantissa : Int) (e10 : Int) : ℚ :=
  if 0 ≤ e10 then mkRat (mantissa * 10 ^ e10.toNat) 1
  else mkRat mantissa (10 ^ (-e10).toNat)

/-- JSON string body parser (after the opening quote), handling the JSON
escape sequences and rejecting raw control characters. -/
def parseJsonString (fuel : Nat) (cs : List Char) (acc : List Char) :
    Option (String × List Char) :=
  match fuel, cs with
  | 0, _ => none
  | _, [] => none
  | fuel + 1, c :: rest =>
    if c = quoteChar then some (⟨acc.reverse⟩, rest)
    else if c = backslashChar then
      match rest with
      | [] => none
      | e :: rest2 =>
        if e = quoteChar then parseJsonString fuel rest2 (quoteChar :: acc)
        else if e = backslashChar then
          parseJsonString fuel rest2 (backslashChar :: acc)
        else if e = '/' then parseJsonString fuel rest2 ('/' :: acc)
        else if e = 'b' then parseJsonString fuel rest2 (Char.ofNat 8 :: acc)
        else if e = 'f' then
          parseJsonString fuel rest2 (Char.ofNat 12 :: acc)
        else if e = 'n' then parseJsonString fuel rest2 ('\n' :: acc)
        else if e = 'r' then
          parseJsonString fuel rest2 (Char.ofNat 13 :: acc)
        else if e = 't' then parseJsonString fuel rest2 ('\t' :: acc)
        else if e = 'u' then
          match rest2 with
          | h1 :: h2 :: h3 :: h4 :: rest3 =>
            match hexVal h1, hexVal h2, hexVal h3, hexVal h4 with
            | some a, some b, some c2, some d =>
              parseJsonString fuel rest3
                (Char.ofNat (((a * 16 + b) * 16 + c2) * 16 + d) :: acc)
            | _, _, _, _ => none
          | _ => none
        else none
    else if c.toNat < 32 then none
    else parseJsonString fuel rest (c :: acc)

/-- JSON number parser: optional minus, integer part (no redundant leading
zero), optional fraction, optional exponent. -/
def parseJsonNumber (cs : List Char) : Option (ℚ × List Char) :=
  let sign : Int × List Char :=
    match cs with
    | c :: rest => if c = '-' then (-1, rest) else (1, cs)
    | [] => (1, cs)
  match sign.2 with
  | [] => none
  | d :: _ =>
    if d.isDigit then
      let intDigits :=
        if d = '0' then ['0'] else sign.2.takeWhile Char.isDigit
      let rest1 := sign.2.drop intDigits.length
      let fracParse : Option (List Char × List Char) :=
        match rest1 with
        | '.' :: r2 =>
          let fds := r2.takeWhile Char.isDigit
          if fds = [] then none else some (fds, r2.drop fds.length)
        | _ => some ([], rest1)
      match fracParse with
      | none => none
      | some (fds, rest2) =>
        let expParse : Option (Int × List Char) :=
          match rest2 with
          | e :: r3 =>
            if e = 'e' ∨ e = 'E' then
              let se : Int × List Char :=
                match r3 with
                | s2 :: r4 =>
                  if s2 = '+' then (1, r4)
                  else if s2 = '-' then (-1, r4)
                  else (1, r3)
                | [] => (1, r3)
              let eds := se.2.takeWhile Char.isDigit
              if eds = [] then none
              else some (se.1 * digitsToNat eds, se.2.drop eds.length)
            else some (0, rest2)
          | [] => some (0, rest2)
        match expParse with
        | none => none
        | some (e10, rest3) =>
          some (ratOfParts (sign.1 * digitsToNat (intDigits ++ fds))
            (e10 - fds.length), rest3)
    else none

mutual

/-- Recursive-descent JSON value parser (the model of `JSON.parse`).  The
fuel bounds the nesting depth; each level consumes at least one character,
so fuel `length + 1` is exact. -/
def parseJsonValue : Nat → List Char → Option (JsValue × List Char)
  | 0, _ => none
  | fuel + 1, cs =>
    match jsonSkipWs cs with
    | [] => none
    | c :: rest =>
      if c = 'n' then
        match rest with
        | 'u' :: 'l' :: 'l' :: r => some (.null, r)
        | _ => none
      else if c = 't' then
        match rest with
        | 'r' :: 'u' :: 'e' :: r => some (.bool true, r)
        | _ => none
      else if c = 'f' then
        match rest with
        | 'a' :: 'l' :: 's' :: 'e' :: r => some (.bool false, r)
        | _ => none
      else if c = quoteChar then
        match parseJsonString (rest.length + 1) rest [] with
        | some (s, r) => some (.str s, r)
        | none => none
      else if c = lbraceChar then parseJsonObjBody fuel rest
      else if c = '[' then parseJsonArrBody fuel rest
      else if c = '-' ∨ c.isDigit then
        match parseJsonNumber (c :: rest) with
        | some (q, r) => some (.num q, r)
        | none => none
      else none

def parseJsonArrBody : Nat → List Char → Option (JsValue × List Char)
  | 0, _ => none
  | fuel + 1, cs =>
    match jsonSkipWs cs with
    | c :: rest =>
      if c = ']' then some (.arr [], rest)
      else
        match parseJsonValue fuel cs with
        | some (v, r) => parseJsonArrRest fuel r [v]
        | none => none
    | [] => none

def parseJsonArrRest :
    Nat → List Char → List JsValue → Option (JsValue × List Char)
  | 0, _, _ => none
  | fuel + 1, cs, acc =>
    match jsonSkipWs cs with
    | c :: rest =>
      if c = ']' then some (.arr acc.reverse, rest)
      else if c = ',' then
        match parseJsonValue fuel rest with
        | some (v, r) => parseJsonArrRest fuel r (v :: acc)
        | none => none
      else none
    | [] => none

def parseJsonMember :
    Nat → List Char → Option (String × JsValue × List Char)
  | 0, _ => none
  | fuel + 1, cs =>
    match jsonSkipWs cs with
    | c :: rest =>
      if c = quoteChar then
        match parseJsonString (rest.length + 1) rest [] with
        | some (k, r) =>
          match jsonSkipWs r with
          | c2 :: r2 =>
            if c2 = ':' then
              match parseJsonValue fuel r2 with
              | some (v, r3) => some (k, v, r3)
              | none => none
            else none
          | [] => none
        | none => none
      else none
    | [] => none

def parseJsonObjBody : Nat → List Char → Option (JsValue × List Char)
  | 0, _ => none
  | fuel + 1, cs =>
    match jsonSkipWs cs with
    | c :: rest =>
      if c = rbraceChar then some (.obj [], rest)
      else
        match parseJsonMember fuel cs with
        | some (k, v, r) => parseJsonObjRest fuel r [(k, v)]
        | none => none
    | [] => none

def parseJsonObjRest :
    Nat → List Char → List (String × JsValue) →
    Option (JsValue × List Char)
  | 0, _, _ => none
  | fuel + 1, cs, acc =>
    match jsonSkipWs cs with
    | c :: rest =>
      if c = rbraceChar then some (.obj acc.reverse, rest)
      else if c = ',' then
        match parseJsonMember fuel rest with
        | some (k, v, r) => parseJsonObjRest fuel r ((k, v) :: acc)
        | none => none
      else none
    | [] => none

end

/-- The model of `JSON.parse(s)`: parse one value and require only trailing
whitespace after it. -/
def parseJson (s : String) : Option JsValue :=
  match parseJsonValue (s.data.length + 1) s.data with
  | some (v, rest) => if jsonSkipWs rest = [] then some v else none
  | none => none

/-- `safeJson(value, fallback)` from `db.js`:
`if (value == null || value === '') return fallback;
try { return JSON.parse(value); } catch { return fallback; }`.
`none` models a null/undefined column value. -/
def safeJson (value : Option String) (fallback : JsValue) : JsValue :=
  match value with
  | none => fallback
  | some v =>
    if v = "" then fallback
    else
      match parseJson v with
      | some parsed => parsed
      | none => fallback

/-- **C9.** `safeJson(value, fallback)` returns the fallback when the
stored value is null or empty; otherwise it returns the parsed value when
the value is valid JSON and the fallback when parsing fails — it never
raises. -/
theorem safeJson_spec (value : Option String) (fallback : JsValue) :
    ((value = none ∨ value = some "") →
      safeJson value fallback = fallback) ∧
    (∀ s, value = some s → s ≠ "" →
      (∀ j, parseJson s = some j → safeJson value fallback = j) ∧
      (parseJson s = none → safeJson value fallback = fallback)) := by
  constructor
  · intro h
    rcases h with h | h <;> rw [h] <;> simp [safeJson]
  · intro s hs hne
    subst hs
    constructor
    · intro j hj
      rw [safeJson, if_neg hne, hj]
    · intro hj
      rw [safeJson, if_neg hne, hj]

/-- Concrete instantiations of `safeJson_spec`: a malformed tags column
degrades to the empty-array fallback; a well-formed one parses. -/
theorem safeJson_spec_witness :
    (parseJson "[\"a\", 1" = none ∧
     safeJson (some "[\"a\", 1") (JsValue.arr []) = JsValue.arr []) ∧
    (parseJson "[\"a\", 1]" =
      some (JsValue.arr [JsValue.str "a", JsValue.num (mkRat 1 1)]) ∧
     safeJson (some "[\"a\", 1]") (JsValue.arr []) =
      JsValue.arr [JsValue.str "a", JsValue.num (mkRat 1 1)]) :=
  ⟨⟨rfl,
    ((safeJson_spec (some "[\"a\", 1") (JsValue.arr [])).2 "[\"a\", 1"
      rfl (by decide)).2 rfl⟩,
   ⟨rfl,
    ((safeJson_spec (some "[\"a\", 1]") (JsValue.arr [])).2 "[\"a\", 1]"
      rfl (by decide)).1 _ rfl⟩⟩

/-! ### `dashboard.js`: `redactSensitiveText`

The seven `String.replace` rules are modelled as left-to-right scanners over
the character list.  Word boundaries (`\b`) are evaluated against the
*original* characters, as the JavaScript regex engine does. -/

/-- The regex word-character class `\w` = `[A-Za-z0-9_]`, by ASCII code. -/
def isWordChar (c : Char) : Bool :=
  (97 ≤ c.toNat && c.toNat ≤ 122) || (65 ≤ c.toNat && c.toNat ≤ 90) ||
  (48 ≤ c.toNat && c.toNat ≤ 57) || c.toNat == 95

/-- The run class of the secret-key rule: `[A-Za-z0-9_-]`. -/
def isSkRunChar (c : Char) : Bool := isWordChar c || c == '-'

/-- `\b` immediately before a word character: satisfied at the start of the
string or after a non-word character.  `prev` is the preceding original
character. -/
def boundaryOK : Option Char → Bool
  | none => true
  | some c => !isWordChar c

/-- Case-insensitive character comparison (the `i` flag, ASCII folding). -/
def ciEq (a b : Char) : Bool := Char.toLower a == Char.toLower b

/-- Case-insensitive list equality. -/
def ciListEq : List Char → List Char → Bool
  | [], [] => true
  | a :: as, b :: bs => ciEq a b && ciListEq as bs
  | _, _ => false

/-- `pat` matches case-insensitively at the head of `s`. -/
def ciPrefixB (pat s : List Char) : Bool := ciListEq pat (s.take pat.length)

/-- `pat` occurs case-insensitively somewhere in `s`. -/
def ciInfixB (pat : List Char) : List Char → Bool
  | [] => ciPrefixB pat []
  | c :: s => ciPrefixB pat (c :: s) || ciInfixB pat (s : List Char)

/-- `s` is clean of the pattern: no case-insensitive occurrence. -/
def CleanOf (pat s : List Char) : Prop := ciInfixB pat s = false

/-- Hypothesis on the raw inputs: every case-insensitive occurrence of the
secret is case-exact and sits at a word boundary (is API-key-shaped in
context). -/
def AnchoredExact (secret u : List Char) : Prop :=
  ∀ pre suff, u = pre ++ suff → ciPrefixB secret suff = true →
    secret.isPrefixOf suff = true ∧ boundaryOK pre.getLast? = true

/-- End-of-match `\b` check for the secret-key rule after consuming `j`
characters of the class run; `next0` is the character following the whole
run (if any). -/
def skEndOk (run : List Char) (next0 : Option Char) (j : Nat) : Bool :=
  match run.get? (j - 1) with
  | none => false
  | some last =>
    match (match run.get? j with
           | some c => some c
           | none => next0) with
    | none => isWordChar last
    | some c => isWordChar last != isWordChar c

/-- Backtracking search for the largest acceptable run length `j ≥ 20`
(the `{20,}` quantifier followed by `\b`). -/
def findSkEnd (run : List Char) (next0 : Option Char) : Nat → Option Nat
  | 0 => none
  | j + 1 =>
    if j + 1 < 20 then none
    else if skEndOk run next0 (j + 1) then some (j + 1)
    else findSkEnd run next0 j

/-- Matcher for `sk-[A-Za-z0-9_-]{20,}\b` at the head of `cs` (the leading
`\b` is checked by the scanner).  Returns the number of characters
consumed. -/
def matchSk (cs : List Char) : Option Nat :=
  match cs with
  | 's' :: 'k' :: '-' :: rest =>
    match findSkEnd (rest.takeWhile isSkRunChar)
        ((rest.drop (rest.takeWhile isSkRunChar).length).head?)
        (rest.takeWhile isSkRunChar).length with
    | some j => some (3 + j)
    | none => none
  | _ => none

/-- The replacement text of the secret-key rule. -/
def skRepl : List Char := ('s' :: 'k' :: '-' :: '[' :: ('R' :: 'E' :: 'D' ::
  'A' :: 'C' :: 'T' :: 'E' :: 'D' :: (']' : Char) :: []))

/-- Whether the secret-key rule fires at the start of the suffix `suff` of
the input, with `pre` the characters before it. -/
def skFiresAt (pre suff : List Char) : Prop :=
  boundaryOK pre.getLast? = true ∧ (matchSk suff).isSome

/-- Scanner for the global replace of the secret-key rule.  `prev` is the
preceding original character; on a match the scan resumes after the
consumed characters with `prev` set to the last consumed character. -/
def redactSkAux : Nat → Option Char → List Char → List Char
  | 0, _, cs => cs
  | fuel + 1, prev, cs =>
    match cs with
    | [] => []
    | c :: rest =>
      if boundaryOK prev then
        match matchSk (c :: rest) with
        | some n =>
          skRepl ++ redactSkAux fuel ((c :: rest).take n).getLast?
            ((c :: rest).drop n)
        | none => c :: redactSkAux fuel (some c) rest
      else c :: redactSkAux fuel (some c) rest

/-- Rule 1 of `redactSensitiveText`. -/
def redactSkList (cs : List Char) : List Char :=
  redactSkAux (cs.length + 1) none cs

/-! ### Character-level lemmas for the redaction proofs -/

theorem toLower_toNat (c : Char) :
    (Char.toLower c).toNat =
      if 65 ≤ c.toNat ∧ c.toNat ≤ 90 then c.toNat + 32 else c.toNat := by
  unfold Char.toLower
  split
  · next h =>
    rw [if_pos ⟨h.1, h.2⟩]
    have hv : Nat.isValidChar (c.toNat + 32) := by
      left
      have := h.2
      simp [Char.toNat] at *
      omega
    simp only [Char.ofNat, Char.toNat] at *
    rw [dif_pos hv]
    simp [Char.ofNatAux, Char.toNat, UInt32.toNat, BitVec.toNat_ofNat]
  · next h =>
    rw [if_neg h]

theorem char_eq_iff_toNat (a b : Char) : a = b ↔ a.toNat = b.toNat := by
  constructor
  · intro h; rw [h]
  · intro h
    exact Char.eq_of_val_eq (UInt32.toNat.inj h)

theorem isWordChar_iff (c : Char) :
    isWordChar c = true ↔
      (97 ≤ c.toNat ∧ c.toNat ≤ 122) ∨ (65 ≤ c.toNat ∧ c.toNat ≤ 90) ∨
      (48 ≤ c.toNat ∧ c.toNat ≤ 57) ∨ c.toNat = 95 := by
  simp [isWordChar, Bool.or_eq_true, Bool.and_eq_true, decide_eq_true_iff]
  tauto

theorem isSkRunChar_of_word {c : Char} (h : isWordChar c = true) :
    isSkRunChar c = true := by
  simp [isSkRunChar, h]

theorem isSkRunChar_iff (c : Char) :
    isSkRunChar c = true ↔ isWordChar c = true ∨ c.toNat = 45 := by
  simp [isSkRunChar, Bool.or_eq_true, beq_iff_eq]
  rw [char_eq_iff_toNat]
  simp

theorem ciEq_iff (a b : Char) :
    ciEq a b = true ↔ (Char.toLower a).toNat = (Char.toLower b).toNat := by
  simp [ciEq, beq_iff_eq]
  rw [char_eq_iff_toNat]

/-- The code of the lower-cased image of a word character. -/
theorem toLower_code_of_word {c : Char} (h : isWordChar c = true) :
    (97 ≤ (Char.toLower c).toNat ∧ (Char.toLower c).toNat ≤ 122) ∨
    (48 ≤ (Char.toLower c).toNat ∧ (Char.toLower c).toNat ≤ 57) ∨
    (Char.toLower c).toNat = 95 := by
  rw [isWordChar_iff] at h
  rw [toLower_toNat]
  split <;> omega

theorem word_of_toLower_word {c : Char}
    (h : (97 ≤ (Char.toLower c).toNat ∧ (Char.toLower c).toNat ≤ 122) ∨
      (48 ≤ (Char.toLower c).toNat ∧ (Char.toLower c).toNat ≤ 57) ∨
      (Char.toLower c).toNat = 95) : isWordChar c = true := by
  rw [toLower_toNat] at h
  rw [isWordChar_iff]
  split at h <;> omega

/-- Characters matched case-insensitively against a key-run character are
themselves key-run characters. -/
theorem isSkRunChar_of_ciEq {x c : Char} (hx : isSkRunChar x = true)
    (h : ciEq x c = true) : isSkRunChar c = true := by
  rw [isSkRunChar_iff] at hx ⊢
  rw [ciEq_iff] at h
  rcases hx with hw | hd
  · left
    apply word_of_toLower_word
    rw [← h]
    exact toLower_code_of_word hw
  · right
    have hx45 : (Char.toLower x).toNat = 45 := by
      rw [toLower_toNat]
      split <;> omega
    rw [hx45] at h
    rw [toLower_toNat] at h
    split at h <;> omega

theorem ciEq_false_of_skrun_not {x c : Char} (hx : isSkRunChar x = true)
    (hc : isSkRunChar c = false) : ciEq x c = false := by
  cases h : ciEq x c
  · rfl
  · rw [isSkRunChar_of_ciEq hx h] at hc
    exact absurd hc (by simp)

/-- A word character never matches a hyphen case-insensitively. -/
theorem ciEq_word_hyphen {c : Char} (h : isWordChar c = true) :
    ciEq c (Char.ofNat 45) = false := by
  cases hc : ciEq c (Char.ofNat 45)
  · rfl
  · rw [ciEq_iff] at hc
    have h45 : (Char.toLower (Char.ofNat 45)).toNat = 45 := by decide
    rw [h45] at hc
    have := toLower_code_of_word h
    omega

theorem ciEq_refl (a : Char) : ciEq a a = true := by
  simp [ciEq]

/-! ### Case-insensitive prefix and infix lemmas -/

theorem ciListEq_length : ∀ {p m : List Char},
    ciListEq p m = true → p.length = m.length
  | [], [], _ => rfl
  | [], _ :: _, h => by simp [ciListEq] at h
  | _ :: _, [], h => by simp [ciListEq] at h
  | _ :: p, _ :: m, h => by
    simp only [ciListEq, Bool.and_eq_true] at h
    simp [ciListEq_length h.2]

theorem ciListEq_append : ∀ {p₁ m₁ : List Char} (p₂ m₂ : List Char),
    p₁.length = m₁.length →
    ciListEq (p₁ ++ p₂) (m₁ ++ m₂) = (ciListEq p₁ m₁ && ciListEq p₂ m₂)
  | [], [], p₂, m₂, _ => by simp [ciListEq]
  | a :: p₁, b :: m₁, p₂, m₂, h => by
    simp only [List.cons_append, ciListEq, List.append_eq]
    rw [ciListEq_append p₂ m₂ (by simpa using h), Bool.and_assoc]

theorem ciListEq_all_skRun : ∀ {p m : List Char},
    p.all isSkRunChar = true → ciListEq p m = true →
    m.all isSkRunChar = true
  | [], [], _, _ => rfl
  | [], _ :: _, _, h => by simp [ciListEq] at h
  | _ :: _, [], _, h => by simp [ciListEq] at h
  | x :: p, c :: m, hall, h => by
    simp only [ciListEq, Bool.and_eq_true] at h
    simp only [List.all_cons, Bool.and_eq_true] at hall ⊢
    exact ⟨isSkRunChar_of_ciEq hall.1 h.1, ciListEq_all_skRun hall.2 h.2⟩

theorem ciPrefixB_nil (s : List Char) : ciPrefixB [] s = true := rfl

theorem ciPrefixB_cons_nil (a : Char) (p : List Char) :
    ciPrefixB (a :: p) [] = false := rfl

theorem ciPrefixB_cons_cons (a : Char) (p : List Char) (b : Char)
    (s : List Char) :
    ciPrefixB (a :: p) (b :: s) = (ciEq a b && ciPrefixB p s) := rfl

theorem ciPrefixB_iff_exists (p s : List Char) :
    ciPrefixB p s = true ↔ ∃ m t, s = m ++ t ∧ ciListEq p m = true := by
  constructor
  · intro h
    exact ⟨s.take p.length, s.drop p.length, (s.take_append_drop _).symm, h⟩
  · rintro ⟨m, t, rfl, h⟩
    have hl : p.length = m.length := ciListEq_length h
    unfold ciPrefixB
    rw [hl, List.take_left]
    exact h

theorem ciPrefixB_append_of {p s : List Char} (h : ciPrefixB p s = true)
    (t : List Char) : ciPrefixB p (s ++ t) = true := by
  rw [ciPrefixB_iff_exists] at h ⊢
  obtain ⟨m, r, rfl, hm⟩ := h
  exact ⟨m, r ++ t, by simp, hm⟩

theorem ciInfixB_cons (p : List Char) (c : Char) (s : List Char) :
    ciInfixB p (c :: s) = (ciPrefixB p (c :: s) || ciInfixB p s) := rfl

theorem ciPrefixB_to_ciInfixB {p s : List Char} (h : ciPrefixB p s = true) :
    ciInfixB p s = true := by
  cases s with
  | nil => exact h
  | cons c s => simp [ciInfixB_cons, h]

theorem ciInfixB_iff_exists (p s : List Char) :
    ciInfixB p s = true ↔
      ∃ pre suff, s = pre ++ suff ∧ ciPrefixB p suff = true := by
  induction s with
  | nil =>
    simp only [ciInfixB]
    constructor
    · intro h
      exact ⟨[], [], rfl, h⟩
    · rintro ⟨pre, suff, hps, h⟩
      rcases List.append_eq_nil.mp hps.symm with ⟨rfl, rfl⟩
      exact h
  | cons c s ih =>
    rw [ciInfixB_cons, Bool.or_eq_true, ih]
    constructor
    · rintro (h | ⟨pre, suff, rfl, h⟩)
      · exact ⟨[], c :: s, rfl, h⟩
      · exact ⟨c :: pre, suff, rfl, h⟩
    · rintro ⟨pre, suff, hps, h⟩
      cases pre with
      | nil =>
        left
        rw [List.nil_append] at hps
        rw [hps]
        exact h
      | cons d pre =>
        right
        rcases List.cons_eq_cons.mp hps with ⟨rfl, rfl⟩
        exact ⟨pre, suff, rfl, h⟩

theorem ciInfixB_eq_false_append {p : List Char} : ∀ {A : List Char}
    (B : List Char),
    (∀ t, t <:+ A → t ≠ [] → ciPrefixB p (t ++ B) = false) →
    ciInfixB p B = false → ciInfixB p (A ++ B) = false
  | [], B, _, hB => hB
  | a :: A, B, hA, hB => by
    rw [List.cons_append, ciInfixB_cons]
    have h1 : ciPrefixB p (a :: A ++ B) = false :=
      hA (a :: A) (List.suffix_refl (a :: A)) (by simp)
    have h2 : ciInfixB p (A ++ B) = false :=
      ciInfixB_eq_false_append B
        (fun t ht hne => hA t (ht.trans (List.suffix_cons a A)) hne) hB
    rw [List.cons_append] at h1
    simp [h1, h2]

theorem ciInfixB_true_of_infix {p s t : List Char} (h : ciInfixB p t = true)
    (hinf : t <:+: s) : ciInfixB p s = true := by
  rw [ciInfixB_iff_exists] at h ⊢
  obtain ⟨pre, suff, rfl, hp⟩ := h
  obtain ⟨l, r, rfl⟩ := hinf
  exact ⟨l ++ pre, suff ++ r, by simp, ciPrefixB_append_of hp r⟩

theorem clean_of_infix {p s t : List Char} (hinf : t <:+: s)
    (h : ciInfixB p s = false) : ciInfixB p t = false := by
  cases ht : ciInfixB p t
  · rfl
  · rw [ ciInfixB_true_of_infix ht hinf] at h
    exact absurd h (by simp)

theorem ciPrefixB_false_of_short {p s : List Char}
    (h : s.length < p.length) : ciPrefixB p s = false := by
  cases hp : ciPrefixB p s
  · rfl
  · have := ciListEq_length hp
    rw [List.length_take] at this
    omega

theorem clean_of_short {p s : List Char} (h : s.length < p.length) :
    ciInfixB p s = false := by
  cases hi : ciInfixB p s
  · rfl
  · rw [ciInfixB_iff_exists] at hi
    obtain ⟨pre, suff, rfl, hp⟩ := hi
    have hlen : suff.length < p.length := by
      have := List.length_append pre suff
      omega
    rw [ciPrefixB_false_of_short hlen] at hp
    exact absurd hp (by simp)

theorem ciListEq_refl : ∀ (p : List Char), ciListEq p p = true
  | [] => rfl
  | a :: p => by simp [ciListEq, ciEq_refl, ciListEq_refl p]

theorem ciPrefixB_of_isPrefixOf : ∀ {p s : List Char},
    p.isPrefixOf s = true → ciPrefixB p s = true
  | [], _, _ => rfl
  | _ :: _, [], h => by simp [List.isPrefixOf] at h
  | a :: p, b :: s, h => by
    simp only [List.isPrefixOf, Bool.and_eq_true, beq_iff_eq] at h
    rw [ciPrefixB_cons_cons, h.1]
    simp [ciEq_refl, ciPrefixB_of_isPrefixOf h.2]

/-- A clean string does not contain the pattern verbatim either. -/
theorem not_infix_of_clean {p s : List Char} (h : ciInfixB p s = false) :
    ¬ p <:+: s := by
  intro hinf
  obtain ⟨l, r, rfl⟩ := hinf
  have hpre : ciPrefixB p (p ++ r) = true :=
    ciPrefixB_append_of
      (by
        rw [ciPrefixB_iff_exists]
        exact ⟨p, [], by simp, ciListEq_refl p⟩) r
  have hocc : ciInfixB p (l ++ (p ++ r)) = true :=
    ciInfixB_true_of_infix (ciPrefixB_to_ciInfixB hpre) ⟨l, [], by simp⟩
  rw [← List.append_assoc] at hocc
  rw [hocc] at h
  exact absurd h (by simp)

/-- Master separator lemma: a clean piece, a separator containing no key-run
characters, and a clean remainder concatenate to a clean string. -/
theorem clean_append_sep {p : List Char} (hp : p.all isSkRunChar = true)
    (hpne : p ≠ []) {A sep B : List Char}
    (hA : ciInfixB p A = false) (hB : ciInfixB p B = false)
    (hsep : sep ≠ []) (hsepc : ∀ c ∈ sep, isSkRunChar c = false) :
    ciInfixB p (A ++ (sep ++ B)) = false := by
  have hsepB : ciInfixB p (sep ++ B) = false := by
    apply ciInfixB_eq_false_append B _ hB
    intro t ht hne
    cases t with
    | nil => exact absurd rfl hne
    | cons t0 t' =>
      cases p with
      | nil => exact absurd rfl hpne
      | cons p0 p' =>
        rw [List.cons_append, ciPrefixB_cons_cons]
        have hp0 : isSkRunChar p0 = true := by
          simp only [List.all_cons, Bool.and_eq_true] at hp
          exact hp.1
        have ht0 : isSkRunChar t0 = false :=
          hsepc t0 (ht.subset (by simp))
        rw [ciEq_false_of_skrun_not hp0 ht0]
        rfl
  apply ciInfixB_eq_false_append (sep ++ B) _ hsepB
  intro t ht hne
  cases hfalse : ciPrefixB p (t ++ (sep ++ B))
  · rfl
  · exfalso
    by_cases hlen : p.length ≤ t.length
    · have hm : ciListEq p ((t ++ (sep ++ B)).take p.length) = true := hfalse
      rw [List.take_append_of_le_length hlen] at hm
      have hpt : ciPrefixB p t = true := by
        rw [ciPrefixB_iff_exists]
        exact ⟨t.take p.length, t.drop p.length, (t.take_append_drop _).symm,
          hm⟩
      have : ciInfixB p A = true :=
        ciInfixB_true_of_infix (ciPrefixB_to_ciInfixB hpt) ht.isInfix
      rw [this] at hA
      exact absurd hA (by simp)
    · push_neg at hlen
      have hm : ciListEq p ((t ++ (sep ++ B)).take p.length) = true := hfalse
      have hsplit : p.length = t.length + (p.length - t.length) := by omega
      have happ : (t ++ (sep ++ B)).take p.length =
          t ++ (sep ++ B).take (p.length - t.length) := by
        conv_lhs => rw [hsplit]
        exact List.take_append (p.length - t.length)
      rw [happ] at hm
      have hm1 : ciListEq (p.take t.length ++ p.drop t.length)
          (t ++ (sep ++ B).take (p.length - t.length)) = true := by
        rw [p.take_append_drop]
        exact hm
      rw [ciListEq_append _ _ (by
        rw [List.length_take]
        omega), Bool.and_eq_true] at hm1
      have hm2 := hm1.2
      obtain ⟨x, p2, hx⟩ :=
        List.exists_cons_of_ne_nil (by
          intro hdrop
          have := congrArg List.length hdrop
          simp at this
          omega : p.drop t.length ≠ [])
      obtain ⟨s0, sep2, hs0⟩ := List.exists_cons_of_ne_nil hsep
      obtain ⟨k, hk⟩ : ∃ k, p.length - t.length = k + 1 :=
        ⟨p.length - t.length - 1, by omega⟩
      rw [hx, hk, hs0, List.cons_append, List.take_succ_cons, ciListEq,
        Bool.and_eq_true] at hm2
      have hxrun : isSkRunChar x = true := by
        have hxp : x ∈ p := List.drop_subset t.length p (by rw [hx]; simp)
        exact List.all_eq_true.mp hp x hxp
      have hs0run : isSkRunChar s0 = false :=
        hsepc s0 (by rw [hs0]; simp)
      rw [ciEq_false_of_skrun_not hxrun hs0run] at hm2
      exact absurd hm2.1 (by simp)

/-! ### The secret-key matcher fires on exact occurrences -/

theorem head?_dropWhile_false {p : Char → Bool} : ∀ {l : List Char}
    {c : Char}, (l.dropWhile p).head? = some c → p c = false := by
  intro l
  induction l with
  | nil => intro c h; simp [List.dropWhile] at h
  | cons a l ih =>
    intro c h
    rw [List.dropWhile_cons] at h
    split at h
    · exact ih h
    · next hpa =>
      simp at h
      rw [← h]
      simpa using hpa

theorem takeWhile_append_all {p : Char → Bool} : ∀ (l₁ l₂ : List Char),
    l₁.all p = true → (l₁ ++ l₂).takeWhile p = l₁ ++ l₂.takeWhile p := by
  intro l₁
  induction l₁ with
  | nil => intro l₂ _; simp
  | cons a l ih =>
    intro l₂ h
    simp only [List.all_cons, Bool.and_eq_true] at h
    rw [List.cons_append, List.takeWhile_cons, if_pos h.1, ih l₂ h.2,
      List.cons_append]

theorem drop_takeWhile_length (p : Char → Bool) (l : List Char) :
    l.drop (l.takeWhile p).length = l.dropWhile p :=
  calc l.drop (l.takeWhile p).length
      = (l.takeWhile p ++ l.dropWhile p).drop (l.takeWhile p).length := by
        rw [List.takeWhile_append_dropWhile]
    _ = l.dropWhile p := List.drop_left _ _

/-- Decompose a list around its last word character. -/
theorem exists_last_word (run : List Char) (c0 : Char) (hc0 : c0 ∈ run)
    (hw0 : isWordChar c0 = true) :
    ∃ al w be, run = al ++ w :: be ∧ isWordChar w = true ∧
      ∀ b ∈ be, isWordChar b = false := by
  have hne : run.reverse.dropWhile (fun b => !isWordChar b) ≠ [] := by
    intro hempty
    rw [List.dropWhile_eq_nil_iff] at hempty
    have := hempty c0 (List.mem_reverse.mpr hc0)
    rw [hw0] at this
    exact absurd this (by simp)
  obtain ⟨w, de, hde⟩ := List.exists_cons_of_ne_nil hne
  have hw : isWordChar w = true := by
    have := head?_dropWhile_false (p := fun b => !isWordChar b)
      (l := run.reverse) (c := w) (by rw [hde]; rfl)
    simpa using this
  obtain ⟨ga, hga⟩ : ∃ ga,
      ga = run.reverse.takeWhile (fun b => !isWordChar b) := ⟨_, rfl⟩
  have hdecomp : run.reverse = ga ++ w :: de := by
    rw [hga]
    conv_lhs => rw [← List.takeWhile_append_dropWhile
      (fun b => !isWordChar b) run.reverse]
    rw [hde]
  refine ⟨de.reverse, w, ga.reverse, ?_, hw, ?_⟩
  · have h2 : run = (ga ++ w :: de).reverse := by
      rw [← hdecomp, List.reverse_reverse]
    rw [h2, List.reverse_append, List.reverse_cons, List.append_assoc]
    simp
  · intro b hb
    have hb2 : b ∈ run.reverse.takeWhile (fun b => !isWordChar b) := by
      rw [← hga]
      exact List.mem_reverse.mp hb
    have := List.mem_takeWhile_imp hb2
    simpa using this

theorem skEndOk_at_last_word (al : List Char) (w : Char) (be : List Char)
    (next0 : Option Char) (hw : isWordChar w = true)
    (hbe : ∀ b ∈ be, isWordChar b = false)
    (hnext0 : ∀ c, next0 = some c → isWordChar c = false) :
    skEndOk (al ++ w :: be) next0 (al.length + 1) = true := by
  have h1 : (al ++ w :: be).get? (al.length + 1 - 1) = some w := by
    rw [Nat.add_sub_cancel, List.get?_append_right (Nat.le_refl _),
      Nat.sub_self]
    rfl
  have h2 : (al ++ w :: be).get? (al.length + 1) = be.head? := by
    rw [List.get?_append_right (by omega), Nat.add_sub_cancel_left]
    cases be <;> rfl
  unfold skEndOk
  rw [h1, h2]
  cases be with
  | cons b be' =>
    have hb : isWordChar b = false := hbe b (by simp)
    simp [hw, hb]
  | nil =>
    cases hn : next0 with
    | none => simpa using hw
    | some c =>
      have hc : isWordChar c = false := hnext0 c hn
      simp [hw, hc]

theorem findSkEnd_isSome (run : List Char) (next0 : Option Char)
    (jmax : Nat) (hok : skEndOk run next0 jmax = true) (h20 : 20 ≤ jmax) :
    ∀ n, jmax ≤ n → (findSkEnd run next0 n).isSome = true := by
  intro n
  induction n with
  | zero => intro h; omega
  | succ m ih =>
    intro hle
    unfold findSkEnd
    rw [if_neg (by omega)]
    by_cases he : skEndOk run next0 (m + 1) = true
    · rw [if_pos he]
      rfl
    · rw [if_neg he]
      apply ih
      rcases Nat.lt_or_ge m jmax with h | h
      · have : jmax = m + 1 := by omega
        rw [this] at hok
        exact absurd hok he
      · exact h

theorem findSkEnd_some_bounds {run : List Char} {next0 : Option Char} :
    ∀ {n j : Nat}, findSkEnd run next0 n = some j → 20 ≤ j ∧ j ≤ n := by
  intro n
  induction n with
  | zero => intro j h; simp [findSkEnd] at h
  | succ m ih =>
    intro j h
    unfold findSkEnd at h
    split at h
    · exact absurd h (by simp)
    · next h20 =>
      split at h
      · have : j = m + 1 := by
          have := Option.some.inj h
          omega
        omega
      · have := ih h
        omega

theorem matchSk_some_heads {cs : List Char} {n : Nat}
    (h : matchSk cs = some n) : ∃ r, cs = 's' :: 'k' :: '-' :: r := by
  unfold matchSk at h
  split at h
  · next rest => exact ⟨rest, rfl⟩
  · exact absurd h (by simp)

theorem matchSk_some_ge {cs : List Char} {n : Nat}
    (h : matchSk cs = some n) : 23 ≤ n := by
  unfold matchSk at h
  split at h
  · split at h
    · next j hj =>
      have := findSkEnd_some_bounds hj
      have hn : n = 3 + j := (Option.some.inj h).symm
      omega
    · exact absurd h (by simp)
  · exact absurd h (by simp)

/-- If the full secret occurs exactly at the head of `suff`, the secret-key
matcher succeeds there. -/
theorem matchSk_isSome_of_prefix (S : List Char)
    (hS : S.all isWordChar = true) (hlen : 20 ≤ S.length)
    (suff : List Char)
    (h : ('s' :: 'k' :: '-' :: S).isPrefixOf suff = true) :
    (matchSk suff).isSome = true := by
  rw [List.isPrefixOf_iff_prefix] at h
  obtain ⟨tail, htail⟩ := h
  have hsuff : suff = 's' :: 'k' :: '-' :: (S ++ tail) := by
    rw [← htail]
    simp
  subst hsuff
  have hSsk : S.all isSkRunChar = true := by
    rw [List.all_eq_true] at hS ⊢
    exact fun c hc => isSkRunChar_of_word (hS c hc)
  have hrun : (S ++ tail).takeWhile isSkRunChar =
      S ++ tail.takeWhile isSkRunChar := takeWhile_append_all S tail hSsk
  have heq : matchSk ('s' :: 'k' :: '-' :: (S ++ tail)) =
      (match findSkEnd ((S ++ tail).takeWhile isSkRunChar)
        (((S ++ tail).drop
          ((S ++ tail).takeWhile isSkRunChar).length).head?)
        ((S ++ tail).takeWhile isSkRunChar).length with
       | some j => some (3 + j)
       | none => none) := rfl
  rw [heq]
  set nx := (((S ++ tail).drop
    ((S ++ tail).takeWhile isSkRunChar).length).head?) with hnxdef
  have hnext0 : ∀ c, nx = some c → isWordChar c = false := by
    intro c hc
    rw [hnxdef, drop_takeWhile_length] at hc
    have hsk : isSkRunChar c = false := head?_dropWhile_false hc
    cases hw : isWordChar c
    · rfl
    · rw [isSkRunChar_of_word hw] at hsk
      exact absurd hsk (by simp)
  obtain ⟨s0, S', hS0⟩ : ∃ s0 S', S = s0 :: S' :=
    List.exists_cons_of_ne_nil (by
      intro hnil
      rw [hnil] at hlen
      simp at hlen)
  have hs0w : isWordChar s0 = true := by
    rw [List.all_eq_true] at hS
    exact hS s0 (by rw [hS0]; simp)
  have hs0mem : s0 ∈ (S ++ tail).takeWhile isSkRunChar := by
    rw [hrun, hS0]
    simp
  obtain ⟨al, w, be, hdecomp, hword, hbe⟩ :=
    exists_last_word _ s0 hs0mem hs0w
  have hok : skEndOk ((S ++ tail).takeWhile isSkRunChar) nx
      (al.length + 1) = true := by
    rw [hdecomp]
    exact skEndOk_at_last_word al w be nx hword hbe hnext0
  have h20 : 20 ≤ al.length + 1 := by
    have hSpre : S <+: (S ++ tail).takeWhile isSkRunChar := by
      rw [hrun]
      exact ⟨tail.takeWhile isSkRunChar, rfl⟩
    have halpre : al ++ [w] <+: (S ++ tail).takeWhile isSkRunChar := by
      rw [hdecomp]
      exact ⟨be, by simp⟩
    by_cases hcmp : S.length ≤ al.length + 1
    · omega
    · exfalso
      push_neg at hcmp
      have hsub : al ++ [w] <+: S :=
        List.prefix_of_prefix_length_le halpre hSpre (by
          simp
          omega)
      obtain ⟨S2, hS2⟩ := hsub
      have hS2ne : S2 ≠ [] := by
        intro hnil
        rw [hnil, List.append_nil] at hS2
        have := congrArg List.length hS2
        simp at this
        omega
      obtain ⟨s2, S2', hS2'⟩ := List.exists_cons_of_ne_nil hS2ne
      have hrun2 : (S ++ tail).takeWhile isSkRunChar =
          (al ++ [w]) ++ (S2 ++ tail.takeWhile isSkRunChar) := by
        rw [hrun, ← hS2]
        simp
      have hbe2 : be = S2 ++ tail.takeWhile isSkRunChar := by
        have hd2 : (al ++ [w]) ++ be =
            (al ++ [w]) ++ (S2 ++ tail.takeWhile isSkRunChar) := by
          rw [← hrun2, hdecomp]
          simp
        exact List.append_cancel_left hd2
      have hs2word : isWordChar s2 = true := by
        rw [List.all_eq_true] at hS
        apply hS s2
        rw [← hS2]
        rw [hS2']
        simp
      have hs2not : isWordChar s2 = false := by
        apply hbe
        rw [hbe2, hS2']
        simp
      rw [hs2word] at hs2not
      exact absurd hs2not (by simp)
  have hjle : al.length + 1 ≤
      ((S ++ tail).takeWhile isSkRunChar).length := by
    rw [hdecomp]
    simp
  have hsome := findSkEnd_isSome _ nx _ hok h20 _ hjle
  obtain ⟨j, hj⟩ := Option.isSome_iff_exists.mp hsome
  rw [hj]
  rfl

/-! ### Rule 1: the scan never completes a partially copied occurrence -/

theorem ciPrefixB_append_build {p₁ m p₂ t : List Char}
    (h₁ : ciListEq p₁ m = true) (h₂ : ciPrefixB p₂ t = true) :
    ciPrefixB (p₁ ++ p₂) (m ++ t) = true := by
  rw [ciPrefixB_iff_exists] at h₂ ⊢
  obtain ⟨m₂, t₂, rfl, hm₂⟩ := h₂
  refine ⟨m ++ m₂, t₂, by simp, ?_⟩
  rw [ciListEq_append _ _ (ciListEq_length h₁)]
  simp [h₁, hm₂]

theorem redactSkAux_cons (f : Nat) (prev : Option Char) (c : Char)
    (rest : List Char) :
    redactSkAux (f + 1) prev (c :: rest) =
      if boundaryOK prev then
        match matchSk (c :: rest) with
        | some n =>
          skRepl ++ redactSkAux f ((c :: rest).take n).getLast?
            ((c :: rest).drop n)
        | none => c :: redactSkAux f (some c) rest
      else c :: redactSkAux f (some c) rest := rfl

theorem redactSkAux_fire {f : Nat} {prev : Option Char} {c : Char}
    {rest : List Char} {n : Nat} (hb : boundaryOK prev = true)
    (hm : matchSk (c :: rest) = some n) :
    redactSkAux (f + 1) prev (c :: rest) =
      skRepl ++ redactSkAux f ((c :: rest).take n).getLast?
        ((c :: rest).drop n) := by
  rw [redactSkAux_cons, if_pos hb, hm]

theorem redactSkAux_copy {f : Nat} {prev : Option Char} {c : Char}
    {rest : List Char}
    (h : boundaryOK prev = false ∨ matchSk (c :: rest) = none) :
    redactSkAux (f + 1) prev (c :: rest) =
      c :: redactSkAux f (some c) rest := by
  rw [redactSkAux_cons]
  rcases h with hb | hm
  · rw [if_neg (by rw [hb]; simp)]
  · by_cases hb : boundaryOK prev = true
    · rw [if_pos hb, hm]
    · rw [if_neg hb]

/-- Core invariant for rule 1: after copying a case-insensitive partial
match of the secret whose start the scanner did not fire on, the remaining
output never completes the occurrence. -/
theorem redactSkAux_no_continuation (S : List Char)
    (hS : S.all isWordChar = true) (hlen : 20 ≤ S.length)
    (u : List Char) (hH : AnchoredExact ('s' :: 'k' :: '-' :: S) u) :
    ∀ fuel (pre mid suff : List Char), u = pre ++ (mid ++ suff) →
    suff.length < fuel →
    mid.length ≤ ('s' :: 'k' :: '-' :: S).length →
    ciListEq (('s' :: 'k' :: '-' :: S).take mid.length) mid = true →
    (boundaryOK pre.getLast? = false ∨ matchSk (mid ++ suff) = none) →
    ciPrefixB (('s' :: 'k' :: '-' :: S).drop mid.length)
      (redactSkAux fuel (pre ++ mid).getLast? suff) = false := by
  intro fuel
  induction fuel with
  | zero =>
    intro pre mid suff _ hflt _ _ _
    omega
  | succ f ih =>
    intro pre mid suff hu hflt hle hq hnf
    by_cases hfull : mid.length = ('s' :: 'k' :: '-' :: S).length
    · exfalso
      have hsecmid : ciListEq ('s' :: 'k' :: '-' :: S) mid = true := by
        have h0 := hq
        rw [hfull, List.take_length] at h0
        exact h0
      have hcim : ciPrefixB ('s' :: 'k' :: '-' :: S) (mid ++ suff) = true := by
        rw [ciPrefixB_iff_exists]
        exact ⟨mid, suff, rfl, hsecmid⟩
      obtain ⟨hexact, hbound⟩ := hH pre (mid ++ suff) hu hcim
      rcases hnf with hb | hm
      · rw [hbound] at hb
        exact absurd hb (by simp)
      · have hsome := matchSk_isSome_of_prefix S hS hlen _ hexact
        rw [hm] at hsome
        exact absurd hsome (by simp)
    · have hlt : mid.length < ('s' :: 'k' :: '-' :: S).length :=
        lt_of_le_of_ne hle hfull
      have hdne : ('s' :: 'k' :: '-' :: S).drop mid.length ≠ [] := by
        intro hnil
        have hlen2 : ('s' :: 'k' :: '-' :: S).length - mid.length = 0 := by
          rw [← List.length_drop, hnil]
          rfl
        omega
      obtain ⟨d1, ds, hd⟩ := List.exists_cons_of_ne_nil hdne
      cases suff with
      | nil =>
        rw [show redactSkAux (f + 1) (pre ++ mid).getLast? [] = []
          from rfl, hd]
        exact ciPrefixB_cons_nil d1 ds
      | cons c rest =>
        have hkill : ciPrefixB (('s' :: 'k' :: '-' :: S).drop mid.length)
            (c :: rest) = true → False := by
          intro hDpre
          have hcif : ciPrefixB ('s' :: 'k' :: '-' :: S)
              (mid ++ (c :: rest)) = true := by
            have hsplit := List.take_append_drop mid.length
              ('s' :: 'k' :: '-' :: S)
            calc ciPrefixB ('s' :: 'k' :: '-' :: S) (mid ++ (c :: rest))
                = ciPrefixB (('s' :: 'k' :: '-' :: S).take mid.length ++
                    ('s' :: 'k' :: '-' :: S).drop mid.length)
                    (mid ++ (c :: rest)) := by rw [hsplit]
              _ = true := ciPrefixB_append_build hq hDpre
          obtain ⟨hexact, hbound⟩ := hH pre (mid ++ (c :: rest)) hu hcif
          rcases hnf with hb2 | hm2
          · rw [hbound] at hb2
            exact absurd hb2 (by simp)
          · have hsome := matchSk_isSome_of_prefix S hS hlen _ hexact
            rw [hm2] at hsome
            exact absurd hsome (by simp)
        by_cases hfire : boundaryOK (pre ++ mid).getLast? = true ∧
            ∃ n, matchSk (c :: rest) = some n
        · obtain ⟨hb, n, hmk⟩ := hfire
          rw [redactSkAux_fire hb hmk, hd]
          obtain ⟨r1, hr1⟩ := matchSk_some_heads hmk
          cases hpre : ciPrefixB (d1 :: ds)
            (skRepl ++ redactSkAux f ((c :: rest).take n).getLast?
              ((c :: rest).drop n)) with
          | false => rfl
          | true =>
            exfalso
            simp only [skRepl, List.cons_append, List.nil_append] at hpre
            cases ds with
            | nil =>
              simp only [ciPrefixB_cons_cons, ciPrefixB_nil,
                Bool.and_eq_true, and_true] at hpre
              apply hkill
              rw [hd, hr1, ciPrefixB_cons_cons]
              simp [hpre, ciPrefixB_nil]
            | cons d2 ds2 =>
              cases ds2 with
              | nil =>
                simp only [ciPrefixB_cons_cons, ciPrefixB_nil,
                  Bool.and_eq_true, and_true] at hpre
                apply hkill
                rw [hd, hr1, ciPrefixB_cons_cons, ciPrefixB_cons_cons]
                simp [hpre.1, hpre.2, ciPrefixB_nil]
              | cons d3 ds3 =>
                cases ds3 with
                | nil =>
                  simp only [ciPrefixB_cons_cons, ciPrefixB_nil,
                    Bool.and_eq_true, and_true] at hpre
                  have hjval : mid.length = S.length := by
                    have := congrArg List.length hd
                    simp at this
                    omega
                  have hdropS : ('s' :: 'k' :: '-' :: S).drop mid.length =
                      S.drop (mid.length - 3) := by
                    have h3 : 3 + (mid.length - 3) = mid.length := by omega
                    conv_lhs => rw [← h3]
                    rw [← List.drop_drop]
                    rfl
                  have hd3S : d3 ∈ S := by
                    apply List.drop_subset (mid.length - 3)
                    rw [← hdropS, hd]
                    simp
                  have hd3w : isWordChar d3 = true :=
                    List.all_eq_true.mp hS d3 hd3S
                  have hb3 := hpre.2.2
                  rw [show ('-' : Char) = Char.ofNat 45 from rfl] at hb3
                  rw [ciEq_word_hyphen hd3w] at hb3
                  exact absurd hb3 (by simp)
                | cons d4 ds4 =>
                  simp only [ciPrefixB_cons_cons, Bool.and_eq_true] at hpre
                  have hd4S : d4 ∈ S := by
                    rcases Nat.lt_or_ge mid.length 3 with h3 | h3
                    · have hj012 : mid.length = 0 ∨ mid.length = 1 ∨
                          mid.length = 2 := by omega
                      rcases hj012 with hj | hj | hj <;>
                        · rw [hj] at hd
                          simp only [List.drop] at hd
                          simp only [List.cons_eq_cons] at hd
                          first
                          | (obtain ⟨_, _, _, _, rfl⟩ := hd; simp)
                          | (obtain ⟨_, _, _, rfl⟩ := hd; simp)
                          | (obtain ⟨_, _, rfl⟩ := hd; simp)
                    · have hdropS : ('s' :: 'k' :: '-' :: S).drop mid.length =
                          S.drop (mid.length - 3) := by
                        have h33 : 3 + (mid.length - 3) = mid.length := by
                          omega
                        conv_lhs => rw [← h33]
                        rw [← List.drop_drop]
                        rfl
                      apply List.drop_subset (mid.length - 3)
                      rw [← hdropS, hd]
                      simp
                  have hd4w : isWordChar d4 = true :=
                    List.all_eq_true.mp hS d4 hd4S
                  have hb4 := hpre.2.2.2.1
                  rw [ciEq_false_of_skrun_not (isSkRunChar_of_word hd4w)
                    (by decide)] at hb4
                  exact absurd hb4 (by simp)
        · have hcopy : redactSkAux (f + 1) (pre ++ mid).getLast?
              (c :: rest) = c :: redactSkAux f (some c) rest := by
            apply redactSkAux_copy
            by_cases hb : boundaryOK (pre ++ mid).getLast? = true
            · right
              cases hmk : matchSk (c :: rest) with
              | none => rfl
              | some n => exact absurd ⟨hb, n, hmk⟩ hfire
            · left
              exact Bool.eq_false_iff.mpr hb
          rw [hcopy, hd]
          cases hpre : ciPrefixB (d1 :: ds)
            (c :: redactSkAux f (some c) rest) with
          | false => rfl
          | true =>
            exfalso
            rw [ciPrefixB_cons_cons, Bool.and_eq_true] at hpre
            obtain ⟨hd1c, hds⟩ := hpre
            have hu2 : u = pre ++ ((mid ++ [c]) ++ rest) := by
              rw [hu, List.append_cons mid c rest]
            have hidx : ('s' :: 'k' :: '-' :: S)[mid.length]? = some d1 := by
              rw [← List.head?_drop, hd]
              rfl
            have hq2 : ciListEq (('s' :: 'k' :: '-' :: S).take
                (mid ++ [c]).length) (mid ++ [c]) = true := by
              rw [List.length_append, List.length_singleton, List.take_succ,
                hidx, ciListEq_append _ _ (ciListEq_length hq)]
              simp [hq, ciListEq, hd1c]
            have hnf2 : boundaryOK pre.getLast? = false ∨
                matchSk ((mid ++ [c]) ++ rest) = none := by
              rw [← List.append_cons]
              exact hnf
            have hlast : (pre ++ (mid ++ [c])).getLast? = some c := by
              rw [List.getLast?_append]
              simp
            have hconc := ih pre (mid ++ [c]) rest hu2 (by
              simp at hflt
              omega) (by
              rw [List.length_append, List.length_singleton]
              omega) hq2 hnf2
            rw [hlast, List.length_append, List.length_singleton] at hconc
            have hds_eq : ('s' :: 'k' :: '-' :: S).drop (mid.length + 1) =
                ds := by
              rw [← List.drop_drop, hd]
              rfl
            rw [hds_eq] at hconc
            rw [hconc] at hds
            exact absurd hds (by simp)

theorem ciPrefixB_false_head {a b : Char} {p s : List Char}
    (h : ciEq a b = false) : ciPrefixB (a :: p) (b :: s) = false := by
  rw [ciPrefixB_cons_cons, h]
  rfl

/-- Rule 1 output is clean: under the anchored-exact hypothesis the scan
removes every case-insensitive occurrence of the secret. -/
theorem redactSkAux_clean (S : List Char)
    (hS : S.all isWordChar = true) (hlen : 20 ≤ S.length)
    (u : List Char) (hH : AnchoredExact ('s' :: 'k' :: '-' :: S) u) :
    ∀ fuel (pre suff : List Char), u = pre ++ suff → suff.length < fuel →
    ciInfixB ('s' :: 'k' :: '-' :: S)
      (redactSkAux fuel pre.getLast? suff) = false := by
  intro fuel
  induction fuel with
  | zero =>
    intro pre suff _ h
    omega
  | succ f ih =>
    intro pre suff hu hflt
    obtain ⟨s0, S', hS0⟩ : ∃ s0 S', S = s0 :: S' :=
      List.exists_cons_of_ne_nil (by
        intro hnil
        rw [hnil] at hlen
        simp at hlen)
    have hs0w : isWordChar s0 = true := by
      rw [List.all_eq_true] at hS
      exact hS s0 (by rw [hS0]; simp)
    cases suff with
    | nil =>
      rw [show redactSkAux (f + 1) pre.getLast? [] = [] from rfl]
      exact ciPrefixB_cons_nil _ _
    | cons c rest =>
      by_cases hfire : boundaryOK pre.getLast? = true ∧
          ∃ n, matchSk (c :: rest) = some n
      · obtain ⟨hb, n, hmk⟩ := hfire
        rw [redactSkAux_fire hb hmk]
        have hn23 : 23 ≤ n := matchSk_some_ge hmk
        have htake_ne : (c :: rest).take n ≠ [] := by
          intro hnil
          have := congrArg List.length hnil
          simp at this
          omega
        have hprev : ((c :: rest).take n).getLast? =
            (pre ++ (c :: rest).take n).getLast? := by
          rw [List.getLast?_append]
          rw [Option.or_of_isSome (by
            rw [List.getLast?_isSome]
            exact htake_ne)]
        have hout : ciInfixB ('s' :: 'k' :: '-' :: S)
            (redactSkAux f ((c :: rest).take n).getLast?
              ((c :: rest).drop n)) = false := by
          rw [hprev]
          apply ih (pre ++ (c :: rest).take n) ((c :: rest).drop n)
          · rw [hu]
            rw [List.append_assoc, List.take_append_drop]
          · rw [List.length_drop]
            simp only [List.length_cons] at hflt ⊢
            omega
        apply ciInfixB_eq_false_append _ _ hout
        intro t ht hne
        rw [← List.mem_tails] at ht
        simp only [skRepl, List.tails, List.mem_cons,
          List.mem_singleton] at ht
        rcases ht with rfl | rfl | rfl | rfl | rfl | rfl | rfl | rfl | rfl |
          rfl | rfl | rfl | rfl | (rfl | hmem)
        · -- the full replacement: dies at the bracket
          simp only [List.cons_append]
          rw [ciPrefixB_cons_cons, ciPrefixB_cons_cons, ciPrefixB_cons_cons,
            hS0]
          rw [ciPrefixB_false_head (ciEq_false_of_skrun_not
            (isSkRunChar_of_word hs0w) (by decide))]
          simp
        · exact ciPrefixB_false_head (by decide)
        · exact ciPrefixB_false_head (by decide)
        · exact ciPrefixB_false_head (by decide)
        · exact ciPrefixB_false_head (by decide)
        · exact ciPrefixB_false_head (by decide)
        · exact ciPrefixB_false_head (by decide)
        · exact ciPrefixB_false_head (by decide)
        · exact ciPrefixB_false_head (by decide)
        · exact ciPrefixB_false_head (by decide)
        · exact ciPrefixB_false_head (by decide)
        · exact ciPrefixB_false_head (by decide)
        · exact ciPrefixB_false_head (by decide)
        · exact absurd rfl hne
        · simp at hmem
      · have hdisj : boundaryOK pre.getLast? = false ∨
            matchSk (c :: rest) = none := by
          by_cases hb : boundaryOK pre.getLast? = true
          · right
            cases hmk : matchSk (c :: rest) with
            | none => rfl
            | some n => exact absurd ⟨hb, n, hmk⟩ hfire
          · left
            exact Bool.eq_false_iff.mpr hb
        rw [redactSkAux_copy hdisj, ciInfixB_cons]
        have htail : ciInfixB ('s' :: 'k' :: '-' :: S)
            (redactSkAux f (some c) rest) = false := by
          have hres := ih (pre ++ [c]) rest (by
            rw [hu, ← List.append_cons]) (by
            simp only [List.length_cons] at hflt
            omega)
          rw [List.getLast?_append] at hres
          simpa using hres
        have hhead : ciPrefixB ('s' :: 'k' :: '-' :: S)
            (c :: redactSkAux f (some c) rest) = false := by
          have hr := redactSkAux_no_continuation S hS hlen u hH (f + 1)
            pre [] (c :: rest) (by simpa using hu) hflt (by simp)
            (by rfl) (by simpa using hdisj)
          simp only [List.length_nil, List.drop_zero, List.append_nil] at hr
          rw [redactSkAux_copy hdisj] at hr
          exact hr
        simp [hhead, htail]

/-- Rule 1 (`sk-` keys) removes every case-insensitive occurrence of an
anchored, case-exact secret. -/
theorem redactSkList_clean (S : List Char)
    (hS : S.all isWordChar = true) (hlen : 20 ≤ S.length)
    (u : List Char) (hH : AnchoredExact ('s' :: 'k' :: '-' :: S) u) :
    ciInfixB ('s' :: 'k' :: '-' :: S) (redactSkList u) = false :=
  redactSkAux_clean S hS hlen u hH (u.length + 1) [] u rfl
    (by omega)

/-! ### Generic replacement scanner for rules 2 to 7

Each remaining rule replaces a match by a copied input segment (the kept
capture group, possibly empty) followed by a bracketed literal.  `m prev cs`
returns `(n, g)` on a match at the head of `cs`: `n` characters are
consumed and the first `g` are kept. -/

def replScanAux (m : Option Char → List Char → Option (Nat × Nat))
    (lit : List Char) : Nat → Option Char → List Char → List Char
  | 0, _, cs => cs
  | fuel + 1, prev, cs =>
    match cs with
    | [] => []
    | c :: rest =>
      match m prev (c :: rest) with
      | some (n, g) =>
        (c :: rest).take g ++ lit ++
          replScanAux m lit fuel ((c :: rest).take n).getLast?
            ((c :: rest).drop n)
      | none => c :: replScanAux m lit fuel (some c) rest

/-- One global-replace pass with matcher `m` and literal `lit`. -/
def replScan (m : Option Char → List Char → Option (Nat × Nat))
    (lit : List Char) (cs : List Char) : List Char :=
  replScanAux m lit (cs.length + 1) none cs

theorem replScanAux_cons (m : Option Char → List Char → Option (Nat × Nat))
    (lit : List Char) (f : Nat) (prev : Option Char) (c : Char)
    (rest : List Char) :
    replScanAux m lit (f + 1) prev (c :: rest) =
      match m prev (c :: rest) with
      | some (n, g) =>
        (c :: rest).take g ++ lit ++
          replScanAux m lit f ((c :: rest).take n).getLast?
            ((c :: rest).drop n)
      | none => c :: replScanAux m lit f (some c) rest := rfl

theorem replScanAux_fire {m : Option Char → List Char → Option (Nat × Nat)}
    {lit : List Char} {f : Nat} {prev : Option Char} {c : Char}
    {rest : List Char} {n g : Nat} (hmk : m prev (c :: rest) = some (n, g)) :
    replScanAux m lit (f + 1) prev (c :: rest) =
      (c :: rest).take g ++ lit ++
        replScanAux m lit f ((c :: rest).take n).getLast?
          ((c :: rest).drop n) := by
  rw [replScanAux_cons, hmk]

theorem replScanAux_skip {m : Option Char → List Char → Option (Nat × Nat)}
    {lit : List Char} {f : Nat} {prev : Option Char} {c : Char}
    {rest : List Char} (hmk : m prev (c :: rest) = none) :
    replScanAux m lit (f + 1) prev (c :: rest) =
      c :: replScanAux m lit f (some c) rest := by
  rw [replScanAux_cons, hmk]

theorem ciPrefixB_of_prefix {p s t : List Char} (h : ciPrefixB p s = true)
    (hpre : s <+: t) : ciPrefixB p t = true := by
  obtain ⟨r, rfl⟩ := hpre
  exact ciPrefixB_append_of h r

/-- Splitting a case-insensitive prefix match at a list boundary. -/
theorem ciPrefixB_append_cases : ∀ {p seg W : List Char},
    ciPrefixB p (seg ++ W) = true →
    (p.length ≤ seg.length ∧ ciPrefixB p seg = true) ∨
    (seg.length < p.length ∧ ciListEq (p.take seg.length) seg = true ∧
      ciPrefixB (p.drop seg.length) W = true) := by
  intro p seg
  induction seg generalizing p with
  | nil =>
    intro W h
    cases p with
    | nil => exact Or.inl ⟨Nat.le_refl _, rfl⟩
    | cons x p' =>
      right
      refine ⟨by simp, rfl, ?_⟩
      simpa using h
  | cons a seg' ih =>
    intro W h
    cases p with
    | nil => exact Or.inl ⟨by simp, rfl⟩
    | cons x p' =>
      rw [List.cons_append, ciPrefixB_cons_cons, Bool.and_eq_true] at h
      rcases ih h.2 with ⟨hl, hp⟩ | ⟨hl, hq, hw⟩
      · left
        refine ⟨by simpa using hl, ?_⟩
        rw [ciPrefixB_cons_cons, h.1, hp]
        rfl
      · right
        refine ⟨by simpa using hl, ?_, ?_⟩
        · rw [List.length_cons, List.take_succ_cons, ciListEq, h.1, hq]
          rfl
        · rw [List.length_cons, List.drop_succ_cons]
          exact hw
  
/-- Any pattern of key-run characters dies immediately at a non-key-run
wall character. -/
theorem ciPrefixB_drop_false_of_head {p : List Char}
    (hall : p.all isSkRunChar = true) {j : Nat} (hj : j < p.length)
    {c0 : Char} (hc0 : isSkRunChar c0 = false) (Z : List Char) :
    ciPrefixB (p.drop j) (c0 :: Z) = false := by
  have hd : p.drop j = p[j] :: p.drop (j + 1) := List.drop_eq_getElem_cons hj
  rw [hd]
  exact ciPrefixB_false_head (ciEq_false_of_skrun_not
    (List.all_eq_true.mp hall _ (p.getElem_mem hj)) hc0)

/-- Scan invariant for the generic scanner over a clean input: a partially
copied occurrence is never completed. -/
theorem replScanAux_no_continuation
    (sec : List Char) (hsec : sec.all isSkRunChar = true)
    (m : Option Char → List Char → Option (Nat × Nat))
    (lit : List Char) (l0 : List Char) (hl0 : lit = '[' :: l0)
    (u : List Char) (hu_clean : ciInfixB sec u = false) :
    ∀ fuel (pre mid suff : List Char), u = pre ++ (mid ++ suff) →
    suff.length < fuel → mid.length ≤ sec.length →
    ciListEq (sec.take mid.length) mid = true →
    ciPrefixB (sec.drop mid.length)
      (replScanAux m lit fuel (pre ++ mid).getLast? suff) = false := by
  intro fuel
  induction fuel with
  | zero =>
    intro pre mid suff _ hflt _ _
    omega
  | succ f ih =>
    intro pre mid suff hu hflt hle hq
    by_cases hfull : mid.length = sec.length
    · exfalso
      have hsecmid : ciListEq sec mid = true := by
        have h0 := hq
        rw [hfull, List.take_length] at h0
        exact h0
      have : ciInfixB sec u = true := by
        rw [ciInfixB_iff_exists]
        refine ⟨pre, mid ++ suff, hu, ?_⟩
        rw [ciPrefixB_iff_exists]
        exact ⟨mid, suff, rfl, hsecmid⟩
      rw [this] at hu_clean
      exact absurd hu_clean (by simp)
    · have hlt : mid.length < sec.length := lt_of_le_of_ne hle hfull
      have hdne : sec.drop mid.length ≠ [] := by
        intro hnil
        have hlen2 : sec.length - mid.length = 0 := by
          rw [← List.length_drop, hnil]
          rfl
        omega
      cases suff with
      | nil =>
        obtain ⟨d1, ds, hd⟩ := List.exists_cons_of_ne_nil hdne
        rw [show replScanAux m lit (f + 1) (pre ++ mid).getLast? [] = []
          from rfl, hd]
        exact ciPrefixB_cons_nil d1 ds
      | cons c rest =>
        cases hmk : m (pre ++ mid).getLast? (c :: rest) with
        | some ng =>
          obtain ⟨n, g⟩ := ng
          rw [replScanAux_fire hmk]
          cases hpre : ciPrefixB (sec.drop mid.length)
              ((c :: rest).take g ++ lit ++
                replScanAux m lit f ((c :: rest).take n).getLast?
                  ((c :: rest).drop n)) with
          | false => rfl
          | true =>
            exfalso
            rw [List.append_assoc] at hpre
            rcases ciPrefixB_append_cases hpre with ⟨hl, hp⟩ | ⟨hl, hq2, hw⟩
            · -- the occurrence would complete inside copied input
              have hfullin : ciPrefixB (sec.drop mid.length)
                  (c :: rest) = true :=
                ciPrefixB_of_prefix hp (List.take_prefix g (c :: rest))
              have hocc : ciInfixB sec u = true := by
                rw [ciInfixB_iff_exists]
                refine ⟨pre, mid ++ (c :: rest), hu, ?_⟩
                have hsplit := List.take_append_drop mid.length sec
                calc ciPrefixB sec (mid ++ (c :: rest))
                    = ciPrefixB (sec.take mid.length ++
                        sec.drop mid.length) (mid ++ (c :: rest)) := by
                      rw [hsplit]
                  _ = true := ciPrefixB_append_build hq hfullin
              rw [hocc] at hu_clean
              exact absurd hu_clean (by simp)
            · -- the occurrence hits the bracket wall
              rw [List.drop_drop] at hw
              have hjlt : mid.length + ((c :: rest).take g).length <
                  sec.length := by
                have := List.length_drop mid.length sec
                omega
              rw [hl0, List.cons_append] at hw
              exact absurd hw (by
                rw [ciPrefixB_drop_false_of_head hsec hjlt (by decide)]
                simp)
        | none =>
          rw [replScanAux_skip hmk]
          obtain ⟨d1, ds, hd⟩ := List.exists_cons_of_ne_nil hdne
          rw [hd]
          cases hpre : ciPrefixB (d1 :: ds)
              (c :: replScanAux m lit f (some c) rest) with
          | false => rfl
          | true =>
            exfalso
            rw [ciPrefixB_cons_cons, Bool.and_eq_true] at hpre
            obtain ⟨hd1c, hds⟩ := hpre
            have hu2 : u = pre ++ ((mid ++ [c]) ++ rest) := by
              rw [hu, List.append_cons mid c rest]
            have hidx : sec[mid.length]? = some d1 := by
              rw [← List.head?_drop, hd]
              rfl
            have hq2 : ciListEq (sec.take (mid ++ [c]).length)
                (mid ++ [c]) = true := by
              rw [List.length_append, List.length_singleton, List.take_succ,
                hidx, ciListEq_append _ _ (ciListEq_length hq)]
              simp [hq, ciListEq, hd1c]
            have hlast : (pre ++ (mid ++ [c])).getLast? = some c := by
              rw [List.getLast?_append]
              simp
            have hconc := ih pre (mid ++ [c]) rest hu2 (by
              simp only [List.length_cons] at hflt
              omega) (by
              rw [List.length_append, List.length_singleton]
              omega) hq2
            rw [hlast, List.length_append, List.length_singleton] at hconc
            have hds_eq : sec.drop (mid.length + 1) = ds := by
              rw [← List.drop_drop, hd]
              rfl
            rw [hds_eq] at hconc
            rw [hconc] at hds
            exact absurd hds (by simp)

/-- The generic scanner preserves cleanliness: rules whose replacement is a
kept input segment followed by a bracketed literal cannot introduce an
occurrence of the secret. -/
theorem replScanAux_clean
    (sec : List Char) (hsec : sec.all isSkRunChar = true)
    (hsecne : sec ≠ [])
    (m : Option Char → List Char → Option (Nat × Nat))
    (lit : List Char) (l0 : List Char) (hl0 : lit = '[' :: l0)
    (hdead : ∀ t Z, t <:+ lit → t ≠ [] → ciPrefixB sec (t ++ Z) = false)
    (hm : ∀ prev cs n g, m prev cs = some (n, g) → 1 ≤ n)
    (u : List Char) (hu_clean : ciInfixB sec u = false) :
    ∀ fuel (pre suff : List Char), u = pre ++ suff → suff.length < fuel →
    ciInfixB sec (replScanAux m lit fuel pre.getLast? suff) = false := by
  intro fuel
  induction fuel with
  | zero =>
    intro pre suff _ h
    omega
  | succ f ih =>
    intro pre suff hu hflt
    obtain ⟨x0, sec', hsec0⟩ := List.exists_cons_of_ne_nil hsecne
    cases suff with
    | nil =>
      rw [show replScanAux m lit (f + 1) pre.getLast? [] = [] from rfl,
        hsec0]
      exact ciPrefixB_cons_nil x0 sec'
    | cons c rest =>
      cases hmk : m pre.getLast? (c :: rest) with
      | some ng =>
        obtain ⟨n, g⟩ := ng
        rw [replScanAux_fire hmk]
        have hn1 : 1 ≤ n := hm _ _ _ _ hmk
        have htake_ne : (c :: rest).take n ≠ [] := by
          intro hnil
          have := congrArg List.length hnil
          simp at this
          omega
        have hout : ciInfixB sec
            (replScanAux m lit f ((c :: rest).take n).getLast?
              ((c :: rest).drop n)) = false := by
          have hprev : ((c :: rest).take n).getLast? =
              (pre ++ (c :: rest).take n).getLast? := by
            rw [List.getLast?_append]
            rw [Option.or_of_isSome (by
              rw [List.getLast?_isSome]
              exact htake_ne)]
          rw [hprev]
          apply ih (pre ++ (c :: rest).take n) ((c :: rest).drop n)
          · rw [hu, List.append_assoc, List.take_append_drop]
          · rw [List.length_drop]
            simp only [List.length_cons] at hflt ⊢
            omega
        have hlitX : ciInfixB sec
            (lit ++ replScanAux m lit f ((c :: rest).take n).getLast?
              ((c :: rest).drop n)) = false := by
          apply ciInfixB_eq_false_append _ _ hout
          intro t ht hne
          exact hdead t _ ht hne
        rw [List.append_assoc]
        apply ciInfixB_eq_false_append _ _ hlitX
        intro t ht hne
        cases hfalse : ciPrefixB sec (t ++ (lit ++
            replScanAux m lit f ((c :: rest).take n).getLast?
              ((c :: rest).drop n))) with
        | false => rfl
        | true =>
          exfalso
          rcases ciPrefixB_append_cases hfalse with ⟨hl, hp⟩ | ⟨hl, hq2, hw⟩
          · have htinf : t <:+: u := by
              rw [hu]
              exact List.IsInfix.trans
                (List.IsInfix.trans ht.isInfix
                  (List.take_prefix g (c :: rest)).isInfix)
                ⟨pre, [], by simp⟩
            have : ciInfixB sec u = true :=
              ciInfixB_true_of_infix (ciPrefixB_to_ciInfixB hp) htinf
            rw [this] at hu_clean
            exact absurd hu_clean (by simp)
          · have hjlt : t.length < sec.length := hl
            rw [hl0, List.cons_append] at hw
            have hdrop : sec.drop t.length =
                sec[t.length] :: sec.drop (t.length + 1) :=
              List.drop_eq_getElem_cons hjlt
            rw [hdrop] at hw
            rw [ciPrefixB_false_head (ciEq_false_of_skrun_not
              (List.all_eq_true.mp hsec _ (sec.getElem_mem hjlt))
              (by decide))] at hw
            exact absurd hw (by simp)
      | none =>
        rw [replScanAux_skip hmk, ciInfixB_cons]
        have htail : ciInfixB sec (replScanAux m lit f (some c) rest) =
            false := by
          have hres := ih (pre ++ [c]) rest (by
            rw [hu, ← List.append_cons]) (by
            simp only [List.length_cons] at hflt
            omega)
          rw [List.getLast?_append] at hres
          simpa using hres
        have hhead : ciPrefixB sec
            (c :: replScanAux m lit f (some c) rest) = false := by
          have hr := replScanAux_no_continuation sec hsec m lit l0 hl0 u
            hu_clean (f + 1) pre [] (c :: rest) (by simpa using hu) hflt
            (by simp) (by rfl)
          simp only [List.length_nil, List.drop_zero, List.append_nil]
            at hr
          rw [replScanAux_skip hmk] at hr
          exact hr
        simp [hhead, htail]

/-- Cleanliness preservation for one whole pass of a bracket-literal rule. -/
theorem replScan_clean (sec : List Char)
    (hsec : sec.all isSkRunChar = true) (hsecne : sec ≠ [])
    (m : Option Char → List Char → Option (Nat × Nat))
    (lit : List Char) (l0 : List Char) (hl0 : lit = '[' :: l0)
    (hdead : ∀ t Z, t <:+ lit → t ≠ [] → ciPrefixB sec (t ++ Z) = false)
    (hm : ∀ prev cs n g, m prev cs = some (n, g) → 1 ≤ n)
    (u : List Char) (hu_clean : ciInfixB sec u = false) :
    ciInfixB sec (replScan m lit u) = false :=
  replScanAux_clean sec hsec hsecne m lit l0 hl0 hdead hm u hu_clean
    (u.length + 1) [] u rfl (by omega)

/-! ### The matchers of rules 2 to 7 -/

/-- The class `[0-9A-Z]` of rule 2. -/
def isAkiaChar (c : Char) : Bool :=
  (48 ≤ c.toNat && c.toNat ≤ 57) || (65 ≤ c.toNat && c.toNat ≤ 90)

/-- Rule 2 matcher: a word boundary, the literal `AKIA`, exactly sixteen
characters of `[0-9A-Z]`, and a trailing word boundary. -/
def matchAkia (prev : Option Char) (cs : List Char) : Option (Nat × Nat) :=
  match cs with
  | 'A' :: 'K' :: 'I' :: 'A' :: rest =>
    if boundaryOK prev && (rest.take 16).length == 16 &&
        (rest.take 16).all isAkiaChar &&
        (match (rest.drop 16).head? with
         | none => true
         | some c => !isWordChar c) then
      some (20, 0)
    else none
  | _ => none

/-- Tail of rule 3: the literal dashes-END-space, a nonempty run of
non-hyphens, then five hyphens.  Returns the consumed length. -/
def matchEndTail (cs : List Char) : Option Nat :=
  if ("-----END ".data).isPrefixOf cs then
    if ((cs.drop 9).takeWhile (fun c => c != '-')).length == 0 then none
    else if ("-----".data).isPrefixOf
        ((cs.drop 9).drop
          ((cs.drop 9).takeWhile (fun c => c != '-')).length) then
      some (9 + ((cs.drop 9).takeWhile (fun c => c != '-')).length + 5)
    else none
  else none

/-- Lazy search of rule 3: the earliest position where the END tail
matches.  Returns the skipped length and the tail length. -/
def findEndTail : Nat → List Char → Option (Nat × Nat)
  | 0, _ => none
  | fuel + 1, cs =>
    match matchEndTail cs with
    | some k => some (0, k)
    | none =>
      match cs with
      | [] => none
      | _ :: rest =>
        match findEndTail fuel rest with
        | some ik => some (ik.1 + 1, ik.2)
        | none => none

/-- Rule 3 matcher (PEM blocks): dashes-BEGIN-space, a nonempty non-hyphen
run, five hyphens, then the lazily found END tail. -/
def matchPem (prev : Option Char) (cs : List Char) : Option (Nat × Nat) :=
  if ("-----BEGIN ".data).isPrefixOf cs then
    if ((cs.drop 11).takeWhile (fun c => c != '-')).length == 0 then none
    else if ("-----".data).isPrefixOf
        ((cs.drop 11).drop
          ((cs.drop 11).takeWhile (fun c => c != '-')).length) then
      match findEndTail
          (((cs.drop 11).drop
            (((cs.drop 11).takeWhile (fun c => c != '-')).length + 5)).length
            + 1)
          ((cs.drop 11).drop
            (((cs.drop 11).takeWhile (fun c => c != '-')).length + 5)) with
      | some ik =>
        some (11 + ((cs.drop 11).takeWhile (fun c => c != '-')).length + 5 +
          ik.1 + ik.2, 0)
      | none => none
    else none
  else none

/-- The value class of rules 4 to 6: not whitespace and not a double
quote, apostrophe or backtick (codes 34, 39, 96). -/
def isG2Char (c : Char) : Bool :=
  !isJsSpace c && c.toNat != 34 && c.toNat != 39 && c.toNat != 96

/-- Shared tail of rules 4 to 6: optional whitespace, a colon or equals
sign, optional whitespace, then at least `minLen` value characters.  `hd`
is the length of the already matched name.  Returns total consumed length
and kept group-1 length. -/
def matchKvTail (cs : List Char) (hd minLen : Nat) : Option (Nat × Nat) :=
  match ((cs.drop hd).drop
      ((cs.drop hd).takeWhile isJsSpace).length).head? with
  | some c =>
    if c == ':' || c == '=' then
      if minLen ≤ ((((cs.drop hd).drop
          (((cs.drop hd).takeWhile isJsSpace).length + 1)).drop
            (((cs.drop hd).drop
              (((cs.drop hd).takeWhile isJsSpace).length + 1)).takeWhile
                isJsSpace).length).takeWhile isG2Char).length then
        some (hd + ((cs.drop hd).takeWhile isJsSpace).length + 1 +
          (((cs.drop hd).drop
            (((cs.drop hd).takeWhile isJsSpace).length + 1)).takeWhile
              isJsSpace).length +
          ((((cs.drop hd).drop
            (((cs.drop hd).takeWhile isJsSpace).length + 1)).drop
              (((cs.drop hd).drop
                (((cs.drop hd).takeWhile isJsSpace).length + 1)).takeWhile
                  isJsSpace).length).takeWhile isG2Char).length,
          hd + ((cs.drop hd).takeWhile isJsSpace).length + 1 +
          (((cs.drop hd).drop
            (((cs.drop hd).takeWhile isJsSpace).length + 1)).takeWhile
              isJsSpace).length)
      else none
    else none
  | none => none

/-- The optional separator class `[_\s-]` of rule 4. -/
def isApiSep (c : Char) : Bool :=
  c.toNat == 95 || isJsSpace c || c.toNat == 45

/-- Rule 4 matcher: a word boundary, case-insensitive `api`, an optional
separator, case-insensitive `key`, then the key-value tail. -/
def matchApiKey (prev : Option Char) (cs : List Char) : Option (Nat × Nat) :=
  if boundaryOK prev && ciPrefixB ("api".data) cs then
    match (cs.drop 3).head? with
    | some c =>
      if isApiSep c then
        if ciPrefixB ("key".data) (cs.drop 4) then matchKvTail cs 7 4
        else if ciPrefixB ("key".data) (cs.drop 3) then matchKvTail cs 6 4
        else none
      else if ciPrefixB ("key".data) (cs.drop 3) then matchKvTail cs 6 4
      else none
    | none => none
  else none

/-- Rule 5 matcher: a word boundary, case-insensitive `token`, then the
key-value tail. -/
def matchToken (prev : Option Char) (cs : List Char) : Option (Nat × Nat) :=
  if boundaryOK prev && ciPrefixB ("token".data) cs then matchKvTail cs 5 4
  else none

/-- Rule 6 matcher: a word boundary, case-insensitive `password`, then the
key-value tail with a one-character minimum. -/
def matchPassword (prev : Option Char) (cs : List Char) :
    Option (Nat × Nat) :=
  if boundaryOK prev && ciPrefixB ("password".data) cs then
    matchKvTail cs 8 1
  else none

/-- The token class `[A-Za-z0-9._-]` of rule 7. -/
def isBearerG2Char (c : Char) : Bool :=
  isWordChar c || c.toNat == 46 || c.toNat == 45

/-- Rule 7 matcher: a word boundary, case-insensitive `bearer`, at least
one whitespace character, then at least eight token characters. -/
def matchBearer (prev : Option Char) (cs : List Char) : Option (Nat × Nat) :=
  if boundaryOK prev && ciPrefixB ("bearer".data) cs then
    if ((cs.drop 6).takeWhile isJsSpace).length == 0 then none
    else if 8 ≤ (((cs.drop 6).drop
        ((cs.drop 6).takeWhile isJsSpace).length).takeWhile
          isBearerG2Char).length then
      some (6 + ((cs.drop 6).takeWhile isJsSpace).length +
        (((cs.drop 6).drop
          ((cs.drop 6).takeWhile isJsSpace).length).takeWhile
            isBearerG2Char).length,
        6 + ((cs.drop 6).takeWhile isJsSpace).length)
    else none
  else none

/-- `redactSensitiveText`: the seven global replaces in source order. -/
def redactList (cs : List Char) : List Char :=
  replScan matchBearer ("[REDACTED]".data)
    (replScan matchPassword ("[REDACTED]".data)
      (replScan matchToken ("[REDACTED]".data)
        (replScan matchApiKey ("[REDACTED]".data)
          (replScan matchPem ("[REDACTED_PRIVATE_KEY_BLOCK]".data)
            (replScan matchAkia ("[REDACTED_AWS_KEY]".data)
              (redactSkList cs))))))

def redactSensitiveText (s : String) : String := ⟨redactList s.data⟩

/-! ### Side conditions of the rule matchers -/

theorem matchAkia_pos : ∀ (prev : Option Char) (cs : List Char) (n g : Nat),
    matchAkia prev cs = some (n, g) → 1 ≤ n := by
  intro prev cs n g h
  unfold matchAkia at h
  split at h
  · split at h
    · simp only [Option.some.injEq, Prod.mk.injEq] at h
      omega
    · exact absurd h (by simp)
  · exact absurd h (by simp)

theorem matchPem_pos : ∀ (prev : Option Char) (cs : List Char) (n g : Nat),
    matchPem prev cs = some (n, g) → 1 ≤ n := by
  intro prev cs n g h
  unfold matchPem at h
  split at h
  · split at h
    · exact absurd h (by simp)
    · split at h
      · split at h
        · simp only [Option.some.injEq, Prod.mk.injEq] at h
          omega
        · exact absurd h (by simp)
      · exact absurd h (by simp)
  · exact absurd h (by simp)

theorem matchKvTail_pos {cs : List Char} {hd minLen n g : Nat}
    (h : matchKvTail cs hd minLen = some (n, g)) : 1 ≤ n := by
  unfold matchKvTail at h
  split at h
  · split at h
    · split at h
      · simp only [Option.some.injEq, Prod.mk.injEq] at h
        omega
      · exact absurd h (by simp)
    · exact absurd h (by simp)
  · exact absurd h (by simp)

theorem matchApiKey_pos : ∀ (prev : Option Char) (cs : List Char)
    (n g : Nat), matchApiKey prev cs = some (n, g) → 1 ≤ n := by
  intro prev cs n g h
  unfold matchApiKey at h
  split at h
  · split at h
    · split at h
      · split at h
        · exact matchKvTail_pos h
        · split at h
          · exact matchKvTail_pos h
          · exact absurd h (by simp)
      · split at h
        · exact matchKvTail_pos h
        · exact absurd h (by simp)
    · exact absurd h (by simp)
  · exact absurd h (by simp)

theorem matchToken_pos : ∀ (prev : Option Char) (cs : List Char) (n g : Nat),
    matchToken prev cs = some (n, g) → 1 ≤ n := by
  intro prev cs n g h
  unfold matchToken at h
  split at h
  · exact matchKvTail_pos h
  · exact absurd h (by simp)

theorem matchPassword_pos : ∀ (prev : Option Char) (cs : List Char)
    (n g : Nat), matchPassword prev cs = some (n, g) → 1 ≤ n := by
  intro prev cs n g h
  unfold matchPassword at h
  split at h
  · exact matchKvTail_pos h
  · exact absurd h (by simp)

theorem matchBearer_pos : ∀ (prev : Option Char) (cs : List Char) (n g : Nat),
    matchBearer prev cs = some (n, g) → 1 ≤ n := by
  intro prev cs n g h
  unfold matchBearer at h
  split at h
  · split at h
    · exact absurd h (by simp)
    · split at h
      · simp only [Option.some.injEq, Prod.mk.injEq] at h
        omega
      · exact absurd h (by simp)
  · exact absurd h (by simp)

/-! ### Replacement literals never host an occurrence -/

/-- One suffix of a replacement literal disagrees with the fixed prefix
`sk-` of the secret within its first three characters. -/
def deadTailAt : List Char → Bool
  | [] => true
  | c1 :: [] => !ciEq 's' c1
  | c1 :: c2 :: [] => !ciEq 's' c1 || !ciEq 'k' c2
  | c1 :: c2 :: c3 :: _ => !ciEq 's' c1 || !ciEq 'k' c2 || !ciEq '-' c3

/-- Decidable criterion: every suffix of the literal is dead, except that
the empty suffix is ignored and one- or two-character suffixes must
disagree outright (they could continue into later output). -/
def deadTailCheck (lit : List Char) : Bool := lit.tails.all deadTailAt

theorem deadTail_of_check {S : List Char} {lit : List Char}
    (hchk : deadTailCheck lit = true) :
    ∀ t Z, t <:+ lit → t ≠ [] →
      ciPrefixB ('s' :: 'k' :: '-' :: S) (t ++ Z) = false := by
  intro t Z ht hne
  have hmem : t ∈ lit.tails := (List.mem_tails t lit).mpr ht
  have hc := List.all_eq_true.mp hchk t hmem
  match t, hc with
  | [], _ => exact absurd rfl hne
  | c1 :: [], hc =>
    have h1 : ciEq 's' c1 = false := by
      simpa [deadTailAt] using hc
    exact ciPrefixB_false_head h1
  | c1 :: c2 :: [], hc =>
    have h12 : ciEq 's' c1 = false ∨ ciEq 'k' c2 = false := by
      simpa [deadTailAt, Bool.or_eq_true] using hc
    rcases h12 with h1 | h2
    · exact ciPrefixB_false_head h1
    · simp only [List.cons_append]
      rw [ciPrefixB_cons_cons, ciPrefixB_cons_cons, h2]
      simp
  | c1 :: c2 :: c3 :: t3, hc =>
    have h123 : ciEq 's' c1 = false ∨ ciEq 'k' c2 = false ∨
        ciEq '-' c3 = false := by
      have := hc
      simp [deadTailAt, Bool.or_eq_true] at this
      tauto
    rcases h123 with h1 | h2 | h3
    · exact ciPrefixB_false_head h1
    · simp only [List.cons_append]
      rw [ciPrefixB_cons_cons, ciPrefixB_cons_cons, h2]
      simp
    · simp only [List.cons_append]
      rw [ciPrefixB_cons_cons, ciPrefixB_cons_cons, ciPrefixB_cons_cons, h3]
      simp

/-- The secret is a run of key characters. -/
theorem secret_all_skRun {S : List Char} (hS : S.all isWordChar = true) :
    ('s' :: 'k' :: '-' :: S).all isSkRunChar = true := by
  simp only [List.all_cons, Bool.and_eq_true]
  refine ⟨by decide, by decide, by decide, ?_⟩
  rw [List.all_eq_true] at hS ⊢
  exact fun c hc => isSkRunChar_of_word (hS c hc)

/-- Master redaction theorem: if every case-insensitive occurrence of the
secret in the input is case-exact and word-boundary anchored, the output
of `redactSensitiveText` contains no case-insensitive occurrence at all. -/
theorem redactList_clean (S : List Char)
    (hS : S.all isWordChar = true) (hlen : 20 ≤ S.length)
    (u : List Char) (hH : AnchoredExact ('s' :: 'k' :: '-' :: S) u) :
    ciInfixB ('s' :: 'k' :: '-' :: S) (redactList u) = false := by
  have hall := secret_all_skRun hS
  have hne : ('s' :: 'k' :: '-' :: S) ≠ [] := by simp
  have h1 := redactSkList_clean S hS hlen u hH
  have h2 := replScan_clean _ hall hne matchAkia _ ("REDACTED_AWS_KEY]".data)
    rfl (deadTail_of_check (by decide)) matchAkia_pos _ h1
  have h3 := replScan_clean _ hall hne matchPem _
    ("REDACTED_PRIVATE_KEY_BLOCK]".data)
    rfl (deadTail_of_check (by decide)) matchPem_pos _ h2
  have h4 := replScan_clean _ hall hne matchApiKey _ ("REDACTED]".data)
    rfl (deadTail_of_check (by decide)) matchApiKey_pos _ h3
  have h5 := replScan_clean _ hall hne matchToken _ ("REDACTED]".data)
    rfl (deadTail_of_check (by decide)) matchToken_pos _ h4
  have h6 := replScan_clean _ hall hne matchPassword _ ("REDACTED]".data)
    rfl (deadTail_of_check (by decide)) matchPassword_pos _ h5
  have h7 := replScan_clean _ hall hne matchBearer _ ("REDACTED]".data)
    rfl (deadTail_of_check (by decide)) matchBearer_pos _ h6
  exact h7

/-! ### `sanitizeOneLine` and cleanliness transfer through string utilities -/

/-- `sanitizeOneLine(text, max)`: collapse whitespace, trim, and truncate
with a three-dot ellipsis. -/
def sanitizeOneLineList (cs : List Char) (max : Nat) : List Char :=
  if (jsTrimList (collapseWsList cs)).length ≤ max then
    jsTrimList (collapseWsList cs)
  else (jsTrimList (collapseWsList cs)).take (max - 3) ++ ("...".data)

def sanitizeOneLine (text : String) (max : Nat) : String :=
  ⟨sanitizeOneLineList text.data max⟩

theorem not_space_of_skRun {c : Char} (h : isSkRunChar c = true) :
    isJsSpace c = false := by
  have hcode : c.toNat = 45 ∨ (97 ≤ c.toNat ∧ c.toNat ≤ 122) ∨
      (65 ≤ c.toNat ∧ c.toNat ≤ 90) ∨ (48 ≤ c.toNat ∧ c.toNat ≤ 57) ∨
      c.toNat = 95 := by
    rw [isSkRunChar_iff, isWordChar_iff] at h
    tauto
  cases hs : isJsSpace c
  · rfl
  · exfalso
    unfold isJsSpace at hs
    simp only [Bool.or_eq_true, Bool.and_eq_true, beq_iff_eq,
      decide_eq_true_iff] at hs
    rcases hs with ((((((((((((h1 | h1) | h1) | h1) | h1) | h1) | h1) |
        h1) | ⟨h1, h2⟩) | h1) | h1) | h1) | h1) | h1
    all_goals try (subst h1; exact absurd hcode (by decide))
    all_goals try (
      have h4 : c.toNat = _ := congrArg UInt32.toNat h1
      rw [h4] at hcode
      exact absurd hcode (by decide))
    have h1n : (8192 : UInt32).toNat ≤ c.toNat := by
      rw [UInt32.le_def] at h1
      exact h1
    rw [show (8192 : UInt32).toNat = 8192 from by decide] at h1n
    rcases hcode with h | ⟨ha, hb⟩ | ⟨ha, hb⟩ | ⟨ha, hb⟩ | h <;> omega

theorem ciPrefixB_collapse_run {p : List Char}
    (hp : p.all isSkRunChar = true) : ∀ s : List Char,
    ciPrefixB p (collapseWsAux false s) = true → ciPrefixB p s = true := by
  induction p with
  | nil => intro s _; rfl
  | cons x p' ih =>
    intro s h
    have hx : isSkRunChar x = true := by
      simp only [List.all_cons, Bool.and_eq_true] at hp
      exact hp.1
    have hp' : p'.all isSkRunChar = true := by
      simp only [List.all_cons, Bool.and_eq_true] at hp
      exact hp.2
    cases s with
    | nil => exact h
    | cons c s' =>
      by_cases hc : isJsSpace c = true
      · rw [show collapseWsAux false (c :: s') = ' ' :: collapseWsAux true s'
          from by simp [collapseWsAux, hc]] at h
        rw [ciPrefixB_cons_cons,
          ciEq_false_of_skrun_not hx (by decide)] at h
        exact absurd h (by simp)
      · rw [show collapseWsAux false (c :: s') = c :: collapseWsAux false s'
          from by simp [collapseWsAux, hc]] at h
        rw [ciPrefixB_cons_cons, Bool.and_eq_true] at h
        rw [ciPrefixB_cons_cons, h.1, ih hp' s' h.2]
        rfl

theorem ciInfixB_collapse {p : List Char} (hp : p.all isSkRunChar = true) :
    ∀ (s : List Char) (b : Bool),
    ciInfixB p (collapseWsAux b s) = true → ciInfixB p s = true := by
  intro s
  cases p with
  | nil => intro b _; cases s <;> rfl
  | cons x p' =>
    induction s with
    | nil => intro b h; exact h
    | cons c s' ih =>
      intro b h
      have hx : isSkRunChar x = true := by
        simp only [List.all_cons, Bool.and_eq_true] at hp
        exact hp.1
      by_cases hc : isJsSpace c = true
      · cases b with
        | true =>
          rw [show collapseWsAux true (c :: s') = collapseWsAux true s'
            from by simp [collapseWsAux, hc]] at h
          rw [ciInfixB_cons]
          rw [ih true h]
          simp
        | false =>
          rw [show collapseWsAux false (c :: s') =
              ' ' :: collapseWsAux true s'
            from by simp [collapseWsAux, hc]] at h
          rw [ciInfixB_cons, Bool.or_eq_true] at h
          rcases h with h | h
          · rw [ciPrefixB_cons_cons,
              ciEq_false_of_skrun_not hx (by decide)] at h
            exact absurd h (by simp)
          · rw [ciInfixB_cons, ih true h]
            simp
      · rw [show collapseWsAux b (c :: s') = c :: collapseWsAux false s'
          from by simp [collapseWsAux, hc]] at h
        rw [ciInfixB_cons, Bool.or_eq_true] at h
        rcases h with h | h
        · have h2 : ciPrefixB (x :: p') (collapseWsAux false (c :: s')) =
              true := by
            rw [show collapseWsAux false (c :: s') =
                c :: collapseWsAux false s'
              from by rw [collapseWsAux, if_neg hc]]
            exact h
          have := ciPrefixB_collapse_run hp _ h2
          rw [ciInfixB_cons, this]
          simp
        · rw [ciInfixB_cons, ih false h]
          simp

theorem clean_collapse {p : List Char} (hp : p.all isSkRunChar = true)
    {s : List Char} (h : ciInfixB p s = false) :
    ciInfixB p (collapseWsList s) = false := by
  cases hi : ciInfixB p (collapseWsList s)
  · rfl
  · rw [ciInfixB_collapse hp s false hi] at h
    exact absurd h (by simp)

theorem jsTrimList_infix (l : List Char) : jsTrimList l <:+: l := by
  unfold jsTrimList
  have h1 : l.dropWhile isJsSpace <:+ l := List.dropWhile_suffix _
  have h2 : ((l.dropWhile isJsSpace).reverse.dropWhile isJsSpace).reverse
      <+: (l.dropWhile isJsSpace) := by
    have := (List.dropWhile_suffix (l := (l.dropWhile isJsSpace).reverse)
      isJsSpace).reverse
    rwa [List.reverse_reverse] at this
  exact h2.isInfix.trans h1.isInfix

theorem clean_sanitize {p : List Char} (hp : p.all isSkRunChar = true)
    (hpne : p ≠ []) {s : List Char} (h : ciInfixB p s = false)
    (max : Nat) : ciInfixB p (sanitizeOneLineList s max) = false := by
  have hclean : ciInfixB p (jsTrimList (collapseWsList s)) = false :=
    clean_of_infix ( jsTrimList_infix _) (clean_collapse hp h)
  unfold sanitizeOneLineList
  split
  · exact hclean
  · have htake : ciInfixB p
        ((jsTrimList (collapseWsList s)).take (max - 3)) = false :=
      clean_of_infix (List.take_prefix _ _).isInfix hclean
    have hdots : ("...".data) = ("...".data) ++ ([] : List Char) := by simp
    rw [hdots]
    exact clean_append_sep hp hpne htake (by
      cases p with
      | nil => exact absurd rfl hpne
      | cons a q => rfl) (by simp) (by
      intro c hc
      simp [String.data] at hc
      rw [hc]
      decide)

theorem toLower_idem (c : Char) :
    Char.toLower (Char.toLower c) = Char.toLower c := by
  rw [char_eq_iff_toNat, toLower_toNat (Char.toLower c), toLower_toNat c]
  split <;> first | omega | (split <;> omega)

theorem ciEq_toLower_right (x c : Char) :
    ciEq x (Char.toLower c) = ciEq x c := by
  unfold ciEq
  rw [toLower_idem]

theorem ciListEq_map_toLower : ∀ (p m : List Char),
    ciListEq p (m.map Char.toLower) = ciListEq p m
  | [], [] => rfl
  | [], _ :: _ => rfl
  | _ :: _, [] => rfl
  | x :: p, c :: m => by
    simp only [List.map_cons, ciListEq]
    rw [ciEq_toLower_right, ciListEq_map_toLower p m]

theorem ciPrefixB_map_toLower (p s : List Char) :
    ciPrefixB p (s.map Char.toLower) = ciPrefixB p s := by
  unfold ciPrefixB
  rw [← List.map_take, ciListEq_map_toLower]

theorem ciInfixB_map_toLower (p : List Char) : ∀ s : List Char,
    ciInfixB p (s.map Char.toLower) = ciInfixB p s := by
  intro s
  induction s with
  | nil => rfl
  | cons c s' ih =>
    rw [List.map_cons, ciInfixB_cons, ciInfixB_cons, ih,
      show Char.toLower c :: s'.map Char.toLower =
        (c :: s').map Char.toLower from rfl, ciPrefixB_map_toLower]

theorem clean_toLower {p s : List Char} (h : ciInfixB p s = false) :
    ciInfixB p (jsToLowerList s) = false := by
  unfold jsToLowerList
  rw [ciInfixB_map_toLower]
  exact h

/-- Prepending a literal whose suffixes are all dead preserves
cleanliness. -/
theorem clean_lit_append {S : List Char} {lit B : List Char}
    (hchk : deadTailCheck lit = true)
    (hB : ciInfixB ('s' :: 'k' :: '-' :: S) B = false) :
    ciInfixB ('s' :: 'k' :: '-' :: S) (lit ++ B) = false :=
  ciInfixB_eq_false_append B
    (fun t ht hne => deadTail_of_check hchk t B ht hne) hB

/-- A literal whose suffixes are all dead is itself clean. -/
theorem clean_lit {S : List Char} {lit : List Char}
    (hchk : deadTailCheck lit = true) :
    ciInfixB ('s' :: 'k' :: '-' :: S) lit = false := by
  have h := clean_lit_append (S := S) (B := []) hchk rfl
  rwa [List.append_nil] at h

/-- `Array.prototype.join` with a separator. -/
def joinSep (sep : List Char) : List (List Char) → List Char
  | [] => []
  | x :: [] => x
  | x :: y :: xs => x ++ sep ++ joinSep sep (y :: xs)

theorem joinSep_clean {p : List Char} (hp : p.all isSkRunChar = true)
    (hpne : p ≠ []) {sep : List Char} (hsep : sep ≠ [])
    (hsepc : ∀ c ∈ sep, isSkRunChar c = false) :
    ∀ L : List (List Char), (∀ x ∈ L, ciInfixB p x = false) →
    ciInfixB p (joinSep sep L) = false := by
  intro L
  induction L with
  | nil =>
    intro _
    unfold joinSep
    exact ciPrefixB_false_of_short (by
      cases p with
      | nil => exact absurd rfl hpne
      | cons a q => simp)
  | cons x L' ih =>
    intro hall
    cases L' with
    | nil => exact hall x (by simp)
    | cons y ys =>
      rw [show joinSep sep (x :: y :: ys) =
          x ++ sep ++ joinSep sep (y :: ys) from rfl, List.append_assoc]
      exact clean_append_sep hp hpne (hall x (by simp))
        (ih (fun z hz => hall z (by simp [hz]))) hsep hsepc

/-! ### Splitting, stopwords and `tokenize` -/

/-- `String.prototype.split` with a single-character-class separator:
every separator character produces a boundary. -/
def splitEveryAux (p : Char → Bool) : Nat → List Char → List (List Char)
  | 0, _ => []
  | fuel + 1, cs =>
    match cs.dropWhile (fun c => !p c) with
    | [] => [cs.takeWhile (fun c => !p c)]
    | _ :: tail =>
      cs.takeWhile (fun c => !p c) :: splitEveryAux p fuel tail

def splitEvery (p : Char → Bool) (cs : List Char) : List (List Char) :=
  splitEveryAux p (cs.length + 1) cs

/-- `String.prototype.split` with a one-or-more-repetitions separator:
every maximal separator run produces one boundary. -/
def splitRunsAux (p : Char → Bool) : Nat → List Char → List (List Char)
  | 0, _ => []
  | fuel + 1, cs =>
    match cs.dropWhile (fun c => !p c) with
    | [] => [cs.takeWhile (fun c => !p c)]
    | d :: tail =>
      cs.takeWhile (fun c => !p c) ::
        splitRunsAux p fuel ((d :: tail).dropWhile p)

def splitRuns (p : Char → Bool) (cs : List Char) : List (List Char) :=
  splitRunsAux p (cs.length + 1) cs

theorem splitEveryAux_infix (p : Char → Bool) : ∀ (fuel : Nat)
    (cs r : List Char), r ∈ splitEveryAux p fuel cs → r <:+: cs := by
  intro fuel
  induction fuel with
  | zero =>
    intro cs r h
    simp [splitEveryAux] at h
  | succ f ih =>
    intro cs r h
    unfold splitEveryAux at h
    split at h
    · simp at h
      rw [h]
      exact (List.takeWhile_prefix _).isInfix
    · next d tail heq =>
      simp only [List.mem_cons] at h
      rcases h with rfl | h
      · exact (List.takeWhile_prefix _).isInfix
      · have htail : tail <:+: cs := by
          have h1 : d :: tail <:+ cs := heq ▸ List.dropWhile_suffix _
          exact (List.suffix_cons d tail).isInfix.trans h1.isInfix
        exact (ih tail r h).trans htail

theorem splitRunsAux_infix (p : Char → Bool) : ∀ (fuel : Nat)
    (cs r : List Char), r ∈ splitRunsAux p fuel cs → r <:+: cs := by
  intro fuel
  induction fuel with
  | zero =>
    intro cs r h
    simp [splitRunsAux] at h
  | succ f ih =>
    intro cs r h
    unfold splitRunsAux at h
    split at h
    · simp at h
      rw [h]
      exact (List.takeWhile_prefix _).isInfix
    · next d tail heq =>
      simp only [List.mem_cons] at h
      rcases h with rfl | h
      · exact (List.takeWhile_prefix _).isInfix
      · have htail : (d :: tail).dropWhile p <:+: cs := by
          have h1 : d :: tail <:+ cs := heq ▸ List.dropWhile_suffix _
          exact (List.dropWhile_suffix p).isInfix.trans h1.isInfix
        exact (ih _ r h).trans htail

/-- The stopword set of `tokenize`. -/
def STOPWORDS : List String :=
  ["the", "and", "for", "with", "that", "this", "from", "your", "have",
   "will", "into", "about", "what", "when", "where", "which", "would",
   "could", "should", "there", "their", "them", "then", "than", "been",
   "were", "also", "just", "like", "want", "need", "does", "did", "you",
   "are", "our", "but", "not", "can", "its", "too", "very", "get", "got",
   "had", "him", "her", "his", "she", "who", "how", "why", "make", "made",
   "been", "being"]

/-- `tokenize(text)` from `dashboard.js`: the token runs of the
lower-cased text, with stopwords removed. -/
def tokenize (text : String) : List String :=
  (ftsTokens text).filter (fun t => !STOPWORDS.contains t)

theorem tokenRunsAux_infix : ∀ (cs cur : List Char) (r : List Char),
    r ∈ tokenRunsAux cur cs → r <:+: (cur.reverse ++ cs) := by
  intro cs
  induction cs with
  | nil =>
    intro cur r h
    unfold tokenRunsAux at h
    split at h
    · simp at h
    · simp at h
      rw [h]
      exact ⟨[], [], by simp⟩
  | cons c cs' ih =>
    intro cur r h
    unfold tokenRunsAux at h
    split at h
    · have := ih (c :: cur) r h
      rw [List.reverse_cons, List.append_assoc] at this
      simpa using this
    · split at h
      · next hcur _ =>
        have := ih [] r h
        simp only [List.reverse_nil, List.nil_append] at this
        exact this.trans ⟨cur.reverse ++ [c], [], by simp⟩
      · simp only [List.mem_cons] at h
        rcases h with rfl | h
        · exact ⟨[], c :: cs', by simp⟩
        · have := ih [] r h
          simp only [List.reverse_nil, List.nil_append] at this
          exact this.trans ⟨cur.reverse ++ [c], [], by simp⟩

/-- Tokens produced by `tokenize` are clean whenever the input is. -/
theorem tokenize_clean {p : List Char} {text : String}
    (h : ciInfixB p text.data = false) :
    ∀ t ∈ tokenize text, ciInfixB p t.data = false := by
  intro t ht
  unfold tokenize at ht
  have ht2 : t ∈ ftsTokens text := List.mem_of_mem_filter ht
  unfold ftsTokens at ht2
  simp only [List.mem_map] at ht2
  obtain ⟨r, hr, rfl⟩ := ht2
  have hr2 : r ∈ tokenRunsAux [] (jsToLowerList text.data) :=
    List.mem_of_mem_filter hr
  have hinf := tokenRunsAux_infix _ [] r hr2
  simp only [List.reverse_nil, List.nil_append] at hinf
  exact clean_of_infix hinf (clean_toLower h)

/-! ### `isSensitive` and the extraction regex matchers -/

/-- Try a matcher at the head of every suffix. -/
def anySuffix (f : List Char → Bool) : List Char → Bool
  | [] => f []
  | c :: cs => f (c :: cs) || anySuffix f cs

/-- First (leftmost) match of a per-position matcher. -/
def firstMatch {α : Type} (f : List Char → Option α) : List Char → Option α
  | [] => f []
  | c :: cs =>
    match f (c :: cs) with
    | some a => some a
    | none => firstMatch f cs

/-- Leftmost match of a matcher consulting the preceding character. -/
def firstMatchB {α : Type} (f : Option Char → List Char → Option α) :
    Option Char → List Char → Option α
  | prev, [] => f prev []
  | prev, c :: cs =>
    match f prev (c :: cs) with
    | some a => some a
    | none => firstMatchB f (some c) cs

/-- Literal word, whitespace run of at least `minGap`, second word. -/
def matchWordGapAt (w1 w2 : List Char) (minGap : Nat)
    (cs : List Char) : Bool :=
  ciPrefixB w1 cs &&
  minGap ≤ ((cs.drop w1.length).takeWhile isJsSpace).length &&
  ciPrefixB w2 ((cs.drop w1.length).drop
    ((cs.drop w1.length).takeWhile isJsSpace).length)

def testWordGap (w1 w2 : List Char) (minGap : Nat) (cs : List Char) :
    Bool :=
  anySuffix (matchWordGapAt w1 w2 minGap) cs

/-- The test of the first sensitive pattern, ci `api`, one optional
separator, ci `key`. -/
def matchApiKeyWordAt (cs : List Char) : Bool :=
  ciPrefixB ("api".data) cs &&
  (ciPrefixB ("key".data) (cs.drop 3) ||
   (match (cs.drop 3).head? with
    | some c => isApiSep c && ciPrefixB ("key".data) (cs.drop 4)
    | none => false))

/-- `isSensitive(text)`: the seven `SENSITIVE_PATTERNS` tests in order. -/
def isSensitive (text : List Char) : Bool :=
  anySuffix matchApiKeyWordAt text ||
  ciInfixB ("password".data) text ||
  ciInfixB ("secret".data) text ||
  testWordGap ("private".data) ("key".data) 1 text ||
  ciInfixB ("token".data) text ||
  ciInfixB ("ssn".data) text ||
  testWordGap ("credit".data) ("card".data) 0 text

/-- One-or-more whitespace followed by a greedy counted class run whose
class contains whitespace: the quantifier steals whitespace back when the
run after the gap is too short. -/
def wsStealCapture (p : Char → Bool) (minLen cap : Nat)
    (cs : List Char) : Option (List Char) :=
  if 1 ≤ (cs.takeWhile isJsSpace).length then
    if minLen ≤ ((cs.drop
        (cs.takeWhile isJsSpace).length).takeWhile p).length then
      some ((cs.drop (cs.takeWhile isJsSpace).length).take
        (min ((cs.drop
          (cs.takeWhile isJsSpace).length).takeWhile p).length cap))
    else if minLen + 1 ≤ (cs.takeWhile isJsSpace).length +
        ((cs.drop (cs.takeWhile isJsSpace).length).takeWhile p).length then
      some ((cs.drop ((cs.takeWhile isJsSpace).length +
        ((cs.drop
          (cs.takeWhile isJsSpace).length).takeWhile p).length - minLen)).take
        minLen)
    else none
  else none

/-- The timezone-name class `[A-Za-z_+-]`. -/
def isTzNameChar (c : Char) : Bool :=
  (97 ≤ c.toNat && c.toNat ≤ 122) || (65 ≤ c.toNat && c.toNat ≤ 90) ||
  c.toNat == 95 || c.toNat == 43 || c.toNat == 45

def isDigitChar (c : Char) : Bool := 48 ≤ c.toNat && c.toNat ≤ 57

/-- The capture of the timezone regex: an area/location name pair, or
`UTC` with an optional sign and one or two digits. -/
def tzCaptureAt (cs : List Char) : Option (List Char) :=
  if 1 ≤ (cs.takeWhile isTzNameChar).length &&
      ((cs.drop (cs.takeWhile isTzNameChar).length).head? ==
        some (Char.ofNat 47)) &&
      1 ≤ ((cs.drop ((cs.takeWhile isTzNameChar).length + 1)).takeWhile
        isTzNameChar).length then
    some (cs.take ((cs.takeWhile isTzNameChar).length + 1 +
      ((cs.drop ((cs.takeWhile isTzNameChar).length + 1)).takeWhile
        isTzNameChar).length))
  else if ciPrefixB ("utc".data) cs then
    if (cs.drop 3).head? == some '+' || (cs.drop 3).head? == some '-' then
      if 1 ≤ ((cs.drop 4).takeWhile isDigitChar).length then
        some (cs.take (4 +
          min ((cs.drop 4).takeWhile isDigitChar).length 2))
      else none
    else
      if 1 ≤ ((cs.drop 3).takeWhile isDigitChar).length then
        some (cs.take (3 +
          min ((cs.drop 3).takeWhile isDigitChar).length 2))
      else none
  else none

/-- Optional whitespace, then the timezone capture. -/
def tzRest (cs : List Char) : Option (List Char) :=
  match tzCaptureAt (cs.drop (cs.takeWhile isJsSpace).length) with
  | some cap => some cap
  | none => none

/-- The optional connector of the first two timezone alternatives:
whitespace-`is`, `=` or `:` after optional whitespace, or nothing. -/
def tzOpt (cs : List Char) : Option (List Char) :=
  (if 1 ≤ (cs.takeWhile isJsSpace).length &&
      ciPrefixB ("is".data) (cs.drop (cs.takeWhile isJsSpace).length) then
    tzRest (cs.drop ((cs.takeWhile isJsSpace).length + 2))
  else none) <|>
  (if (cs.drop (cs.takeWhile isJsSpace).length).head? == some '=' then
    tzRest (cs.drop ((cs.takeWhile isJsSpace).length + 1))
  else none) <|>
  (if (cs.drop (cs.takeWhile isJsSpace).length).head? == some ':' then
    tzRest (cs.drop ((cs.takeWhile isJsSpace).length + 1))
  else none) <|>
  tzRest cs

/-- Continuation of the `i am in timezone` alternative after the `am`. -/
def tzAmCont (cs : List Char) : Option (List Char) :=
  if 1 ≤ (cs.takeWhile isJsSpace).length &&
      ciPrefixB ("in".data) (cs.drop (cs.takeWhile isJsSpace).length) then
    (if 1 ≤ ((cs.drop ((cs.takeWhile isJsSpace).length + 2)).takeWhile
          isJsSpace).length &&
        ciPrefixB ("timezone".data)
          ((cs.drop ((cs.takeWhile isJsSpace).length + 2)).drop
            ((cs.drop ((cs.takeWhile isJsSpace).length + 2)).takeWhile
              isJsSpace).length) then
      tzRest ((cs.drop ((cs.takeWhile isJsSpace).length + 2)).drop
        (((cs.drop ((cs.takeWhile isJsSpace).length + 2)).takeWhile
          isJsSpace).length + 8))
    else none)
  else none

/-- The timezone regex at one position: the three prefix alternatives in
source order, with full backtracking into the optional connector. -/
def matchTzAt (cs : List Char) : Option (List Char) :=
  (if ciPrefixB ("timezone".data) cs then tzOpt (cs.drop 8) else none) <|>
  (if ciPrefixB ("time".data) cs &&
      ciPrefixB ("zone".data)
        ((cs.drop 4).drop ((cs.drop 4).takeWhile isJsSpace).length) then
    tzOpt ((cs.drop 4).drop
      (((cs.drop 4).takeWhile isJsSpace).length + 4))
  else none) <|>
  (if ciPrefixB ("i".data) cs then
    (if ciPrefixB ("am".data)
        ((cs.drop 1).drop ((cs.drop 1).takeWhile isJsSpace).length) then
      tzAmCont ((cs.drop 1).drop
        (((cs.drop 1).takeWhile isJsSpace).length + 2))
    else none) <|>
    (if ciPrefixB (Char.ofNat 39 :: ('m' : Char) :: [])
        ((cs.drop 1).drop ((cs.drop 1).takeWhile isJsSpace).length) then
      tzAmCont ((cs.drop 1).drop
        (((cs.drop 1).takeWhile isJsSpace).length + 2))
    else none)
  else none)

/-- The `[:\s]` separator class of the project regexes. -/
def isProjSep (c : Char) : Bool := isJsSpace c || c.toNat == 58

/-- The project-name regex at one position: ci `project`, a nonempty run
of separators, then two to forty name characters. -/
def matchProjectAt (cs : List Char) : Option (List Char) :=
  if ciPrefixB ("project".data) cs then
    if 1 ≤ ((cs.drop 7).takeWhile isProjSep).length then
      if 2 ≤ (((cs.drop 7).drop
          ((cs.drop 7).takeWhile isProjSep).length).takeWhile
            isSkRunChar).length then
        some (((cs.drop 7).drop
          ((cs.drop 7).takeWhile isProjSep).length).take
          (min (((cs.drop 7).drop
            ((cs.drop 7).takeWhile isProjSep).length).takeWhile
              isSkRunChar).length 40))
      else none
    else none
  else none

/-- `userText.match(projectRx)?.[1]?.toLowerCase() || null`. -/
def projectName (u : List Char) : Option (List Char) :=
  match firstMatch matchProjectAt u with
  | some cap => some (jsToLowerList cap)
  | none => none

/-- The stack-description class: letters, digits, plus, dot, hash, comma,
whitespace, slash and hyphen (no underscore). -/
def isStackChar (c : Char) : Bool :=
  (97 ≤ c.toNat && c.toNat ≤ 122) || (65 ≤ c.toNat && c.toNat ≤ 90) ||
  (48 ≤ c.toNat && c.toNat ≤ 57) || c.toNat == 43 || c.toNat == 46 ||
  c.toNat == 35 || c.toNat == 44 || isJsSpace c || c.toNat == 47 ||
  c.toNat == 45

/-- The stack regex at one position: the verb alternatives in source
order, then whitespace and a three-to-120-character description. -/
def matchStackAt (cs : List Char) : Option (List Char) :=
  (if ciPrefixB ("uses".data) cs then
    wsStealCapture isStackChar 3 120 (cs.drop 4)
  else none) <|>
  (if ciPrefixB ("use".data) cs then
    wsStealCapture isStackChar 3 120 (cs.drop 3)
  else none) <|>
  (if ciPrefixB ("using".data) cs then
    wsStealCapture isStackChar 3 120 (cs.drop 5)
  else none) <|>
  (if ciPrefixB ("stack".data) cs then
    (if 1 ≤ ((cs.drop 5).takeWhile isJsSpace).length &&
        ciPrefixB ("is".data)
          ((cs.drop 5).drop ((cs.drop 5).takeWhile isJsSpace).length) then
      wsStealCapture isStackChar 3 120
        ((cs.drop 5).drop (((cs.drop 5).takeWhile isJsSpace).length + 2))
    else none) <|>
    wsStealCapture isStackChar 3 120 (cs.drop 5)
  else none) <|>
  (if ciPrefixB ("built".data) cs then
    if 1 ≤ ((cs.drop 5).takeWhile isJsSpace).length &&
        ciPrefixB ("with".data)
          ((cs.drop 5).drop ((cs.drop 5).takeWhile isJsSpace).length) then
      wsStealCapture isStackChar 3 120
        ((cs.drop 5).drop (((cs.drop 5).takeWhile isJsSpace).length + 4))
    else none
  else none)

/-- The constraint tail class `[^.!?]`. -/
def isConstraintChar (c : Char) : Bool :=
  c.toNat != 46 && c.toNat != 33 && c.toNat != 63

/-- The recurring-constraint regex at one position: a word boundary, one
of `always`, `never`, `must`, then whitespace and an eight-to-140
character tail without sentence terminators. -/
def matchConstraintAt (prev : Option Char) (cs : List Char) :
    Option (List Char) :=
  if boundaryOK prev then
    (if ciPrefixB ("always".data) cs then
      wsStealCapture isConstraintChar 8 140 (cs.drop 6)
    else none) <|>
    (if ciPrefixB ("never".data) cs then
      wsStealCapture isConstraintChar 8 140 (cs.drop 5)
    else none) <|>
    (if ciPrefixB ("must".data) cs then
      wsStealCapture isConstraintChar 8 140 (cs.drop 4)
    else none)
  else none

/-- The platform-name class: letters, digits, plus, dot, hash, slash and
hyphen (no whitespace, no underscore). -/
def isPlatChar (c : Char) : Bool :=
  (97 ≤ c.toNat && c.toNat ≤ 122) || (65 ≤ c.toNat && c.toNat ≤ 90) ||
  (48 ≤ c.toNat && c.toNat ≤ 57) || c.toNat == 43 || c.toNat == 46 ||
  c.toNat == 35 || c.toNat == 47 || c.toNat == 45

/-- Whitespace then a two-to-sixty character platform name. -/
def platCont (cs : List Char) : Option (List Char) :=
  if 1 ≤ (cs.takeWhile isJsSpace).length then
    if 2 ≤ (((cs.drop (cs.takeWhile isJsSpace).length)).takeWhile
        isPlatChar).length then
      some ((cs.drop (cs.takeWhile isJsSpace).length).take
        (min (((cs.drop (cs.takeWhile isJsSpace).length)).takeWhile
          isPlatChar).length 60))
    else none
  else none

/-- The platform regex at one position: a word boundary, one of
`i use`, `we use`, `using`, then the platform-name capture. -/
def matchPlatformAt (prev : Option Char) (cs : List Char) :
    Option (List Char) :=
  if boundaryOK prev then
    (if ciPrefixB ("i".data) cs &&
        (1 ≤ ((cs.drop 1).takeWhile isJsSpace).length &&
         ciPrefixB ("use".data)
           ((cs.drop 1).drop ((cs.drop 1).takeWhile isJsSpace).length)) then
      platCont ((cs.drop 1).drop
        (((cs.drop 1).takeWhile isJsSpace).length + 3))
    else none) <|>
    (if ciPrefixB ("we".data) cs &&
        (1 ≤ ((cs.drop 2).takeWhile isJsSpace).length &&
         ciPrefixB ("use".data)
           ((cs.drop 2).drop ((cs.drop 2).takeWhile isJsSpace).length)) then
      platCont ((cs.drop 2).drop
        (((cs.drop 2).takeWhile isJsSpace).length + 3))
    else none) <|>
    (if ciPrefixB ("using".data) cs then platCont (cs.drop 5) else none)
  else none

/-! ### Captures are contiguous slices of the scanned text -/

theorem orElse_some {α : Type} {a b : Option α} {x : α}
    (h : (a <|> b) = some x) : a = some x ∨ b = some x := by
  cases a with
  | some y =>
    left
    simpa using h
  | none =>
    right
    simpa using h

theorem firstMatch_some {α : Type} {f : List Char → Option α} :
    ∀ {cs : List Char} {a : α}, firstMatch f cs = some a →
    ∃ suff, suff <:+ cs ∧ f suff = some a := by
  intro cs
  induction cs with
  | nil =>
    intro a h
    exact ⟨[], List.suffix_refl [], h⟩
  | cons c cs' ih =>
    intro a h
    unfold firstMatch at h
    split at h
    · next hf =>
      exact ⟨c :: cs', List.suffix_refl _, by rw [hf, h]⟩
    · obtain ⟨suff, hs, hf⟩ := ih h
      exact ⟨suff, hs.trans (List.suffix_cons c cs'), hf⟩

theorem firstMatchB_some {α : Type}
    {f : Option Char → List Char → Option α} :
    ∀ {prev : Option Char} {cs : List Char} {a : α},
    firstMatchB f prev cs = some a →
    ∃ prev2 suff, suff <:+ cs ∧ f prev2 suff = some a := by
  intro prev cs
  induction cs generalizing prev with
  | nil =>
    intro a h
    exact ⟨prev, [], List.suffix_refl [], h⟩
  | cons c cs' ih =>
    intro a h
    unfold firstMatchB at h
    split at h
    · next hf =>
      exact ⟨prev, c :: cs', List.suffix_refl _, by rw [hf, h]⟩
    · obtain ⟨prev2, suff, hs, hf⟩ := ih h
      exact ⟨prev2, suff, hs.trans (List.suffix_cons c cs'), hf⟩

theorem take_drop_infix (cs : List Char) (d k : Nat) :
    (cs.drop d).take k <:+: cs :=
  (List.take_prefix k (cs.drop d)).isInfix.trans
    (List.drop_suffix d cs).isInfix

theorem tzCaptureAt_prefix {cs cap : List Char}
    (h : tzCaptureAt cs = some cap) : ∃ k, cap = cs.take k := by
  unfold tzCaptureAt at h
  split at h
  · exact ⟨_, (Option.some.inj h).symm⟩
  · split at h
    · split at h
      · split at h
        · exact ⟨_, (Option.some.inj h).symm⟩
        · exact absurd h (by simp)
      · split at h
        · exact ⟨_, (Option.some.inj h).symm⟩
        · exact absurd h (by simp)
    · exact absurd h (by simp)

theorem tzRest_infix {cs cap : List Char} (h : tzRest cs = some cap) :
    cap <:+: cs := by
  unfold tzRest at h
  split at h
  · next cap2 hc =>
    obtain ⟨k, rfl⟩ := tzCaptureAt_prefix hc
    rw [← Option.some.inj h]
    exact take_drop_infix cs _ k
  · exact absurd h (by simp)

theorem tzOpt_infix {cs cap : List Char} (h : tzOpt cs = some cap) :
    cap <:+: cs := by
  unfold tzOpt at h
  rcases orElse_some h with h1 | h1
  · split at h1
    · exact ( tzRest_infix h1).trans (List.drop_suffix _ cs).isInfix
    · exact absurd h1 (by simp)
  rcases orElse_some h1 with h2 | h2
  · split at h2
    · exact ( tzRest_infix h2).trans (List.drop_suffix _ cs).isInfix
    · exact absurd h2 (by simp)
  rcases orElse_some h2 with h3 | h3
  · split at h3
    · exact ( tzRest_infix h3).trans (List.drop_suffix _ cs).isInfix
    · exact absurd h3 (by simp)
  · exact tzRest_infix h3

theorem tzAmCont_infix {cs cap : List Char} (h : tzAmCont cs = some cap) :
    cap <:+: cs := by
  unfold tzAmCont at h
  split at h
  · split at h
    · exact (( tzRest_infix h).trans
        (List.drop_suffix _ _).isInfix).trans
        (List.drop_suffix _ cs).isInfix
    · exact absurd h (by simp)
  · exact absurd h (by simp)

theorem matchTzAt_infix {cs cap : List Char}
    (h : matchTzAt cs = some cap) : cap <:+: cs := by
  unfold matchTzAt at h
  rcases orElse_some h with h1 | h1
  · split at h1
    · exact ( tzOpt_infix h1).trans (List.drop_suffix 8 cs).isInfix
    · exact absurd h1 (by simp)
  rcases orElse_some h1 with h2 | h2
  · split at h2
    · exact (( tzOpt_infix h2).trans
        (List.drop_suffix _ _).isInfix).trans
        (List.drop_suffix 4 cs).isInfix
    · exact absurd h2 (by simp)
  · split at h2
    · rcases orElse_some h2 with h3 | h3
      · split at h3
        · exact (( tzAmCont_infix h3).trans
            (List.drop_suffix _ _).isInfix).trans
            (List.drop_suffix 1 cs).isInfix
        · exact absurd h3 (by simp)
      · split at h3
        · exact (( tzAmCont_infix h3).trans
            (List.drop_suffix _ _).isInfix).trans
            (List.drop_suffix 1 cs).isInfix
        · exact absurd h3 (by simp)
    · exact absurd h2 (by simp)

theorem matchProjectAt_infix {cs cap : List Char}
    (h : matchProjectAt cs = some cap) : cap <:+: cs := by
  unfold matchProjectAt at h
  split at h
  · split at h
    · split at h
      · rw [← Option.some.inj h]
        exact ( take_drop_infix _ _ _).trans (List.drop_suffix 7 cs).isInfix
      · exact absurd h (by simp)
    · exact absurd h (by simp)
  · exact absurd h (by simp)

theorem wsStealCapture_infix {p : Char → Bool} {m c : Nat}
    {cs cap : List Char} (h : wsStealCapture p m c cs = some cap) :
    cap <:+: cs := by
  unfold wsStealCapture at h
  split at h
  · split at h
    · rw [← Option.some.inj h]
      exact take_drop_infix cs _ _
    · split at h
      · rw [← Option.some.inj h]
        exact take_drop_infix cs _ _
      · exact absurd h (by simp)
  · exact absurd h (by simp)

theorem matchStackAt_infix {cs cap : List Char}
    (h : matchStackAt cs = some cap) : cap <:+: cs := by
  unfold matchStackAt at h
  rcases orElse_some h with h1 | h1
  · split at h1
    · exact ( wsStealCapture_infix h1).trans (List.drop_suffix 4 cs).isInfix
    · exact absurd h1 (by simp)
  rcases orElse_some h1 with h2 | h2
  · split at h2
    · exact ( wsStealCapture_infix h2).trans (List.drop_suffix 3 cs).isInfix
    · exact absurd h2 (by simp)
  rcases orElse_some h2 with h3 | h3
  · split at h3
    · exact ( wsStealCapture_infix h3).trans (List.drop_suffix 5 cs).isInfix
    · exact absurd h3 (by simp)
  rcases orElse_some h3 with h4 | h4
  · split at h4
    · rcases orElse_some h4 with h5 | h5
      · split at h5
        · exact (( wsStealCapture_infix h5).trans
            (List.drop_suffix _ _).isInfix).trans
            (List.drop_suffix 5 cs).isInfix
        · exact absurd h5 (by simp)
      · exact ( wsStealCapture_infix h5).trans
          (List.drop_suffix 5 cs).isInfix
    · exact absurd h4 (by simp)
  · split at h4
    · split at h4
      · exact (( wsStealCapture_infix h4).trans
          (List.drop_suffix _ _).isInfix).trans
          (List.drop_suffix 5 cs).isInfix
      · exact absurd h4 (by simp)
    · exact absurd h4 (by simp)

theorem matchConstraintAt_infix {prev : Option Char} {cs cap : List Char}
    (h : matchConstraintAt prev cs = some cap) : cap <:+: cs := by
  unfold matchConstraintAt at h
  split at h
  · rcases orElse_some h with h1 | h1
    · split at h1
      · exact ( wsStealCapture_infix h1).trans
          (List.drop_suffix 6 cs).isInfix
      · exact absurd h1 (by simp)
    rcases orElse_some h1 with h2 | h2
    · split at h2
      · exact ( wsStealCapture_infix h2).trans
          (List.drop_suffix 5 cs).isInfix
      · exact absurd h2 (by simp)
    · split at h2
      · exact ( wsStealCapture_infix h2).trans
          (List.drop_suffix 4 cs).isInfix
      · exact absurd h2 (by simp)
  · exact absurd h (by simp)

theorem platCont_infix {cs cap : List Char} (h : platCont cs = some cap) :
    cap <:+: cs := by
  unfold platCont at h
  split at h
  · split at h
    · rw [← Option.some.inj h]
      exact take_drop_infix cs _ _
    · exact absurd h (by simp)
  · exact absurd h (by simp)

theorem matchPlatformAt_infix {prev : Option Char} {cs cap : List Char}
    (h : matchPlatformAt prev cs = some cap) : cap <:+: cs := by
  unfold matchPlatformAt at h
  split at h
  · rcases orElse_some h with h1 | h1
    · split at h1
      · exact (( platCont_infix h1).trans
          (List.drop_suffix _ _).isInfix).trans
          (List.drop_suffix 1 cs).isInfix
      · exact absurd h1 (by simp)
    rcases orElse_some h1 with h2 | h2
    · split at h2
      · exact (( platCont_infix h2).trans
          (List.drop_suffix _ _).isInfix).trans
          (List.drop_suffix 2 cs).isInfix
      · exact absurd h2 (by simp)
    · split at h2
      · exact ( platCont_infix h2).trans (List.drop_suffix 5 cs).isInfix
      · exact absurd h2 (by simp)
  · exact absurd h (by simp)

/-! ### `extractFactCandidates` -/

/-- A fact candidate as pushed by `extractFactCandidates`. -/
structure FactCand where
  subject : String
  predicate : String
  obj : String
  confidence : ℚ
  tags : List String
  deriving Repr, DecidableEq

/-- The deduplication key of `uniqueFacts`. -/
def factCandKey (f : FactCand) : String :=
  jsToLower ⟨f.subject.data ++ Char.ofNat 124 :: f.predicate.data ++
    Char.ofNat 124 :: f.obj.data⟩

/-- `uniqueFacts`: keep the first fact for each lower-cased key. -/
def uniqueFactsAux (seen : List String) : List FactCand → List FactCand
  | [] => []
  | f :: fs =>
    if factCandKey f ∈ seen then uniqueFactsAux seen fs
    else f :: uniqueFactsAux (factCandKey f :: seen) fs

def uniqueFacts (facts : List FactCand) : List FactCand :=
  uniqueFactsAux [] facts

/-- The guard of `pushFact`: all three fields non-empty and the joined
fields not sensitive. -/
def pushFactOk (f : FactCand) : Bool :=
  !f.subject.data.isEmpty && !f.predicate.data.isEmpty &&
  !f.obj.data.isEmpty &&
  !isSensitive (f.subject.data ++ ' ' :: f.predicate.data ++
    ' ' :: f.obj.data)

def testPrefer (u : List Char) : Bool :=
  testWordGap ("i".data) ("prefer".data) 1 u ||
  testWordGap ("prefer".data) ("that".data) 1 u ||
  testWordGap ("please".data) ("keep".data) 1 u

def testShort (u : List Char) : Bool :=
  ciInfixB ("short".data) u || ciInfixB ("concise".data) u ||
  ciInfixB ("brief".data) u

def testDetailed (u : List Char) : Bool :=
  ciInfixB ("detailed".data) u || ciInfixB ("long".data) u ||
  ciInfixB ("thorough".data) u

/-- `extractFactCandidates(userText, assistantText)`. -/
def extractFactCandidates (userText assistantText : String) :
    List FactCand :=
  if isSensitive (userText.data ++ '\n' :: assistantText.data) then []
  else
    uniqueFacts (List.filter pushFactOk (
      (match firstMatch matchTzAt userText.data with
       | some cap => [⟨"user", "timezone", ⟨cap⟩, mkRat 9 10,
           ["profile", "timezone"]⟩]
       | none => []) ++
      (if testPrefer userText.data && testShort userText.data then
        [⟨"user", "prefers", "short answers", mkRat 86 100,
          ["preference", "style"]⟩]
      else []) ++
      (if testPrefer userText.data && testDetailed userText.data then
        [⟨"user", "prefers", "detailed answers", mkRat 86 100,
          ["preference", "style"]⟩]
      else []) ++
      (match firstMatch matchStackAt
          (userText.data ++ '\n' :: assistantText.data),
          projectName userText.data with
       | some cap, some p =>
         [⟨⟨"project:".data ++ p⟩, "uses_stack",
           sanitizeOneLine ⟨cap⟩ 90, mkRat 78 100,
           ["project", ⟨p⟩, "stack"]⟩]
       | _, _ => []) ++
      (match firstMatchB matchConstraintAt none userText.data with
       | some cap =>
         [⟨(match projectName userText.data with
            | some p => ⟨"project:".data ++ p⟩
            | none => "user"), "constraint",
           sanitizeOneLine ⟨cap⟩ 100, mkRat 75 100, ["constraint"]⟩]
       | none => []) ++
      (match firstMatchB matchPlatformAt none userText.data with
       | some cap =>
         [⟨"user", "uses_tool", sanitizeOneLine ⟨cap⟩ 70, mkRat 68 100,
           ["tooling"]⟩]
       | none => [])))

theorem uniqueFactsAux_subset {f : FactCand} : ∀ (seen : List String)
    (l : List FactCand), f ∈ uniqueFactsAux seen l → f ∈ l := by
  intro seen l
  induction l generalizing seen with
  | nil => intro h; exact absurd h (by simp [uniqueFactsAux])
  | cons g l' ih =>
    intro h
    unfold uniqueFactsAux at h
    split at h
    · exact List.mem_cons_of_mem g (ih _ h)
    · rcases List.mem_cons.mp h with rfl | h2
      · exact List.mem_cons_self f l'
      · exact List.mem_cons_of_mem g (ih _ h2)

/-- Strings of at most twenty characters cannot contain the secret. -/
theorem clean_short_str {S : List Char} (hlen : 20 ≤ S.length)
    {s : List Char} (h : s.length ≤ 22) :
    ciInfixB ('s' :: 'k' :: '-' :: S) s = false :=
  clean_of_short (by simp; omega)

/-- The lower-cased project-name capture is clean whenever the scanned
text is. -/
theorem projectName_clean {S : List Char} {w : List Char}
    (hw : ciInfixB ('s' :: 'k' :: '-' :: S) w = false) :
    ∀ p, projectName w = some p →
      ciInfixB ('s' :: 'k' :: '-' :: S) p = false := by
  intro p hp
  unfold projectName at hp
  split at hp
  · next pc hpc =>
    obtain ⟨suff, hsuff, hat⟩ := firstMatch_some hpc
    have hinf : pc <:+: w :=
      ( matchProjectAt_infix hat).trans hsuff.isInfix
    rw [← Option.some.inj hp]
    exact clean_toLower ( clean_of_infix hinf hw)
  · exact absurd hp (by simp)

/-- Every field of every extracted fact candidate is clean whenever both
redacted inputs are. -/
theorem extractFactCandidates_clean {S : List Char}
    (hS : S.all isWordChar = true) (hlen : 20 ≤ S.length)
    {u a : String}
    (hu : ciInfixB ('s' :: 'k' :: '-' :: S) u.data = false)
    (ha : ciInfixB ('s' :: 'k' :: '-' :: S) a.data = false) :
    ∀ f ∈ extractFactCandidates u a,
      ciInfixB ('s' :: 'k' :: '-' :: S) f.subject.data = false ∧
      ciInfixB ('s' :: 'k' :: '-' :: S) f.predicate.data = false ∧
      ciInfixB ('s' :: 'k' :: '-' :: S) f.obj.data = false ∧
      ∀ t ∈ f.tags, ciInfixB ('s' :: 'k' :: '-' :: S) t.data = false := by
  have hall := secret_all_skRun hS
  have hne : ('s' :: 'k' :: '-' :: S) ≠ [] := by simp
  have htext : ciInfixB ('s' :: 'k' :: '-' :: S)
      (u.data ++ '\n' :: a.data) = false := by
    have hsh : u.data ++ '\n' :: a.data = u.data ++ (['\n'] ++ a.data) := by
      simp
    rw [hsh]
    exact clean_append_sep hall hne hu ha (by simp) (by
      intro c hc
      simp at hc
      rw [hc]
      decide)
  have hproj := projectName_clean (S := S) hu
  intro f hf
  unfold extractFactCandidates at hf
  split at hf
  · exact absurd hf (by simp)
  · have hf2 := uniqueFactsAux_subset _ _ hf
    have hf3 := List.mem_of_mem_filter hf2
    simp only [List.mem_append] at hf3
    rcases hf3 with ((((h | h) | h) | h) | h) | h
    · -- timezone fact
      revert h
      cases htz : firstMatch matchTzAt u.data with
      | none =>
        intro h
        exact absurd h (by simp)
      | some cap =>
        intro h
        simp only [List.mem_singleton] at h
        subst h
        dsimp only
        obtain ⟨suff, hsuff, hat⟩ := firstMatch_some htz
        have hinf : cap <:+: u.data :=
          ( matchTzAt_infix hat).trans hsuff.isInfix
        exact ⟨clean_short_str hlen (by decide),
          clean_short_str hlen (by decide),
          clean_of_infix hinf hu, by
          intro t ht
          simp at ht
          rcases ht with rfl | rfl <;>
            exact clean_short_str hlen (by decide)⟩
    · revert h
      split
      · intro h
        simp only [List.mem_singleton] at h
        subst h
        dsimp only
        refine ⟨clean_short_str hlen (by decide),
          clean_short_str hlen (by decide),
          clean_short_str hlen (by decide), ?_⟩
        intro t ht
        simp at ht
        rcases ht with rfl | rfl <;>
          exact clean_short_str hlen (by decide)
      · intro h
        exact absurd h (by simp)
    · revert h
      split
      · intro h
        simp only [List.mem_singleton] at h
        subst h
        dsimp only
        refine ⟨clean_short_str hlen (by decide),
          clean_short_str hlen (by decide),
          clean_short_str hlen (by decide), ?_⟩
        intro t ht
        simp at ht
        rcases ht with rfl | rfl <;>
          exact clean_short_str hlen (by decide)
      · intro h
        exact absurd h (by simp)
    · -- stack fact
      revert h
      cases hsm : firstMatch matchStackAt
          (u.data ++ '\n' :: a.data) with
      | none =>
        intro h
        exact absurd h (by simp)
      | some cap =>
        cases hpn : projectName u.data with
        | none =>
          intro h
          exact absurd h (by simp)
        | some p =>
          intro h
          simp only [List.mem_singleton] at h
          subst h
          dsimp only
          obtain ⟨suff, hsuff, hat⟩ := firstMatch_some hsm
          have hinfc : cap <:+: (u.data ++ '\n' :: a.data) :=
            ( matchStackAt_infix hat).trans hsuff.isInfix
          have hpcl := hproj p hpn
          refine ⟨?_, clean_short_str hlen (by decide), ?_, ?_⟩
          · exact clean_lit_append (by decide) hpcl
          · exact clean_sanitize hall hne
              ( clean_of_infix hinfc htext) 90
          · intro t ht
            simp at ht
            rcases ht with rfl | rfl | rfl
            · exact clean_short_str hlen (by decide)
            · exact hpcl
            · exact clean_short_str hlen (by decide)
    · -- constraint fact
      revert h
      cases hcm : firstMatchB matchConstraintAt none u.data with
      | none =>
        intro h
        exact absurd h (by simp)
      | some cap =>
        intro h
        simp only [List.mem_singleton] at h
        subst h
        dsimp only
        obtain ⟨prev2, suff, hsuff, hat⟩ := firstMatchB_some hcm
        have hinfc : cap <:+: u.data :=
          ( matchConstraintAt_infix hat).trans hsuff.isInfix
        refine ⟨?_, clean_short_str hlen (by decide), ?_, ?_⟩
        · cases hpn : projectName u.data with
          | none => exact clean_short_str hlen (by decide)
          | some p => exact clean_lit_append (by decide) (hproj p hpn)
        · exact clean_sanitize hall hne ( clean_of_infix hinfc hu) 100
        · intro t ht
          simp at ht
          rw [ht]
          exact clean_short_str hlen (by decide)
    · -- platform fact
      revert h
      cases hpm : firstMatchB matchPlatformAt none u.data with
      | none =>
        intro h
        exact absurd h (by simp)
      | some cap =>
        intro h
        simp only [List.mem_singleton] at h
        subst h
        dsimp only
        obtain ⟨prev2, suff, hsuff, hat⟩ := firstMatchB_some hpm
        have hinfc : cap <:+: u.data :=
          ( matchPlatformAt_infix hat).trans hsuff.isInfix
        refine ⟨clean_short_str hlen (by decide),
          clean_short_str hlen (by decide), ?_, ?_⟩
        · exact clean_sanitize hall hne ( clean_of_infix hinfc hu) 70
        · intro t ht
          simp at ht
          rw [ht]
          exact clean_short_str hlen (by decide)

/-! ### `extractEpisodeCandidates` and `extractOpenLoops`

The episode model carries the journal-relevant fields (summary, tags,
salience); the entity list and the embedding vector are persisted only in
the episode row itself and are not part of the artifacts this development
reasons about. -/

structure EpisodeCand where
  summary : String
  tags : List String
  salience : ℚ
  deriving Repr, DecidableEq

/-- The `hasDecision` test of `extractEpisodeCandidates`. -/
def testDecision (cs : List Char) : Bool :=
  ciInfixB ("decid".data) cs || ciInfixB ("decision".data) cs ||
  ciInfixB ("agreed".data) cs || ciInfixB ("plan".data) cs ||
  testWordGap ("we".data) ("will".data) 1 cs ||
  ciInfixB ("chosen".data) cs ||
  testWordGap ("next".data) ("step".data) 1 cs ||
  ciInfixB ("roadmap".data) cs

/-- The per-line decision test used to pick the decision line. -/
def testDecisionLine (cs : List Char) : Bool :=
  ciInfixB ("decid".data) cs || ciInfixB ("plan".data) cs ||
  testWordGap ("we".data) ("will".data) 1 cs ||
  testWordGap ("next".data) ("step".data) 1 cs ||
  ciInfixB ("agreed".data) cs

/-- Sentence terminators `.`, `!`, `?`. -/
def isSentenceEnd (c : Char) : Bool :=
  c.toNat == 46 || c.toNat == 33 || c.toNat == 63

/-- The decision line: the first trimmed assistant line passing the
decision test, else the first nonempty trimmed sentence, else the whole
assistant text; trimmed once more. -/
def decisionLine (assistantText : String) : List Char :=
  jsTrimList
    (match ((splitRuns (fun c => c == '\n') assistantText.data).map
        jsTrimList).find? testDecisionLine with
     | some l => l
     | none =>
       match ((splitEvery isSentenceEnd assistantText.data).map
           jsTrimList).find? (fun l => !l.isEmpty) with
       | some l => l
       | none => assistantText.data)

/-- `extractEpisodeCandidates`. -/
def extractEpisodeCandidates (userText assistantText : String)
    (maxEpisodes : Nat) : List EpisodeCand :=
  if !testDecision (userText.data ++ '\n' :: assistantText.data) &&
      !(firstMatch matchProjectAt
        (userText.data ++ '\n' :: assistantText.data)).isSome &&
      (userText.data ++ '\n' :: assistantText.data).length < 180 then []
  else
    [(⟨sanitizeOneLine ⟨"Topic: ".data ++
        ((if (joinSep [' ']
            (((tokenize userText).take 6).map String.data)).isEmpty then
          ("session context".data)
        else joinSep [' '] (((tokenize userText).take 6).map String.data)) ++
        (". Decision/context: ".data ++ decisionLine assistantText))⟩ 260,
      ["episode"] ++
        (match projectName userText.data with
         | some p => ["project", ⟨p⟩]
         | none => []) ++
        (if testDecision (userText.data ++ '\n' :: assistantText.data) then
          ["decision"]
        else []),
      if testDecision (userText.data ++ '\n' :: assistantText.data) then
        mkRat 85 100
      else mkRat 68 100⟩ : EpisodeCand)].take maxEpisodes

/-- The open-loop line test. -/
def testLoopLine (cs : List Char) : Bool :=
  ciInfixB ("todo".data) cs || ciInfixB ("to do".data) cs ||
  ciInfixB ("follow up".data) cs || ciInfixB ("open loop".data) cs ||
  ciInfixB ("next step".data) cs

/-- The leading-bullet class dash, asterisk, digit, dot, whitespace. -/
def isLoopStrip (c : Char) : Bool :=
  c.toNat == 45 || c.toNat == 42 || isDigitChar c || c.toNat == 46 ||
  isJsSpace c

/-- `extractOpenLoops(assistantText)`. -/
def extractOpenLoops (assistantText : String) : List String :=
  (jsSetDedupe
    (((((splitEvery (fun c => c == '\n') assistantText.data).map
      jsTrimList).filter (fun l => !l.isEmpty)).filter testLoopLine).map
      (fun l => sanitizeOneLine ⟨l.dropWhile isLoopStrip⟩ 180))).take 6

/-- The decision line is clean whenever the assistant text is. -/
theorem decisionLine_clean {S : List Char} {a : String}
    (ha : ciInfixB ('s' :: 'k' :: '-' :: S) a.data = false) :
    ciInfixB ('s' :: 'k' :: '-' :: S) (decisionLine a) = false := by
  unfold decisionLine
  apply clean_of_infix ( jsTrimList_infix _)
  split
  · next l hl =>
    have hmem := List.mem_of_find?_eq_some hl
    simp only [List.mem_map] at hmem
    obtain ⟨piece, hp, rfl⟩ := hmem
    exact clean_of_infix ( jsTrimList_infix _)
      ( clean_of_infix ( splitRunsAux_infix _ _ _ _ hp) ha)
  · split
    · next l hl =>
      have hmem := List.mem_of_find?_eq_some hl
      simp only [List.mem_map] at hmem
      obtain ⟨piece, hp, rfl⟩ := hmem
      exact clean_of_infix ( jsTrimList_infix _)
        ( clean_of_infix ( splitEveryAux_infix _ _ _ _ hp) ha)
    · exact ha

/-- Episode summaries and tags are clean whenever both inputs are. -/
theorem extractEpisodeCandidates_clean {S : List Char}
    (hS : S.all isWordChar = true) (hlen : 20 ≤ S.length)
    {u a : String} (maxEpisodes : Nat)
    (hu : ciInfixB ('s' :: 'k' :: '-' :: S) u.data = false)
    (ha : ciInfixB ('s' :: 'k' :: '-' :: S) a.data = false) :
    ∀ e ∈ extractEpisodeCandidates u a maxEpisodes,
      ciInfixB ('s' :: 'k' :: '-' :: S) e.summary.data = false ∧
      ∀ t ∈ e.tags, ciInfixB ('s' :: 'k' :: '-' :: S) t.data = false := by
  have hall := secret_all_skRun hS
  have hne : ('s' :: 'k' :: '-' :: S) ≠ [] := by simp
  intro e he
  unfold extractEpisodeCandidates at he
  split at he
  · exact absurd he (by simp)
  · have he2 := List.mem_of_mem_take he
    simp only [List.mem_singleton] at he2
    subst he2
    dsimp only
    constructor
    · have htopic : ciInfixB ('s' :: 'k' :: '-' :: S)
          (if (joinSep [' ']
              (((tokenize u).take 6).map String.data)).isEmpty then
            ("session context".data)
          else joinSep [' ']
            (((tokenize u).take 6).map String.data)) = false := by
        split
        · exact clean_short_str hlen (by decide)
        · apply joinSep_clean hall hne (by simp) (by
            intro c hc
            simp at hc
            rw [hc]
            decide)
          intro x hx
          simp only [List.mem_map] at hx
          obtain ⟨t, ht, rfl⟩ := hx
          exact tokenize_clean hu t (List.mem_of_mem_take ht)
      have hdl := decisionLine_clean (S := S) ha
      apply clean_sanitize hall hne _ 260
      apply clean_lit_append (by decide)
      rw [show (". Decision/context: ".data ++ decisionLine a) =
        ['.'] ++ (" Decision/context: ".data ++ decisionLine a) from rfl]
      exact clean_append_sep hall hne htopic
        (clean_lit_append (by decide) hdl) (by simp) (by
          intro c hc
          simp at hc
          rw [hc]
          decide)
    · intro t ht
      simp only [List.mem_append] at ht
      rcases ht with (ht | ht) | ht
      · simp at ht
        rw [ht]
        exact clean_short_str hlen (by decide)
      · revert ht
        cases hpn : projectName u.data with
        | none =>
          intro ht
          exact absurd ht (by simp)
        | some p =>
          intro ht
          simp at ht
          rcases ht with rfl | rfl
          · exact clean_short_str hlen (by decide)
          · exact projectName_clean (S := S) hu p hpn
      · revert ht
        split
        · intro ht
          simp at ht
          rw [ht]
          exact clean_short_str hlen (by decide)
        · intro ht
          exact absurd ht (by simp)

/-- Extracted open loops are clean whenever the assistant text is. -/
theorem extractOpenLoops_clean {S : List Char}
    (hS : S.all isWordChar = true) {a : String}
    (ha : ciInfixB ('s' :: 'k' :: '-' :: S) a.data = false) :
    ∀ l ∈ extractOpenLoops a,
      ciInfixB ('s' :: 'k' :: '-' :: S) l.data = false := by
  have hall := secret_all_skRun hS
  have hne : ('s' :: 'k' :: '-' :: S) ≠ [] := by simp
  intro l hl
  unfold extractOpenLoops at hl
  have hl2 := List.mem_of_mem_take hl
  rw [mem_jsSetDedupe] at hl2
  simp only [List.mem_map] at hl2
  obtain ⟨line, hline, rfl⟩ := hl2
  have hline2 := List.mem_of_mem_filter hline
  have hline3 := List.mem_of_mem_filter hline2
  simp only [List.mem_map] at hline3
  obtain ⟨piece, hp, rfl⟩ := hline3
  have hpinf : piece <:+: a.data := splitEveryAux_infix _ _ _ _ hp
  have hclean : ciInfixB ('s' :: 'k' :: '-' :: S)
      ((jsTrimList piece).dropWhile isLoopStrip) = false :=
    clean_of_infix (List.dropWhile_suffix _).isInfix
      ( clean_of_infix ( jsTrimList_infix _) ( clean_of_infix hpinf ha))
  exact clean_sanitize hall hne hclean 180

/-! ### Decimal rendering and timestamps -/

def natToDigitsAux : Nat → Nat → List Char
  | 0, _ => []
  | fuel + 1, n =>
    if n < 10 then [Char.ofNat (48 + n)]
    else natToDigitsAux fuel (n / 10) ++ [Char.ofNat (48 + n % 10)]

/-- Decimal rendering of a natural number (JS number-to-string for the
integer ids interpolated into the journal). -/
def natToDecimal (n : Nat) : List Char := natToDigitsAux (n + 1) n

def intToDecimal (i : Int) : List Char :=
  if i < 0 then '-' :: natToDecimal i.natAbs else natToDecimal i.natAbs

theorem toNat_ofNat_small {n : Nat} (h : n < 55296) :
    (Char.ofNat n).toNat = n := by
  have hv : Nat.isValidChar n := Or.inl h
  simp only [Char.ofNat]
  rw [dif_pos hv]
  simp [Char.ofNatAux, Char.toNat, UInt32.toNat, BitVec.toNat_ofNat]

theorem natToDigitsAux_digits : ∀ (fuel n : Nat) (c : Char),
    c ∈ natToDigitsAux fuel n → 48 ≤ c.toNat ∧ c.toNat ≤ 57 := by
  intro fuel
  induction fuel with
  | zero =>
    intro n c h
    simp [natToDigitsAux] at h
  | succ f ih =>
    intro n c h
    unfold natToDigitsAux at h
    split at h
    · next hn =>
      simp at h
      rw [h, toNat_ofNat_small (by omega)]
      omega
    · rw [List.mem_append] at h
      rcases h with h | h
      · exact ih _ c h
      · simp at h
        rw [h, toNat_ofNat_small (by
          have := Nat.mod_lt n (show 0 < 10 by omega)
          omega)]
        have := Nat.mod_lt n (show 0 < 10 by omega)
        omega

theorem ciEq_s_false {c : Char}
    (h : c.toNat = 45 ∨ (48 ≤ c.toNat ∧ c.toNat ≤ 57) ∨ c.toNat = 58 ∨
      c.toNat = 46 ∨ c.toNat = 84 ∨ c.toNat = 90) :
    ciEq 's' c = false := by
  cases hc : ciEq 's' c
  · rfl
  · exfalso
    rw [ciEq_iff] at hc
    rw [show (Char.toLower 's').toNat = 115 from by decide] at hc
    rw [toLower_toNat] at hc
    split at hc <;> omega

theorem clean_of_no_first {x : Char} {p : List Char} :
    ∀ {s : List Char}, (∀ c ∈ s, ciEq x c = false) →
    ciInfixB (x :: p) s = false := by
  intro s
  induction s with
  | nil => intro _; rfl
  | cons c s' ih =>
    intro h
    rw [ciInfixB_cons, ciPrefixB_false_head (h c (by simp)),
      ih (fun d hd => h d (by simp [hd]))]
    rfl

/-- Decimal renderings of the ids are clean. -/
theorem clean_decimal {S : List Char} (i : Int) :
    ciInfixB ('s' :: 'k' :: '-' :: S) (intToDecimal i) = false := by
  apply clean_of_no_first
  intro c hc
  unfold intToDecimal at hc
  apply ciEq_s_false
  split at hc
  · rcases List.mem_cons.mp hc with rfl | hc2
    · left
      rfl
    · right
      left
      exact natToDigitsAux_digits _ _ c hc2
  · right
    left
    exact natToDigitsAux_digits _ _ c hc

/-- The character set of an ISO-8601 UTC timestamp. -/
def isIsoChar (c : Char) : Bool :=
  isDigitChar c || c.toNat == 45 || c.toNat == 58 || c.toNat == 46 ||
  c.toNat == 84 || c.toNat == 90

theorem clean_iso {S : List Char} {ts : List Char}
    (h : ts.all isIsoChar = true) :
    ciInfixB ('s' :: 'k' :: '-' :: S) ts = false := by
  apply clean_of_no_first
  intro c hc
  have := List.all_eq_true.mp h c hc
  unfold isIsoChar at this
  apply ciEq_s_false
  simp only [isDigitChar, Bool.or_eq_true, Bool.and_eq_true,
    decide_eq_true_iff, beq_iff_eq] at this
  tauto

/-! ### The journal block and session artifacts -/

/-- Relative path of the per-session summary file. -/
def sessionSummaryRel (chatId sessionNo : Int) : List Char :=
  "sessions/".data ++ (intToDecimal chatId ++ ('/' ::
    (intToDecimal sessionNo ++ "/session_summary.md".data)))

/-- Relative path of the per-session key-facts file. -/
def sessionKeyFactsRel (chatId sessionNo : Int) : List Char :=
  "sessions/".data ++ (intToDecimal chatId ++ ('/' ::
    (intToDecimal sessionNo ++ "/session_key_facts.json".data)))

/-- The header written when the daily journal file is created. -/
def getDailyHeader (ts : List Char) : List Char :=
  "# Daily Journal ".data ++ (ts.take 10 ++ "\n\n".data)

/-- The `factLine` of `appendDailyJournal`. -/
def factLine (facts : List FactCand) : List Char :=
  if facts.isEmpty then "(none)".data
  else joinSep (" | ".data) (facts.map (fun f =>
    f.subject.data ++ (' ' :: (f.predicate.data ++ (' ' :: f.obj.data)))))

/-- The `episodeLine` of `appendDailyJournal`. -/
def episodeLine (episodes : List EpisodeCand) : List Char :=
  if episodes.isEmpty then "(none)".data
  else joinSep (" | ".data) (episodes.map (fun e => e.summary.data))

/-- The block appended to the daily journal by `appendDailyJournal`. -/
def appendDailyJournalBlock (ts : List Char) (chatId sessionNo : Int)
    (currentGoal userText assistantText : String)
    (facts : List FactCand) (episodes : List EpisodeCand)
    (loops : List String) (artifacts : List (List Char)) : List Char :=
  joinSep ['\n']
    ["## ".data ++ ((ts.drop 11).take 5 ++ (' ' :: ("UTC | chat ".data ++
        (intToDecimal chatId ++ (' ' :: ("| session ".data ++
          intToDecimal sessionNo)))))),
     "- Goal: ".data ++ (sanitizeOneLine currentGoal 180).data,
     "- User intent: ".data ++ (sanitizeOneLine userText 180).data,
     "- Assistant outcome: ".data ++
       (sanitizeOneLine assistantText 180).data,
     "- Key facts captured: ".data ++
       (sanitizeOneLine ⟨factLine facts⟩ 220).data,
     "- Episode updates: ".data ++
       (sanitizeOneLine ⟨episodeLine episodes⟩ 220).data,
     "- Open loops: ".data ++
       (if loops.isEmpty then "(none)".data
        else joinSep (" | ".data)
          (loops.map (fun x => (sanitizeOneLine x 80).data))),
     "- Artifacts: ".data ++ joinSep (", ".data) artifacts,
     []]

/-- The rolling-notes line appended to the session summary. -/
def turnEntry (ts : List Char) (safeU safeA : String) : List Char :=
  "- ".data ++ (ts ++ (": user=\"".data ++
    ((sanitizeOneLine safeU 100).data ++ ("\" assistant=\"".data ++
      ((sanitizeOneLine safeA 140).data ++ "\"".data)))))

/-- The source excerpt stored with each upserted fact. -/
def factSourceExcerpt (f : FactCand) : String :=
  sanitizeOneLine ⟨f.subject.data ++ (' ' :: (f.predicate.data ++
    (' ' :: f.obj.data)))⟩ 150

/-! ### `retainReflectIndex`: the persistence-relevant projection

The model produces every text that the method persists for the current
exchange: the Exchange row passed to `recordExchange`, the extracted fact,
episode and open-loop candidates (with the source excerpt given to
`upsertFact`), the block appended to the daily journal, and the rolling
turn entry.  Store side effects on *past* data (checkpoint summaries of
earlier exchanges, loop resolution, file indexing) carry no text derived
from the current inputs and are outside this projection. -/

structure WorkingMemoryIn where
  currentGoal : String
  assumptions : List String
  activeConstraints : List String
  toolResultsSummary : List String
  deriving Repr, DecidableEq

structure RetainResult where
  exchangeUserText : String
  exchangeAssistantText : String
  safeWorkingMemory : WorkingMemoryIn
  factCandidates : List FactCand
  episodeCandidates : List EpisodeCand
  openLoopCandidates : List String
  journalBlock : List Char
  dailyHeader : List Char
  rollingEntry : List Char
  deriving Repr, DecidableEq

def retainReflectIndex (chatId sessionNo : Int)
    (maxFactsPerRetain maxEpisodesPerRetain maxOpenLoops : Nat)
    (timestamp : String) (userText assistantText : String)
    (wm : WorkingMemoryIn) : RetainResult :=
  { exchangeUserText := redactSensitiveText userText,
    exchangeAssistantText := redactSensitiveText assistantText,
    safeWorkingMemory :=
      ⟨redactSensitiveText wm.currentGoal,
       wm.assumptions.map redactSensitiveText,
       wm.activeConstraints.map redactSensitiveText,
       wm.toolResultsSummary.map redactSensitiveText⟩,
    factCandidates :=
      (extractFactCandidates (redactSensitiveText userText)
        (redactSensitiveText assistantText)).take maxFactsPerRetain,
    episodeCandidates :=
      extractEpisodeCandidates (redactSensitiveText userText)
        (redactSensitiveText assistantText) maxEpisodesPerRetain,
    openLoopCandidates :=
      (extractOpenLoops (redactSensitiveText assistantText)).take
        maxOpenLoops,
    journalBlock :=
      appendDailyJournalBlock timestamp.data chatId sessionNo
        (redactSensitiveText wm.currentGoal)
        (redactSensitiveText userText) (redactSensitiveText assistantText)
        ((extractFactCandidates (redactSensitiveText userText)
          (redactSensitiveText assistantText)).take maxFactsPerRetain)
        (extractEpisodeCandidates (redactSensitiveText userText)
          (redactSensitiveText assistantText) maxEpisodesPerRetain)
        ((extractOpenLoops (redactSensitiveText assistantText)).take
          maxOpenLoops)
        [sessionSummaryRel chatId sessionNo,
         sessionKeyFactsRel chatId sessionNo],
    dailyHeader := getDailyHeader timestamp.data,
    rollingEntry := turnEntry timestamp.data
      (redactSensitiveText userText) (redactSensitiveText assistantText) }

/-- Decidable bounded check for `AnchoredExact`: every split position of
`u` is inspected. -/
def anchoredExactB (secret u : List Char) : Bool :=
  (List.range (u.length + 1)).all (fun i =>
    !(ciPrefixB secret (u.drop i)) ||
      (secret.isPrefixOf (u.drop i) && boundaryOK (u.take i).getLast?))

/-- The verbatim-absence property of one `retainReflectIndex` result: the
secret occurs in none of the texts the method persists — the Exchange
texts, the sanitized working memory, every extracted fact (all fields,
tags and the stored source excerpt), every episode summary and tag, every
open-loop text, the appended daily-journal block, the daily header, and
the rolling session-summary entry. -/
def NoVerbatimLeak (secret : List Char) (r : RetainResult) : Prop :=
  (¬ secret <:+: r.exchangeUserText.data) ∧
  (¬ secret <:+: r.exchangeAssistantText.data) ∧
  (¬ secret <:+: r.safeWorkingMemory.currentGoal.data) ∧
  (∀ x ∈ r.safeWorkingMemory.assumptions, ¬ secret <:+: x.data) ∧
  (∀ x ∈ r.safeWorkingMemory.activeConstraints, ¬ secret <:+: x.data) ∧
  (∀ x ∈ r.safeWorkingMemory.toolResultsSummary, ¬ secret <:+: x.data) ∧
  (∀ f ∈ r.factCandidates,
    ¬ secret <:+: f.subject.data ∧ ¬ secret <:+: f.predicate.data ∧
    ¬ secret <:+: f.obj.data ∧ (∀ t ∈ f.tags, ¬ secret <:+: t.data) ∧
    ¬ secret <:+: (factSourceExcerpt f).data) ∧
  (∀ e ∈ r.episodeCandidates,
    ¬ secret <:+: e.summary.data ∧ ∀ t ∈ e.tags, ¬ secret <:+: t.data) ∧
  (∀ l ∈ r.openLoopCandidates, ¬ secret <:+: l.data) ∧
  (¬ secret <:+: r.journalBlock) ∧
  (¬ secret <:+: r.dailyHeader) ∧
  (¬ secret <:+: r.rollingEntry)

/-! ### Cleanliness of the assembled artifacts -/

theorem clean_nil {S : List Char} :
    ciInfixB ('s' :: 'k' :: '-' :: S) [] = false := rfl

/-- Separator lemma specialised to a single separator character. -/
theorem clean_append_c {p : List Char} (hp : p.all isSkRunChar = true)
    (hpne : p ≠ []) {A B : List Char} (c : Char)
    (hA : ciInfixB p A = false) (hB : ciInfixB p B = false)
    (hc : isSkRunChar c = false) : ciInfixB p (A ++ c :: B) = false := by
  have h := @clean_append_sep p hp hpne A [c] B hA hB (by simp) (by
    intro d hd
    simp at hd
    rw [hd]
    exact hc)
  simpa using h

theorem clean_sessionSummaryRel {S : List Char}
    (hS : S.all isWordChar = true) (chatId sessionNo : Int) :
    ciInfixB ('s' :: 'k' :: '-' :: S)
      (sessionSummaryRel chatId sessionNo) = false := by
  have hall := secret_all_skRun hS
  have hne : ('s' :: 'k' :: '-' :: S) ≠ [] := by simp
  unfold sessionSummaryRel
  apply clean_lit_append (by decide)
  apply clean_append_c hall hne (Char.ofNat 47) (clean_decimal chatId) _
    (by decide)
  rw [show ("/session_summary.md".data) =
    '/' :: ("session_summary.md".data) from rfl]
  exact clean_append_c hall hne (Char.ofNat 47) (clean_decimal sessionNo)
    (clean_lit (by decide)) (by decide)

theorem clean_sessionKeyFactsRel {S : List Char}
    (hS : S.all isWordChar = true) (chatId sessionNo : Int) :
    ciInfixB ('s' :: 'k' :: '-' :: S)
      (sessionKeyFactsRel chatId sessionNo) = false := by
  have hall := secret_all_skRun hS
  have hne : ('s' :: 'k' :: '-' :: S) ≠ [] := by simp
  unfold sessionKeyFactsRel
  apply clean_lit_append (by decide)
  apply clean_append_c hall hne (Char.ofNat 47) (clean_decimal chatId) _
    (by decide)
  rw [show ("/session_key_facts.json".data) =
    '/' :: ("session_key_facts.json".data) from rfl]
  exact clean_append_c hall hne (Char.ofNat 47) (clean_decimal sessionNo)
    (clean_lit (by decide)) (by decide)

theorem clean_getDailyHeader {S : List Char} (hlen : 20 ≤ S.length)
    (ts : List Char) :
    ciInfixB ('s' :: 'k' :: '-' :: S) (getDailyHeader ts) = false := by
  unfold getDailyHeader
  apply clean_lit_append (by decide)
  apply clean_of_short
  have h1 := List.length_take_le 10 ts
  simp only [List.length_append, List.length_cons]
  simp at h1 ⊢
  omega

theorem clean_spo {S : List Char} (hS : S.all isWordChar = true)
    {s1 p1 o1 : List Char}
    (h1 : ciInfixB ('s' :: 'k' :: '-' :: S) s1 = false)
    (h2 : ciInfixB ('s' :: 'k' :: '-' :: S) p1 = false)
    (h3 : ciInfixB ('s' :: 'k' :: '-' :: S) o1 = false) :
    ciInfixB ('s' :: 'k' :: '-' :: S)
      (s1 ++ (' ' :: (p1 ++ (' ' :: o1)))) = false := by
  have hall := secret_all_skRun hS
  have hne : ('s' :: 'k' :: '-' :: S) ≠ [] := by simp
  exact clean_append_c hall hne ' ' h1
    (clean_append_c hall hne ' ' h2 h3 (by decide)) (by decide)

theorem clean_factLine {S : List Char} (hS : S.all isWordChar = true)
    (hlen : 20 ≤ S.length) {facts : List FactCand}
    (hf : ∀ f ∈ facts,
      ciInfixB ('s' :: 'k' :: '-' :: S) f.subject.data = false ∧
      ciInfixB ('s' :: 'k' :: '-' :: S) f.predicate.data = false ∧
      ciInfixB ('s' :: 'k' :: '-' :: S) f.obj.data = false) :
    ciInfixB ('s' :: 'k' :: '-' :: S) (factLine facts) = false := by
  have hall := secret_all_skRun hS
  have hne : ('s' :: 'k' :: '-' :: S) ≠ [] := by simp
  unfold factLine
  split
  · exact clean_short_str hlen (by decide)
  · apply joinSep_clean hall hne (by simp) (by
      intro c hc
      simp at hc
      rcases hc with h | h | h <;> (rw [h]; decide))
    intro x hx
    simp only [List.mem_map] at hx
    obtain ⟨f, hfm, rfl⟩ := hx
    obtain ⟨ha, hb, hc⟩ := hf f hfm
    exact clean_spo hS ha hb hc

theorem clean_episodeLine {S : List Char} (hS : S.all isWordChar = true)
    (hlen : 20 ≤ S.length) {episodes : List EpisodeCand}
    (he : ∀ e ∈ episodes,
      ciInfixB ('s' :: 'k' :: '-' :: S) e.summary.data = false) :
    ciInfixB ('s' :: 'k' :: '-' :: S) (episodeLine episodes) = false := by
  have hall := secret_all_skRun hS
  have hne : ('s' :: 'k' :: '-' :: S) ≠ [] := by simp
  unfold episodeLine
  split
  · exact clean_short_str hlen (by decide)
  · apply joinSep_clean hall hne (by simp) (by
      intro c hc
      simp at hc
      rcases hc with h | h | h <;> (rw [h]; decide))
    intro x hx
    simp only [List.mem_map] at hx
    obtain ⟨e, hem, rfl⟩ := hx
    exact he e hem

theorem clean_journalBlock {S : List Char} (hS : S.all isWordChar = true)
    (hlen : 20 ≤ S.length) {ts : List Char} (chatId sessionNo : Int)
    {goal u a : String} {facts : List FactCand}
    {episodes : List EpisodeCand} {loops : List String}
    {artifacts : List (List Char)}
    (hg : ciInfixB ('s' :: 'k' :: '-' :: S) goal.data = false)
    (hu : ciInfixB ('s' :: 'k' :: '-' :: S) u.data = false)
    (ha : ciInfixB ('s' :: 'k' :: '-' :: S) a.data = false)
    (hf : ∀ f ∈ facts,
      ciInfixB ('s' :: 'k' :: '-' :: S) f.subject.data = false ∧
      ciInfixB ('s' :: 'k' :: '-' :: S) f.predicate.data = false ∧
      ciInfixB ('s' :: 'k' :: '-' :: S) f.obj.data = false)
    (he : ∀ e ∈ episodes,
      ciInfixB ('s' :: 'k' :: '-' :: S) e.summary.data = false)
    (hl : ∀ l ∈ loops,
      ciInfixB ('s' :: 'k' :: '-' :: S) l.data = false)
    (hart : ∀ x ∈ artifacts,
      ciInfixB ('s' :: 'k' :: '-' :: S) x = false) :
    ciInfixB ('s' :: 'k' :: '-' :: S)
      (appendDailyJournalBlock ts chatId sessionNo goal u a facts episodes
        loops artifacts) = false := by
  have hall := secret_all_skRun hS
  have hne : ('s' :: 'k' :: '-' :: S) ≠ [] := by simp
  have hsepc : ∀ c ∈ (" | ".data), isSkRunChar c = false := by
    intro c hc
    simp at hc
    rcases hc with h | h | h <;> (rw [h]; decide)
  unfold appendDailyJournalBlock
  apply joinSep_clean hall hne (by simp) (by
    intro c hc
    simp at hc
    rw [hc]
    decide)
  intro x hx
  simp only [List.mem_cons, List.not_mem_nil, or_false] at hx
  rcases hx with rfl | rfl | rfl | rfl | rfl | rfl | rfl | rfl | rfl
  · apply clean_lit_append (by decide)
    apply clean_append_c hall hne ' ' _ _ (by decide)
    · apply clean_of_short
      have h1 := List.length_take_le 5 (ts.drop 11)
      simp
      omega
    · apply clean_lit_append (by decide)
      apply clean_append_c hall hne ' ' (clean_decimal chatId) _
        (by decide)
      apply clean_lit_append (by decide)
      exact clean_decimal sessionNo
  · exact clean_lit_append (by decide) (clean_sanitize hall hne hg 180)
  · exact clean_lit_append (by decide) (clean_sanitize hall hne hu 180)
  · exact clean_lit_append (by decide) (clean_sanitize hall hne ha 180)
  · exact clean_lit_append (by decide)
      (clean_sanitize hall hne (clean_factLine hS hlen hf) 220)
  · exact clean_lit_append (by decide)
      (clean_sanitize hall hne (clean_episodeLine hS hlen he) 220)
  · apply clean_lit_append (by decide)
    split
    · exact clean_short_str hlen (by decide)
    · apply joinSep_clean hall hne (by simp) hsepc
      intro y hy
      simp only [List.mem_map] at hy
      obtain ⟨l, hlm, rfl⟩ := hy
      exact clean_sanitize hall hne (hl l hlm) 80
  · apply clean_lit_append (by decide)
    apply joinSep_clean hall hne (by simp) (by
      intro c hc
      simp at hc
      rcases hc with h | h <;> (rw [h]; decide))
    exact hart
  · exact clean_nil

theorem clean_turnEntry {S : List Char} (hS : S.all isWordChar = true)
    (hlen : 20 ≤ S.length) {ts : List Char}
    (hts : ciInfixB ('s' :: 'k' :: '-' :: S) ts = false)
    {su sa : String}
    (hu : ciInfixB ('s' :: 'k' :: '-' :: S) su.data = false)
    (ha : ciInfixB ('s' :: 'k' :: '-' :: S) sa.data = false) :
    ciInfixB ('s' :: 'k' :: '-' :: S) (turnEntry ts su sa) = false := by
  have hall := secret_all_skRun hS
  have hne : ('s' :: 'k' :: '-' :: S) ≠ [] := by simp
  unfold turnEntry
  apply clean_lit_append (by decide)
  rw [show ((": user=\"".data) : List Char) =
    ':' :: (" user=\"".data) from rfl]
  apply clean_append_c hall hne ':' hts _ (by decide)
  apply clean_lit_append (by decide)
  rw [show (("\" assistant=\"".data) : List Char) =
    Char.ofNat 34 :: (" assistant=\"".data) from rfl]
  apply clean_append_c hall hne (Char.ofNat 34)
    (clean_sanitize hall hne hu 100) _ (by decide)
  apply clean_lit_append (by decide)
  rw [show (("\"".data) : List Char) = Char.ofNat 34 :: [] from rfl]
  exact clean_append_c hall hne (Char.ofNat 34)
    (clean_sanitize hall hne ha 140) clean_nil (by decide)

theorem clean_factSourceExcerpt {S : List Char}
    (hS : S.all isWordChar = true) {f : FactCand}
    (h1 : ciInfixB ('s' :: 'k' :: '-' :: S) f.subject.data = false)
    (h2 : ciInfixB ('s' :: 'k' :: '-' :: S) f.predicate.data = false)
    (h3 : ciInfixB ('s' :: 'k' :: '-' :: S) f.obj.data = false) :
    ciInfixB ('s' :: 'k' :: '-' :: S)
      (factSourceExcerpt f).data = false := by
  have hall := secret_all_skRun hS
  have hne : ('s' :: 'k' :: '-' :: S) ≠ [] := by simp
  unfold factSourceExcerpt
  exact clean_sanitize hall hne (clean_spo hS h1 h2 h3) 150

/-- The bounded check implies the `AnchoredExact` hypothesis. -/
theorem anchoredExact_of_b {secret u : List Char}
    (h : anchoredExactB secret u = true) : AnchoredExact secret u := by
  intro pre suff heq hci
  subst heq
  unfold anchoredExactB at h
  rw [List.all_eq_true] at h
  have h2 := h pre.length (by
    rw [List.mem_range, List.length_append]
    omega)
  simp only [List.drop_left, List.take_left, hci, Bool.not_true,
    Bool.false_or, Bool.and_eq_true] at h2
  exact h2

/-- C2 (amended): under the `AnchoredExact` hypothesis — every
case-insensitive occurrence of the API-key-shaped secret, sk- followed
by a word-character run of length at least 20, in the user text, assistant text
and working-memory fields is case-exact and starts at a word boundary,
which is the case for ordinary API-key-shaped occurrences such as
API_KEY=sk-XXXXXXXXXXXXXXXXXXXX — `retainReflectIndex` redacts the user
text, assistant text and all working-memory fields before any
persistence (the persisted Exchange texts and sanitized working memory
are exactly the redacted inputs), and the secret appears verbatim in
none of the persisted texts: the Exchange record, the extracted facts
(fields, tags and source excerpts), episodes, open loops, the daily
journal block and header, and the rolling summary entry.  Without the
anchoring hypothesis the spec's unconditional claim is refuted by
`retainReflectIndex_leak_cex`. -/
theorem retainReflectIndex_redacts (S : List Char)
    (hS : S.all isWordChar = true) (hlen : 20 ≤ S.length)
    (chatId sessionNo : Int)
    (maxFactsPerRetain maxEpisodesPerRetain maxOpenLoops : Nat)
    (ts u a : String) (wm : WorkingMemoryIn)
    (hts : ts.data.all isIsoChar = true)
    (hu : AnchoredExact ('s' :: 'k' :: '-' :: S) u.data)
    (ha : AnchoredExact ('s' :: 'k' :: '-' :: S) a.data)
    (hg : AnchoredExact ('s' :: 'k' :: '-' :: S) wm.currentGoal.data)
    (hassume : ∀ x ∈ wm.assumptions,
      AnchoredExact ('s' :: 'k' :: '-' :: S) x.data)
    (hcons : ∀ x ∈ wm.activeConstraints,
      AnchoredExact ('s' :: 'k' :: '-' :: S) x.data)
    (htools : ∀ x ∈ wm.toolResultsSummary,
      AnchoredExact ('s' :: 'k' :: '-' :: S) x.data) :
    (retainReflectIndex chatId sessionNo maxFactsPerRetain
        maxEpisodesPerRetain maxOpenLoops ts u a wm).exchangeUserText =
      redactSensitiveText u ∧
    (retainReflectIndex chatId sessionNo maxFactsPerRetain
        maxEpisodesPerRetain maxOpenLoops ts u a wm).exchangeAssistantText =
      redactSensitiveText a ∧
    (retainReflectIndex chatId sessionNo maxFactsPerRetain
        maxEpisodesPerRetain maxOpenLoops ts u a wm).safeWorkingMemory =
      ⟨redactSensitiveText wm.currentGoal,
       wm.assumptions.map redactSensitiveText,
       wm.activeConstraints.map redactSensitiveText,
       wm.toolResultsSummary.map redactSensitiveText⟩ ∧
    NoVerbatimLeak ('s' :: 'k' :: '-' :: S)
      (retainReflectIndex chatId sessionNo maxFactsPerRetain
        maxEpisodesPerRetain maxOpenLoops ts u a wm) := by
  have hall := secret_all_skRun hS
  have hne : ('s' :: 'k' :: '-' :: S) ≠ [] := by simp
  have hu' : ciInfixB ('s' :: 'k' :: '-' :: S)
      (redactSensitiveText u).data = false :=
    redactList_clean S hS hlen u.data hu
  have ha' : ciInfixB ('s' :: 'k' :: '-' :: S)
      (redactSensitiveText a).data = false :=
    redactList_clean S hS hlen a.data ha
  have hg' : ciInfixB ('s' :: 'k' :: '-' :: S)
      (redactSensitiveText wm.currentGoal).data = false :=
    redactList_clean S hS hlen wm.currentGoal.data hg
  have hts' : ciInfixB ('s' :: 'k' :: '-' :: S) ts.data = false :=
    clean_iso hts
  have hf := extractFactCandidates_clean hS hlen hu' ha'
  have he := extractEpisodeCandidates_clean hS hlen maxEpisodesPerRetain
    hu' ha'
  have hl := extractOpenLoops_clean hS ha'
  have hfT : ∀ f ∈ (extractFactCandidates (redactSensitiveText u)
      (redactSensitiveText a)).take maxFactsPerRetain,
      ciInfixB ('s' :: 'k' :: '-' :: S) f.subject.data = false ∧
      ciInfixB ('s' :: 'k' :: '-' :: S) f.predicate.data = false ∧
      ciInfixB ('s' :: 'k' :: '-' :: S) f.obj.data = false := by
    intro f hfm
    have h := hf f (List.mem_of_mem_take hfm)
    exact ⟨h.1, h.2.1, h.2.2.1⟩
  have heT : ∀ e ∈ extractEpisodeCandidates (redactSensitiveText u)
      (redactSensitiveText a) maxEpisodesPerRetain,
      ciInfixB ('s' :: 'k' :: '-' :: S) e.summary.data = false := by
    intro e hem
    exact (he e hem).1
  have hlT : ∀ l ∈ (extractOpenLoops (redactSensitiveText a)).take
      maxOpenLoops,
      ciInfixB ('s' :: 'k' :: '-' :: S) l.data = false := by
    intro l hlm
    exact hl l (List.mem_of_mem_take hlm)
  have hart : ∀ x ∈ [sessionSummaryRel chatId sessionNo,
      sessionKeyFactsRel chatId sessionNo],
      ciInfixB ('s' :: 'k' :: '-' :: S) x = false := by
    intro x hx
    simp only [List.mem_cons, List.not_mem_nil, or_false] at hx
    rcases hx with rfl | rfl
    · exact clean_sessionSummaryRel hS chatId sessionNo
    · exact clean_sessionKeyFactsRel hS chatId sessionNo
  have hre := clean_turnEntry hS hlen hts' hu' ha'
  unfold NoVerbatimLeak retainReflectIndex
  dsimp only
  refine ⟨rfl, rfl, rfl, not_infix_of_clean hu', not_infix_of_clean ha',
    not_infix_of_clean hg', ?_, ?_, ?_, ?_, ?_, ?_,
    not_infix_of_clean (clean_journalBlock hS hlen chatId sessionNo
      hg' hu' ha' hfT heT hlT hart),
    not_infix_of_clean (clean_getDailyHeader hlen ts.data),
    not_infix_of_clean hre⟩
  · intro x hx
    simp only [List.mem_map] at hx
    obtain ⟨y, hy, rfl⟩ := hx
    exact not_infix_of_clean
      (redactList_clean S hS hlen y.data (hassume y hy))
  · intro x hx
    simp only [List.mem_map] at hx
    obtain ⟨y, hy, rfl⟩ := hx
    exact not_infix_of_clean
      (redactList_clean S hS hlen y.data (hcons y hy))
  · intro x hx
    simp only [List.mem_map] at hx
    obtain ⟨y, hy, rfl⟩ := hx
    exact not_infix_of_clean
      (redactList_clean S hS hlen y.data (htools y hy))
  · intro f hfm
    have h := hf f (List.mem_of_mem_take hfm)
    exact ⟨not_infix_of_clean h.1, not_infix_of_clean h.2.1,
      not_infix_of_clean h.2.2.1,
      fun t ht => not_infix_of_clean (h.2.2.2 t ht),
      not_infix_of_clean (clean_factSourceExcerpt hS h.1 h.2.1 h.2.2.1)⟩
  · intro e hem
    have h := he e hem
    exact ⟨not_infix_of_clean h.1,
      fun t ht => not_infix_of_clean (h.2 t ht)⟩
  · intro l hlm
    exact not_infix_of_clean (hl l (List.mem_of_mem_take hlm))

/-- C2 witness: a user message carrying a real anchored API-key-shaped
secret is fully scrubbed from every persisted text. -/
theorem retainReflectIndex_redacts_witness :
    ("XXXXXXXXXXXXXXXXXXXX".data.all isWordChar = true) ∧
    NoVerbatimLeak ('s' :: 'k' :: '-' :: "XXXXXXXXXXXXXXXXXXXX".data)
      (retainReflectIndex 7 1 3 1 5 "2025-01-02T03:04:05.000Z"
        "API_KEY=sk-XXXXXXXXXXXXXXXXXXXX done" "ok"
        ⟨"plan", [], [], []⟩) :=
  ⟨by decide,
   (retainReflectIndex_redacts ("XXXXXXXXXXXXXXXXXXXX".data) (by decide)
      (by decide) 7 1 3 1 5 "2025-01-02T03:04:05.000Z"
      "API_KEY=sk-XXXXXXXXXXXXXXXXXXXX done" "ok" ⟨"plan", [], [], []⟩
      (by decide) (anchoredExact_of_b (by decide))
      (anchoredExact_of_b (by decide)) (anchoredExact_of_b (by decide))
      (by intro x hx; exact absurd hx (by simp))
      (by intro x hx; exact absurd hx (by simp))
      (by intro x hx; exact absurd hx (by simp))).2.2.2⟩

/-- C2 counterexample to the literal spec sentence: the secret
sk-XXXXXXXXXXXXXXXXXXXX occurs in the user message both anchored
(API_KEY=sk-XXXXXXXXXXXXXXXXXXXX, which rule 1 redacts) and embedded in
the longer word Ask-XXXXXXXXXXXXXXXXXXXX, where the leading word
character A defeats the word-boundary anchor of every sensitive pattern;
the persisted Exchange user text then still contains the secret
verbatim. -/
theorem retainReflectIndex_leak_cex :
    (('s' :: 'k' :: '-' :: "XXXXXXXXXXXXXXXXXXXX".data) <:+:
      ("API_KEY=sk-XXXXXXXXXXXXXXXXXXXX and note Ask-XXXXXXXXXXXXXXXXXXXX".data)) ∧
    (retainReflectIndex 7 1 3 1 5 "2025-01-02T03:04:05.000Z"
        "API_KEY=sk-XXXXXXXXXXXXXXXXXXXX and note Ask-XXXXXXXXXXXXXXXXXXXX"
        "ok" ⟨"plan", [], [], []⟩).exchangeUserText =
      "API_KEY=[REDACTED] and note Ask-XXXXXXXXXXXXXXXXXXXX" ∧
    (('s' :: 'k' :: '-' :: "XXXXXXXXXXXXXXXXXXXX".data) <:+:
      (retainReflectIndex 7 1 3 1 5 "2025-01-02T03:04:05.000Z"
        "API_KEY=sk-XXXXXXXXXXXXXXXXXXXX and note Ask-XXXXXXXXXXXXXXXXXXXX"
        "ok" ⟨"plan", [], [], []⟩).exchangeUserText.data) := by
  have heq : (retainReflectIndex 7 1 3 1 5 "2025-01-02T03:04:05.000Z"
      "API_KEY=sk-XXXXXXXXXXXXXXXXXXXX and note Ask-XXXXXXXXXXXXXXXXXXXX"
      "ok" ⟨"plan", [], [], []⟩).exchangeUserText =
      "API_KEY=[REDACTED] and note Ask-XXXXXXXXXXXXXXXXXXXX" := by
    decide
  refine ⟨by decide, heq, ?_⟩
  rw [heq]
  decide

end Dexbot
